import Mathlib

/-!
Verification of ansidev/project-configs, the configuration copier.

Shallow embedding of `config.go`, `copy.go` and `filepath.go`.

* Go strings are byte sequences; they are embedded as lists of byte values.
* A Go `error` is identified with its message; `nil` is `none`.
* A Go map is embedded as its lookup function.
* Terminal output through `pterm` is embedded as the list of lines printed.
-/

namespace ProjectConfigs

/-! ## Strings and errors -/

/-- Go `string`: a sequence of bytes (each value below 256). -/
abbrev GoString := List Nat

/-- Bytes of an ASCII literal. -/
def str (s : String) : GoString := s.toList.map Char.toNat

/-- Go `error` value, identified with the text `Error()` returns. -/
structure GoError where
  msg : GoString
deriving DecidableEq, Repr

/-- Decimal rendering of a non-negative `int`, the `%d` verb of package `fmt`. -/
def fmtInt (n : Nat) : GoString := str (Nat.repr n)

/-! ## config.go -/

/-- Catalog entry, `type configMetadata struct` of config.go. -/
structure configMetadata where
  Path : GoString
  PostMessage : GoString
deriving DecidableEq, Repr

/-- The catalog `map[string][]configMetadata`, embedded as its lookup: `configs label` is
`some entries` when `label` is a key and `none` otherwise. -/
abbrev Catalog := GoString → Option (List configMetadata)

/-- Embedding of `getConfigMetadata` (config.go): the `for … range selectedConfigs` loop appending
the entries of every selected label that exists in the map. -/
def getConfigMetadata (configs : Catalog) (selectedConfigs : List GoString) :
    List configMetadata :=
  selectedConfigs.foldl
    (fun configMetadata selectedConfig =>
      match configs selectedConfig with
      | some selectedConfigMetadata => configMetadata ++ selectedConfigMetadata
      | none => configMetadata)
    []

/-- Specification side of the resolved file list: keep the selected labels that are catalog keys,
in selection order, and concatenate their entry lists. -/
def resolvedFileList (configs : Catalog) (selection : List GoString) : List configMetadata :=
  ((selection.filter (fun label => (configs label).isSome)).map
    (fun label => (configs label).getD [])).flatten

/-- Specification side of "every repeated occurrence of a label after its first removed". -/
def removeRepeats : List GoString → List GoString
  | [] => []
  | label :: rest => label :: (removeRepeats rest).filter (fun other => other ≠ label)

/-! ## copy.go: events and the reporter -/

/-- Embedding of `type CopyEvent struct` of copy.go. -/
structure CopyEvent where
  SrcPath : GoString
  DestPath : GoString
  PostMessage : GoString
  Error : Option GoError
deriving DecidableEq, Repr

/-- One line written to the terminal, tagged with the `pterm` printer used. -/
inductive Line where
  | error (text : GoString)
  | success (text : GoString)
  | info (text : GoString)
  | plain (text : GoString)
deriving DecidableEq, Repr

/-- Local variables of `processCopyEvents` together with the lines printed so far. The counters
are Go `int`s; they are bounded by the number of events, far below the 64-bit range. -/
structure Tally where
  successCount : Nat
  errorCount : Nat
  successEvents : List CopyEvent
  printed : List Line
deriving DecidableEq, Repr

/-- Body of the `for event := range eventChan` loop of `processCopyEvents`, between
`confirmMu.Lock()` and `confirmMu.Unlock()`. -/
def reportEvent (t : Tally) (event : CopyEvent) : Tally :=
  match event.Error with
  | some err =>
    { t with
      errorCount := t.errorCount + 1
      printed := t.printed ++
        [Line.error (str "Failed to copy " ++ event.SrcPath ++ str " to " ++ event.DestPath ++
          str ": " ++ err.msg)] }
  | none =>
    let t1 : Tally :=
      { t with
        successCount := t.successCount + 1
        printed := t.printed ++
          [Line.success (str "Successfully copied " ++ event.SrcPath ++ str " to " ++
            event.DestPath)] }
    if event.PostMessage.length > 0 then
      { t1 with successEvents := t1.successEvents ++ [event] }
    else t1

/-- State of `processCopyEvents` on entry. -/
def Tally.init : Tally := ⟨0, 0, [], []⟩

/-- The loop of `processCopyEvents` over the events received before the channel is closed. -/
def drainEvents (events : List CopyEvent) : Tally :=
  events.foldl reportEvent Tally.init

/-- Rendering of one post-copy message, `pterm.Info.Printfln("%s: %s", DestPath, PostMessage)`. -/
def postMessageLine (successEvent : CopyEvent) : Line :=
  Line.info (successEvent.DestPath ++ str ": " ++ successEvent.PostMessage)

/-- The summary line of `processCopyEvents`: the error count when there are errors, the success
count otherwise. -/
def summaryLine (t : Tally) : Line :=
  if t.errorCount > 0 then
    Line.error (str "Completed with " ++ fmtInt t.errorCount ++ str " errors")
  else
    Line.success (str "Successfully copied " ++ fmtInt t.successCount ++ str " files")

/-- The `result` variable of `processCopyEvents`: set only when `errorCount > 0`. -/
def resultError (t : Tally) : Option GoError :=
  if t.errorCount > 0 then some ⟨fmtInt t.errorCount ++ str " files failed to copy"⟩ else none

/-- The part of `processCopyEvents` after the loop: a blank line, the summary, a blank line, one
line per remembered success event, and the returned error. -/
def summarize (t : Tally) : List Line × Option GoError :=
  (t.printed ++ [Line.plain [], summaryLine t, Line.plain []] ++
      t.successEvents.map postMessageLine,
    resultError t)

/-- Embedding of `processCopyEvents` (copy.go) on the sequence of events the channel delivers
before it is closed: the lines printed and the returned error. -/
def processCopyEvents (events : List CopyEvent) : List Line × Option GoError :=
  summarize (drainEvents events)

/-- Whether a line was written by `pterm.Info`. -/
def Line.isInfo : Line → Bool
  | Line.info _ => true
  | _ => false

/-- Whether an event is a success carrying a post-copy message. -/
def CopyEvent.hasPostMessage (event : CopyEvent) : Bool :=
  event.Error.isNone && decide (event.PostMessage ≠ [])


/-- The catalog of the scenario in the specification:
`web ↦ [nginx.conf]`, `db ↦ [pg.conf with message "set POSTGRES_PASSWORD"]`. -/
def exampleCatalog : Catalog := fun label =>
  if label = str "web" then some [⟨str "nginx.conf", []⟩]
  else if label = str "db" then some [⟨str "pg.conf", str "set POSTGRES_PASSWORD"⟩]
  else none

/-! ## Standard-library functions used by filepath.go and copy.go

These are functions of Go's standard library, not of the repository; they are embedded from
their library implementation for a Unix-like target (separator `/`, no volume names). -/

/-- `utf8.RuneSelf`: bytes below it are single-byte runes. -/
def RuneSelf : Nat := 0x80

/-- `utf8.RuneError`, the rune produced for an invalid encoding. -/
def RuneError : Nat := 0xFFFD

/-- `utf8.UTFMax`, the longest encoding of a rune. -/
def UTFMax : Nat := 4

/-- Entry of the table `first` of package `unicode/utf8` for a lead byte, decoded into the
encoding size and the accepted range of the second byte; `none` for an illegal lead byte
(`xx`). ASCII bytes are handled before the table is consulted. -/
def leadInfo (b : Nat) : Option (Nat × Nat × Nat) :=
  if 0xC2 ≤ b ∧ b ≤ 0xDF then some (2, 0x80, 0xBF)
  else if b = 0xE0 then some (3, 0xA0, 0xBF)
  else if 0xE1 ≤ b ∧ b ≤ 0xEC then some (3, 0x80, 0xBF)
  else if b = 0xED then some (3, 0x80, 0x9F)
  else if 0xEE ≤ b ∧ b ≤ 0xEF then some (3, 0x80, 0xBF)
  else if b = 0xF0 then some (4, 0x90, 0xBF)
  else if 0xF1 ≤ b ∧ b ≤ 0xF3 then some (4, 0x80, 0xBF)
  else if b = 0xF4 then some (4, 0x80, 0x8F)
  else none

/-- Continuation-byte test `locb ≤ c ≤ hicb` of package `unicode/utf8`. -/
def isCont (c : Nat) : Bool := decide (0x80 ≤ c ∧ c ≤ 0xBF)

/-- `utf8.DecodeRuneInString`: the first rune of `s` and its width in bytes; `(RuneError, 0)`
for the empty string and `(RuneError, 1)` for an invalid encoding. -/
def DecodeRuneInString (s : GoString) : Nat × Nat :=
  match s with
  | [] => (RuneError, 0)
  | s0 :: rest =>
    if s0 < RuneSelf then (s0, 1)
    else
      match leadInfo s0 with
      | none => (RuneError, 1)
      | some (sz, lo, hi) =>
        if s.length < sz then (RuneError, 1)
        else
          match rest with
          | [] => (RuneError, 1)
          | s1 :: rest1 =>
            if s1 < lo ∨ hi < s1 then (RuneError, 1)
            else if sz ≤ 2 then (((s0 &&& 0x1F) <<< 6) ||| (s1 &&& 0x3F), 2)
            else
              match rest1 with
              | [] => (RuneError, 1)
              | s2 :: rest2 =>
                if !isCont s2 then (RuneError, 1)
                else if sz ≤ 3 then
                  (((s0 &&& 0x0F) <<< 12) ||| ((s1 &&& 0x3F) <<< 6) ||| (s2 &&& 0x3F), 3)
                else
                  match rest2 with
                  | [] => (RuneError, 1)
                  | s3 :: _ =>
                    if !isCont s3 then (RuneError, 1)
                    else
                      (((s0 &&& 0x07) <<< 18) ||| ((s1 &&& 0x3F) <<< 12)
                        ||| ((s2 &&& 0x3F) <<< 6) ||| (s3 &&& 0x3F), 4)

/-- Loop of `utf8.ValidString`; `fuel` bounds the number of iterations by the length. -/
def validLoop : Nat → GoString → Bool
  | 0, s => s.isEmpty
  | fuel + 1, s =>
    match s with
    | [] => true
    | si :: rest =>
      if si < RuneSelf then validLoop fuel rest
      else
        match leadInfo si with
        | none => false
        | some (size, lo, hi) =>
          if s.length < size then false
          else
            match rest with
            | [] => false
            | c1 :: rest1 =>
              if c1 < lo ∨ hi < c1 then false
              else if size = 2 then validLoop fuel rest1
              else
                match rest1 with
                | [] => false
                | c2 :: rest2 =>
                  if !isCont c2 then false
                  else if size = 3 then validLoop fuel rest2
                  else
                    match rest2 with
                    | [] => false
                    | c3 :: rest3 => if !isCont c3 then false else validLoop fuel rest3

/-- `utf8.ValidString`: whether `s` consists entirely of valid UTF-8-encoded runes. -/
def ValidString (s : GoString) : Bool := validLoop s.length s

/-- `utf8.RuneStart`: whether the byte could be the first byte of an encoded rune. -/
def RuneStart (b : Nat) : Bool := (b &&& 0xC0) != 0x80

/-- The backward scan of `utf8.DecodeLastRuneInString`:
`for start--; start >= lim; start-- { if RuneStart(s[start]) { break } }`, entered after the
initial `start--`. -/
def scanStart (s : GoString) (lim : Int) : Nat → Int → Int
  | 0, start => start
  | fuel + 1, start =>
    if start ≥ lim then
      if RuneStart (s.getD start.toNat 0) then start else scanStart s lim fuel (start - 1)
    else start

/-- `utf8.DecodeLastRuneInString`: the last rune of `s` and its width in bytes. -/
def DecodeLastRuneInString (s : GoString) : Nat × Nat :=
  let stop : Int := s.length
  if s.length = 0 then (RuneError, 0)
  else
    let r := s.getD (s.length - 1) 0
    if r < RuneSelf then (r, 1)
    else
      let lim : Int := if stop - UTFMax < 0 then 0 else stop - UTFMax
      let start := scanStart s lim UTFMax (stop - 2)
      let start := if start < 0 then 0 else start
      let (r, size) := DecodeRuneInString (s.drop start.toNat)
      if start + size ≠ stop then (RuneError, 1) else (r, size)

/-- `unicode.IsSpace`: the Latin-1 spaces and the code points of the `White_Space` table. -/
def IsSpace (r : Nat) : Bool :=
  if r ≤ 0xFF then
    decide (r = 9 ∨ r = 10 ∨ r = 11 ∨ r = 12 ∨ r = 13 ∨ r = 32 ∨ r = 0x85 ∨ r = 0xA0)
  else
    decide (r = 0x1680 ∨ (0x2000 ≤ r ∧ r ≤ 0x200a) ∨ r = 0x2028 ∨ r = 0x2029 ∨ r = 0x202f
      ∨ r = 0x205f ∨ r = 0x3000)

/-- The table `asciiSpace` of package `strings`. -/
def asciiSpace (c : Nat) : Bool :=
  decide (c = 9 ∨ c = 10 ∨ c = 11 ∨ c = 12 ∨ c = 13 ∨ c = 32)

/-- `strings.indexFunc`: the `for i, r := range s` loop returning the byte index of the first
rune with `f r = truth`, counted from `i`; `none` stands for `-1`. -/
def indexFunc (f : Nat → Bool) (truth : Bool) : Nat → GoString → Nat → Option Nat
  | 0, _, _ => none
  | fuel + 1, s, i =>
    match s with
    | [] => none
    | _ :: _ =>
      let (r, size) := DecodeRuneInString s
      if f r = truth then some i else indexFunc f truth fuel (s.drop size) (i + size)

/-- `strings.lastIndexFunc`: scanning runes backwards from byte index `i`; `none` stands
for `-1`. -/
def lastIndexFunc (f : Nat → Bool) (truth : Bool) (s : GoString) : Nat → Nat → Option Nat
  | 0, _ => none
  | fuel + 1, i =>
    if i > 0 then
      let (r, size) := DecodeLastRuneInString (s.take i)
      if f r = truth then some (i - size) else lastIndexFunc f truth s fuel (i - size)
    else none

/-- `strings.TrimLeftFunc`. -/
def TrimLeftFunc (s : GoString) (f : Nat → Bool) : GoString :=
  match indexFunc f false s.length s 0 with
  | none => []
  | some i => s.drop i

/-- `strings.TrimRightFunc`. -/
def TrimRightFunc (s : GoString) (f : Nat → Bool) : GoString :=
  match lastIndexFunc f false s s.length s.length with
  | some i =>
    if s.getD i 0 ≥ RuneSelf then s.take (i + (DecodeRuneInString (s.drop i)).2)
    else s.take (i + 1)
  | none => s.take 0

/-- `strings.TrimFunc`. -/
def TrimFunc (s : GoString) (f : Nat → Bool) : GoString :=
  TrimRightFunc (TrimLeftFunc s f) f

/-- Second loop of `strings.TrimSpace`, on `s[start:]` given as the reversed remainder
`rev`: strips ASCII spaces from the end and switches to `TrimRightFunc` at the first non-ASCII
byte. -/
def trimSpaceRight : GoString → GoString
  | [] => []
  | c :: rev =>
    if c ≥ RuneSelf then TrimRightFunc (c :: rev).reverse IsSpace
    else if asciiSpace c then trimSpaceRight rev
    else (c :: rev).reverse

/-- `strings.TrimSpace`: the first loop strips leading ASCII spaces and switches to `TrimFunc`
at the first non-ASCII byte; the second loop strips from the end. -/
def TrimSpace : GoString → GoString
  | [] => []
  | c :: rest =>
    if c ≥ RuneSelf then TrimFunc (c :: rest) IsSpace
    else if asciiSpace c then TrimSpace rest
    else trimSpaceRight (c :: rest).reverse

/-- `strings.ContainsRune(s, r)` for a rune below `RuneSelf`, where it is `IndexByte(s, r) ≥ 0`. -/
def ContainsRune (s : GoString) (r : Nat) : Bool := s.contains r

/-- `strings.trimLeftByte`. -/
def trimLeftByte : GoString → Nat → GoString
  | [], _ => []
  | s0 :: rest, c => if s0 = c then trimLeftByte rest c else s0 :: rest

/-- `strings.trimRightByte`. -/
def trimRightByte (s : GoString) (c : Nat) : GoString :=
  (trimLeftByte s.reverse c).reverse

/-- `strings.Trim(s, cutset)` for a cutset of one ASCII byte, the only case filepath.go uses. -/
def Trim (s : GoString) (c : Nat) : GoString :=
  if s = [] then s else trimLeftByte (trimRightByte s c) c

/-- `os.IsPathSeparator` on a Unix-like system. -/
def IsPathSeparator (c : Nat) : Bool := c == 47

/-- The backtracking of `filepath.Clean` on a `..` element, after the first `out.w--`:
`for out.w > dotdot && !os.IsPathSeparator(out.index(out.w)) { out.w-- }`. The buffer is kept
reversed; `removed` is the byte at index `out.w`, the one dropped last. -/
def cleanBacktrack (dotdot : Nat) : Nat → GoString → GoString
  | _, [] => []
  | removed, b :: outRev =>
    if (b :: outRev).length > dotdot ∧ !IsPathSeparator removed then
      cleanBacktrack dotdot b outRev
    else b :: outRev

/-- The main loop `for r < n` of `filepath.Clean`. `path` is the unread input `path[r:]`,
`outRev` the output buffer `out` reversed (its length is `out.w`; the lazy allocation of
`lazybuf` is not observable), `dotdot` the index where `..` must stop. Every iteration reads at
least one byte, so `fuel = len(path)` iterations suffice. -/
def cleanLoop (rooted : Bool) : Nat → GoString → GoString → Nat → GoString
  | 0, _, outRev, _ => outRev
  | fuel + 1, path, outRev, dotdot =>
    match path with
    | [] => outRev
    | c :: rest =>
      if IsPathSeparator c then
        -- empty path element
        cleanLoop rooted fuel rest outRev dotdot
      else if c = 46 ∧ (rest = [] ∨ IsPathSeparator (rest.headD 0)) then
        -- . element
        cleanLoop rooted fuel rest outRev dotdot
      else if c = 46 ∧ rest.headD 0 = 46 ∧
          (rest.tail = [] ∨ IsPathSeparator (rest.tail.headD 0)) then
        -- .. element: remove to last separator
        if outRev.length > dotdot then
          match outRev with
          | [] => cleanLoop rooted fuel rest.tail outRev dotdot
          | last :: outRev1 =>
            cleanLoop rooted fuel rest.tail (cleanBacktrack dotdot last outRev1) dotdot
        else if !rooted then
          let out1 := if outRev.length > 0 then 47 :: outRev else outRev
          let out2 := 46 :: 46 :: out1
          cleanLoop rooted fuel rest.tail out2 out2.length
        else cleanLoop rooted fuel rest.tail outRev dotdot
      else
        -- real path element: add slash if needed, then copy element
        let out1 :=
          if (rooted ∧ outRev.length ≠ 1) ∨ (!rooted ∧ outRev.length ≠ 0) then 47 :: outRev
          else outRev
        let elem := (c :: rest).takeWhile (fun b => !IsPathSeparator b)
        cleanLoop rooted fuel ((c :: rest).dropWhile (fun b => !IsPathSeparator b))
          (elem.reverse ++ out1) dotdot

/-- `filepath.Clean` on a Unix-like system. -/
def Clean (path : GoString) : GoString :=
  match path with
  | [] => [46]
  | c :: rest =>
    let rooted := IsPathSeparator c
    let outRev :=
      if rooted then cleanLoop rooted path.length rest [47] 1
      else cleanLoop rooted path.length path [] 0
    -- Turn empty string into "."
    if outRev.length = 0 then [46] else outRev.reverse

/-- `filepath.Join` of two elements on a Unix-like system: empty elements are ignored and the
rest joined with `/` and cleaned. -/
def Join (a b : GoString) : GoString :=
  if a ≠ [] then Clean (a ++ [47] ++ b)
  else if b ≠ [] then Clean b
  else []

/-- The scan of `filepath.Dir`: `path[:i+1]` where `i` is the index of the last separator
(`-1` when there is none). -/
def dirPrefix (path : GoString) : GoString :=
  (path.reverse.dropWhile (fun b => !IsPathSeparator b)).reverse

/-- `filepath.Dir` on a Unix-like system. -/
def Dir (path : GoString) : GoString := Clean (dirPrefix path)

/-- The runes of `s` in the order a `for _, r := range s` loop yields them (`RuneError` for
every byte that does not start a valid encoding); `fuel = len(s)` covers the whole string. -/
def runes : Nat → GoString → List Nat
  | 0, _ => []
  | fuel + 1, s =>
    match s with
    | [] => []
    | _ :: _ => (DecodeRuneInString s).1 :: runes fuel (s.drop (DecodeRuneInString s).2)

/-- Specification side of "empty or whitespace-only": every rune of the string is white space
in the sense of `unicode.IsSpace`. -/
def whitespaceOnly (s : GoString) : Bool := (runes s.length s).all IsSpace

/-- Specification side of "leading and trailing single quotes trimmed": the single quotes at
the front dropped, then those at the back. -/
def trimQuotes (s : GoString) : GoString :=
  (s.dropWhile (fun b => b == 39)).rdropWhile (fun b => b == 39)

/-- Specification side of "valid UTF-8", first half: one well-formed UTF-8 byte sequence, the
rows of Table 3-7 of the Unicode Standard. -/
def wellFormedSeq : GoString → Bool
  | [b0] => decide (b0 ≤ 0x7F)
  | [b0, b1] => decide (0xC2 ≤ b0 ∧ b0 ≤ 0xDF ∧ 0x80 ≤ b1 ∧ b1 ≤ 0xBF)
  | [b0, b1, b2] =>
    decide (((b0 = 0xE0 ∧ 0xA0 ≤ b1 ∧ b1 ≤ 0xBF) ∨ (0xE1 ≤ b0 ∧ b0 ≤ 0xEC ∧ 0x80 ≤ b1 ∧ b1 ≤ 0xBF)
        ∨ (b0 = 0xED ∧ 0x80 ≤ b1 ∧ b1 ≤ 0x9F) ∨ (0xEE ≤ b0 ∧ b0 ≤ 0xEF ∧ 0x80 ≤ b1 ∧ b1 ≤ 0xBF))
      ∧ 0x80 ≤ b2 ∧ b2 ≤ 0xBF)
  | [b0, b1, b2, b3] =>
    decide (((b0 = 0xF0 ∧ 0x90 ≤ b1 ∧ b1 ≤ 0xBF) ∨ (0xF1 ≤ b0 ∧ b0 ≤ 0xF3 ∧ 0x80 ≤ b1 ∧ b1 ≤ 0xBF)
        ∨ (b0 = 0xF4 ∧ 0x80 ≤ b1 ∧ b1 ≤ 0x8F))
      ∧ 0x80 ≤ b2 ∧ b2 ≤ 0xBF ∧ 0x80 ≤ b3 ∧ b3 ≤ 0xBF)
  | _ => false

/-- Specification side of "valid UTF-8": the string is a concatenation of well-formed UTF-8
byte sequences. -/
def WellFormedUTF8 (s : GoString) : Prop :=
  ∃ seqs : List GoString, seqs.flatten = s ∧ ∀ q ∈ seqs, wellFormedSeq q = true

/-! ## filepath.go -/

/-- Embedding of `validateNormalizedFilePath` (filepath.go). `windows` is
`runtime.GOOS == "windows"`; the Windows-specific checks (invalid characters, reserved device
names, trailing space or dot) are represented by their verdict `windowsChecks`, the Unix branch
is the length check against 4096. -/
def validateNormalizedFilePath (windows : Bool) (windowsChecks : GoString → Option GoError)
    (normalizedFilePath : GoString) : Option GoError :=
  if windows then windowsChecks normalizedFilePath
  else if normalizedFilePath.length > 4096 then some ⟨str "file path is too long"⟩
  else none

/-- Embedding of `convertToFilePath` (filepath.go). `clean` is `filepath.Clean` of the target
system (`Clean` above on a non-Windows system). -/
def convertToFilePath (windows : Bool) (windowsChecks : GoString → Option GoError)
    (clean : GoString → GoString) (input : GoString) : Except GoError GoString :=
  if TrimSpace input = [] then .error ⟨str "file path cannot be empty"⟩
  else if !ValidString input then
    .error ⟨str "file path contains invalid UTF-8 characters"⟩
  else if ContainsRune input 0 then
    .error ⟨str "file path contains invalid null character"⟩
  else
    let normalizedFilePath := clean (Trim input 39)
    match validateNormalizedFilePath windows windowsChecks normalizedFilePath with
    | some _ => .error ⟨str "file path is not valid: " ++ normalizedFilePath⟩
    | none => .ok normalizedFilePath

/-! ## The file system seen by copy.go

A model of the part of the operating system that copy.go drives through package `os`: a flat map
from cleaned path names to nodes. Hard links, symbolic links and the distinction between
absolute and working-directory-relative names of one file are outside the model. Every call can
also fail for a reason outside the model (permissions, I/O errors, a full disk): that is the
`fault` argument of each operation, the error to fail with, or `none`. -/

/-- What a path names: a regular file with its content, or a directory. -/
inductive Node where
  | file (content : GoString)
  | dir
deriving DecidableEq, Repr

/-- File-system state: the node found under each cleaned path. -/
abbrev FS := GoString → Option Node

/-- Name resolution: the empty name resolves to nothing, any other name to the node under its
cleaned form. -/
def FS.lookup (fs : FS) (path : GoString) : Option Node :=
  if path = [] then none else fs (Clean path)

/-- The state with `node` stored under the cleaned form of `path`. -/
def FS.store (fs : FS) (path : GoString) (node : Node) : FS :=
  fun p => if p = Clean path then some node else fs p

/-- Whether `path` names an existing directory. -/
def FS.isDir (fs : FS) (path : GoString) : Bool :=
  match fs.lookup path with
  | some Node.dir => true
  | _ => false

/-- Error text of a failed system call, in the format of `*fs.PathError`. -/
def pathError (op : String) (path : GoString) (reason : String) : GoError :=
  ⟨str op ++ str " " ++ path ++ str ": " ++ str reason⟩

/-- `os.Stat`: the node under `path`, or an error when there is none. -/
def osStat (fs : FS) (fault : Option GoError) (path : GoString) : Except GoError Node :=
  match fault with
  | some err => .error err
  | none =>
    match fs.lookup path with
    | some node => .ok node
    | none => .error (pathError "stat" path "no such file or directory")

/-- `os.Open`: opens an existing file or directory for reading; the handle is the cleaned
path. -/
def osOpen (fs : FS) (fault : Option GoError) (path : GoString) : Except GoError GoString :=
  match fault with
  | some err => .error err
  | none =>
    match fs.lookup path with
    | some _ => .ok (Clean path)
    | none => .error (pathError "open" path "no such file or directory")

/-- `os.Mkdir`: creates one directory; its parent must be a directory and the name unused. -/
def osMkdir (fs : FS) (path : GoString) : Except GoError FS :=
  match fs.lookup path with
  | some _ => .error (pathError "mkdir" path "file exists")
  | none =>
    if path ≠ [] ∧ fs.isDir (Dir (Clean path)) then .ok (fs.store path Node.dir)
    else .error (pathError "mkdir" path "no such file or directory")

/-- The parent scan of `os.MkdirAll`: `path[:i+1]` after skipping the trailing separators and
then the last element. -/
def mkdirAllParent (path : GoString) : GoString :=
  ((path.reverse.dropWhile IsPathSeparator).dropWhile (fun b => !IsPathSeparator b)).reverse

/-- The recursion of `os.MkdirAll`; the parent is strictly shorter, so `fuel = len(path) + 1`
suffices. -/
def mkdirAllRec : Nat → FS → GoString → Except GoError FS
  | 0, fs, _ => .ok fs
  | fuel + 1, fs, path =>
    -- Fast path: if we can tell whether path is a directory or file, stop.
    match fs.lookup path with
    | some Node.dir => .ok fs
    | some (Node.file _) => .error (pathError "mkdir" path "not a directory")
    | none =>
      -- Slow path: make sure parent exists and then call Mkdir for path.
      let parent := mkdirAllParent path
      let made : Except GoError FS :=
        if parent.length > 0 then mkdirAllRec fuel fs parent else .ok fs
      match made with
      | .error err => .error err
      | .ok fs1 =>
        match osMkdir fs1 path with
        | .ok fs2 => .ok fs2
        | .error err => if fs1.isDir path then .ok fs1 else .error err

/-- `os.MkdirAll`: creates the directory and all missing parents. -/
def osMkdirAll (fs : FS) (fault : Option GoError) (path : GoString) : Except GoError FS :=
  match fault with
  | some err => .error err
  | none => mkdirAllRec (path.length + 1) fs path

/-- `os.Create`: creates the file or truncates it when it exists; fails on a directory or when
the parent directory is missing. The handle is the cleaned path. -/
def osCreate (fs : FS) (fault : Option GoError) (path : GoString) :
    Except GoError (FS × GoString) :=
  match fault with
  | some err => .error err
  | none =>
    match fs.lookup path with
    | some Node.dir => .error (pathError "open" path "is a directory")
    | _ =>
      if path ≠ [] ∧ fs.isDir (Dir (Clean path)) then
        .ok (fs.store path (Node.file []), Clean path)
      else .error (pathError "open" path "no such file or directory")

/-- `io.Copy(dstFile, srcFile)` on two freshly opened handles: the bytes the source holds when
they are read are written to the destination. A fault `(n, err)` stops the copy with `err`
after at most `n` bytes; reading a directory fails. -/
def ioCopy (fs : FS) (fault : Option (Nat × GoError)) (dstFile srcFile : GoString) :
    FS × Option GoError :=
  match fs srcFile with
  | some (Node.file content) =>
    match fault with
    | some (n, err) => (fun p => if p = dstFile then some (Node.file (content.take n)) else fs p,
        some err)
    | none => (fun p => if p = dstFile then some (Node.file content) else fs p, none)
  | _ => (fs, some (pathError "read" srcFile "is a directory"))

/-- `(*os.File).Sync`: has no effect on the modelled state and fails only by fault. -/
def fileSync (fault : Option GoError) : Option GoError := fault

/-! ## copy.go: one per-file task -/

/-- `const BASE_SOURCE_DIR = "./configs"`. -/
def BASE_SOURCE_DIR : GoString := str "./configs"

/-- What the environment does to one per-file task: the fault of each system call and the
answer to the overwrite prompt (`Show()` returns it as `result`; its error is ignored by the
code). -/
structure Outcomes where
  stat : Option GoError
  overwrite : Bool
  openSrc : Option GoError
  mkdirAll : Option GoError
  create : Option GoError
  copy : Option (Nat × GoError)
  sync : Option GoError

/-- Embedding of `CopyManager.copyFile` (copy.go) run without interference: the resulting file
system and the events sent on `eventChan`, in order. The deferred `Close` calls do not change
the modelled state. -/
def copyFile (env : Outcomes) (fs : FS) (baseSrcDir : GoString) (src : configMetadata)
    (dst : GoString) : FS × List CopyEvent :=
  -- Open source file
  match osOpen fs env.openSrc (Join baseSrcDir src.Path) with
  | .error err =>
    (fs, [{ SrcPath := src.Path, DestPath := dst, PostMessage := [], Error := some err }])
  | .ok srcFile =>
    -- Get the directory path from the input
    let dir := Dir dst
    -- Create directories recursively
    match osMkdirAll fs env.mkdirAll dir with
    | .error err =>
      (fs, [{ SrcPath := src.Path, DestPath := dst, PostMessage := [],
              Error := some ⟨str "failed to create directory path " ++ dir ++ str ": " ++
                err.msg⟩ }])
    | .ok fs1 =>
      -- Create destination file
      match osCreate fs1 env.create dst with
      | .error err =>
        (fs1, [{ SrcPath := src.Path, DestPath := dst, PostMessage := [], Error := some err }])
      | .ok (fs2, dstFile) =>
        -- Copy file contents
        match ioCopy fs2 env.copy dstFile srcFile with
        | (fs3, some err) =>
          (fs3, [{ SrcPath := src.Path, DestPath := dst, PostMessage := [], Error := some err }])
        | (fs3, none) =>
          -- Ensure file is written to disk
          match fileSync env.sync with
          | some err =>
            (fs3, [{ SrcPath := src.Path, DestPath := dst, PostMessage := [],
                     Error := some err }])
          | none =>
            (fs3, [{ SrcPath := src.Path, DestPath := dst, PostMessage := src.PostMessage,
                     Error := none }])

/-- The error of a declined overwrite, `fmt.Errorf("overwrite cancelled by user")`. -/
def overwriteCancelled : GoError := ⟨str "overwrite cancelled by user"⟩

/-- Embedding of the goroutine body of `CopyManager.CopyFilesConcurrently` (copy.go) for one
file, run without interference: the resulting file system and the events sent on `eventChan`.
The mutex around the prompt matters only between tasks; see the state machine below. -/
def copyTask (env : Outcomes) (fs : FS) (src : configMetadata) (dst : GoString) :
    FS × List CopyEvent :=
  -- Check if destination file exists
  match osStat fs env.stat dst with
  | .ok _ =>
    if !env.overwrite then
      (fs, [{ SrcPath := src.Path, DestPath := dst, PostMessage := [],
              Error := some overwriteCancelled }])
    else copyFile env fs BASE_SOURCE_DIR src dst
  | .error _ =>
    -- Proceed with copying
    copyFile env fs BASE_SOURCE_DIR src dst

/-- Outcomes with no fault and the given prompt answer. -/
def Outcomes.clean (overwrite : Bool) : Outcomes :=
  ⟨none, overwrite, none, none, none, none, none⟩

/-- A project checkout: the working directory, the directory `configs` and the file
`configs/a.conf` with content `x`. -/
def checkoutFS : FS := fun p =>
  if p = str "." then some Node.dir
  else if p = str "configs" then some Node.dir
  else if p = str "configs/a.conf" then some (Node.file (str "x"))
  else none

/-- The iterated `filepath.Dir` of a path: its parent, grandparent, and so on, `depth` times. -/
def ancestors : Nat → GoString → List GoString
  | 0, _ => []
  | depth + 1, path => Dir path :: ancestors depth (Dir path)

/-! ## copy.go: `CopyFilesConcurrently` as a transition system

The goroutines of `CopyFilesConcurrently` — the calling goroutine, one goroutine per file and
the goroutine that closes the channel — are embedded as threads of a transition system. One
step is one statement that touches shared state: a system call, an operation on `confirmMu`,
on `eventChan` or on the `WaitGroup`, the prompt, or the report of one event. A schedule picks,
step by step, the thread that runs and what the environment does to that step. -/

/-- Control point of a per-file goroutine: the statement it executes next. -/
inductive TaskPc where
  | unspawned
  | stat
  | lock
  | prompt
  | unlock (result : Bool)
  | openSrc
  | mkdirAll (srcFile : GoString)
  | create (srcFile : GoString)
  | copy (srcFile dstFile : GoString)
  | sync
  | send (event : CopyEvent)
  | wgDone
  | finished
deriving DecidableEq, Repr

/-- A per-file goroutine: its arguments `src` and `dst` and its control point. -/
structure Task where
  src : configMetadata
  dst : GoString
  pc : TaskPc
deriving DecidableEq, Repr

/-- Control point of the calling goroutine, through `CopyFilesConcurrently` and then
`processCopyEvents`. `failed` is the early return when the destination directory cannot be
created, `returned` the return of `processCopyEvents`. -/
inductive MainPc where
  | mkdirRoot
  | spawn (k : Nat)
  | spawnCloser
  | recv
  | lock (event : CopyEvent)
  | report (event : CopyEvent)
  | unlock
  | summary
  | returned (result : Option GoError)
  | failed (err : GoError)
deriving DecidableEq, Repr

/-- Control point of the goroutine `go func() { wg.Wait(); close(eventChan) }()`. -/
inductive CloserPc where
  | unspawned
  | wait
  | close
  | finished
deriving DecidableEq, Repr

/-- The threads of one call of `CopyFilesConcurrently`. -/
inductive Thread where
  | main
  | task (i : Nat)
  | closer
deriving DecidableEq, Repr

/-- What the environment does to one step: `fault` makes the system call of the step fail with
that error, `written` bounds the bytes a failing copy has written, `answer` is what the user
answers when the step is an overwrite prompt. -/
structure Oracle where
  fault : Option GoError
  written : Nat
  answer : Bool
deriving DecidableEq, Repr

/-- State of one call of `CopyFilesConcurrently`. `confirmMu` is whether the mutex is locked,
`eventChan` the buffer of the channel (its capacity is the number of files), `wg` the counter
of the `WaitGroup`, `tally` the local variables of `processCopyEvents`. `sent` and `reported`
are history variables: every send with the index of the sending task, and every event that
`processCopyEvents` has reported. -/
structure State where
  fs : FS
  confirmMu : Bool
  eventChan : List CopyEvent
  closed : Bool
  wg : Nat
  tasks : List Task
  closer : CloserPc
  main : MainPc
  tally : Tally
  sent : List (Nat × CopyEvent)
  reported : List CopyEvent

/-- The state on entry to `CopyFilesConcurrently(srcFiles, destDir)`. -/
def State.init (srcFiles : List configMetadata) (fs : FS) : State :=
  { fs := fs
    confirmMu := false
    eventChan := []
    closed := false
    wg := 0
    tasks := srcFiles.map (fun src => { src := src, dst := [], pc := TaskPc.unspawned })
    closer := CloserPc.unspawned
    main := MainPc.mkdirRoot
    tally := Tally.init
    sent := []
    reported := [] }

/-- Move task `i` to control point `pc`. -/
def State.setPc (s : State) (i : Nat) (t : Task) (pc : TaskPc) : State :=
  { s with tasks := s.tasks.set i { t with pc := pc } }

/-- The event of a per-file failure, `CopyEvent{SrcPath: src.Path, DestPath: dst, Error: err}`. -/
def Task.failure (t : Task) (err : GoError) : CopyEvent :=
  { SrcPath := t.src.Path, DestPath := t.dst, PostMessage := [], Error := some err }

/-- One step of per-file goroutine `i`: the goroutine body of `CopyFilesConcurrently` followed
by `copyFile`. The result is `none` when the goroutine cannot take a step: it has not been
started or has ended, it waits for the mutex or for room in the channel, or the operation would
panic (unlocking an unlocked mutex, sending on a closed channel, a negative `WaitGroup`
counter). The deferred `Close` calls of `copyFile` do not change the modelled state and are not
steps; the deferred `wg.Done()` is the last step. -/
def stepTask (o : Oracle) (s : State) (i : Nat) : Option State :=
  match s.tasks[i]? with
  | none => none
  | some t =>
    match t.pc with
    | TaskPc.unspawned => none
    | TaskPc.stat =>
      -- Check if destination file exists
      match osStat s.fs o.fault t.dst with
      | .ok _ => some (s.setPc i t TaskPc.lock)
      | .error _ => some (s.setPc i t TaskPc.openSrc)
    | TaskPc.lock =>
      if s.confirmMu then none
      else some ({ s with confirmMu := true }.setPc i t TaskPc.prompt)
    | TaskPc.prompt => some (s.setPc i t (TaskPc.unlock o.answer))
    | TaskPc.unlock result =>
      if s.confirmMu then
        if !result then
          some ({ s with confirmMu := false }.setPc i t
            (TaskPc.send (t.failure overwriteCancelled)))
        else some ({ s with confirmMu := false }.setPc i t TaskPc.openSrc)
      else none
    | TaskPc.openSrc =>
      match osOpen s.fs o.fault (Join BASE_SOURCE_DIR t.src.Path) with
      | .error err => some (s.setPc i t (TaskPc.send (t.failure err)))
      | .ok srcFile => some (s.setPc i t (TaskPc.mkdirAll srcFile))
    | TaskPc.mkdirAll srcFile =>
      match osMkdirAll s.fs o.fault (Dir t.dst) with
      | .error err =>
        some (s.setPc i t (TaskPc.send (t.failure
          ⟨str "failed to create directory path " ++ Dir t.dst ++ str ": " ++ err.msg⟩)))
      | .ok fs1 => some ({ s with fs := fs1 }.setPc i t (TaskPc.create srcFile))
    | TaskPc.create srcFile =>
      match osCreate s.fs o.fault t.dst with
      | .error err => some (s.setPc i t (TaskPc.send (t.failure err)))
      | .ok (fs2, dstFile) => some ({ s with fs := fs2 }.setPc i t (TaskPc.copy srcFile dstFile))
    | TaskPc.copy srcFile dstFile =>
      match ioCopy s.fs (o.fault.map (fun err => (o.written, err))) dstFile srcFile with
      | (fs3, some err) => some ({ s with fs := fs3 }.setPc i t (TaskPc.send (t.failure err)))
      | (fs3, none) => some ({ s with fs := fs3 }.setPc i t TaskPc.sync)
    | TaskPc.sync =>
      match fileSync o.fault with
      | some err => some (s.setPc i t (TaskPc.send (t.failure err)))
      | none =>
        some (s.setPc i t (TaskPc.send
          { SrcPath := t.src.Path, DestPath := t.dst, PostMessage := t.src.PostMessage,
            Error := none }))
    | TaskPc.send event =>
      if s.closed ∨ s.tasks.length ≤ s.eventChan.length then none
      else
        some ({ s with eventChan := s.eventChan ++ [event], sent := s.sent ++ [(i, event)] }.setPc
          i t TaskPc.wgDone)
    | TaskPc.wgDone =>
      if s.wg = 0 then none
      else some ({ s with wg := s.wg - 1 }.setPc i t TaskPc.finished)
    | TaskPc.finished => none

/-- One step of the calling goroutine: `os.MkdirAll(destDir)`, the loop starting one goroutine
per file, the start of the closing goroutine, and then `processCopyEvents`: receive an event,
lock, report it, unlock, and after the loop the summary. -/
def stepMain (destDir : GoString) (o : Oracle) (s : State) : Option State :=
  match s.main with
  | MainPc.mkdirRoot =>
    match osMkdirAll s.fs o.fault destDir with
    | .error err =>
      some { s with
        main := MainPc.failed ⟨str "failed to create destination directory: " ++ err.msg⟩ }
    | .ok fs1 => some { s with fs := fs1, main := MainPc.spawn 0 }
  | MainPc.spawn k =>
    match s.tasks[k]? with
    | some t =>
      some { s with
        wg := s.wg + 1
        tasks := s.tasks.set k { t with dst := Join destDir t.src.Path, pc := TaskPc.stat }
        main := MainPc.spawn (k + 1) }
    | none => some { s with main := MainPc.spawnCloser }
  | MainPc.spawnCloser => some { s with closer := CloserPc.wait, main := MainPc.recv }
  | MainPc.recv =>
    match s.eventChan with
    | event :: rest => some { s with eventChan := rest, main := MainPc.lock event }
    | [] => if s.closed then some { s with main := MainPc.summary } else none
  | MainPc.lock event =>
    if s.confirmMu then none
    else some { s with confirmMu := true, main := MainPc.report event }
  | MainPc.report event =>
    some { s with
      tally := reportEvent s.tally event
      reported := s.reported ++ [event]
      main := MainPc.unlock }
  | MainPc.unlock =>
    if s.confirmMu then some { s with confirmMu := false, main := MainPc.recv } else none
  | MainPc.summary =>
    some { s with
      tally := { s.tally with printed := (summarize s.tally).1 }
      main := MainPc.returned (summarize s.tally).2 }
  | MainPc.returned _ => none
  | MainPc.failed _ => none

/-- One step of the closing goroutine: `wg.Wait()` returns once the counter is zero, then
`close(eventChan)`. -/
def stepCloser (s : State) : Option State :=
  match s.closer with
  | CloserPc.unspawned => none
  | CloserPc.wait => if s.wg = 0 then some { s with closer := CloserPc.close } else none
  | CloserPc.close =>
    if s.closed then none else some { s with closed := true, closer := CloserPc.finished }
  | CloserPc.finished => none

/-- One step of the thread the schedule picks. -/
def step (destDir : GoString) (s : State) (c : Thread × Oracle) : Option State :=
  match c.1 with
  | Thread.main => stepMain destDir c.2 s
  | Thread.task i => stepTask c.2 s i
  | Thread.closer => stepCloser s

/-- An execution: the steps of a schedule one after the other; `none` when the schedule picks a
thread that cannot take a step. -/
def exec (destDir : GoString) : State → List (Thread × Oracle) → Option State
  | s, [] => some s
  | s, c :: rest =>
    match step destDir s c with
    | some s1 => exec destDir s1 rest
    | none => none

/-- Embedding of `CopyManager.CopyFilesConcurrently` (copy.go): the state reached from the
entry of `CopyFilesConcurrently(srcFiles, destDir)` in the file system `fs` when the threads run
as `sched` says; `none` when `sched` is not a schedule of this call. The call has returned in
the states whose `main` is `returned result` or `failed err`. -/
def CopyFilesConcurrently (srcFiles : List configMetadata) (destDir : GoString) (fs : FS)
    (sched : List (Thread × Oracle)) : Option State :=
  exec destDir (State.init srcFiles fs) sched

/-- The calling goroutine holds `confirmMu`: it is reporting an event. -/
def MainPc.printing : MainPc → Bool
  | MainPc.report _ => true
  | MainPc.unlock => true
  | _ => false

/-- The task holds `confirmMu`: its overwrite prompt is in progress. -/
def TaskPc.prompting : TaskPc → Bool
  | TaskPc.prompt => true
  | TaskPc.unlock _ => true
  | _ => false

/-- The task has been started and has not yet called `wg.Done()`. -/
def TaskPc.live : TaskPc → Bool
  | TaskPc.unspawned => false
  | TaskPc.finished => false
  | _ => true

/-- The task has sent its event. -/
def TaskPc.hasSent : TaskPc → Bool
  | TaskPc.wgDone => true
  | TaskPc.finished => true
  | _ => false

/-- `CopyFilesConcurrently` has returned. -/
def MainPc.terminal : MainPc → Bool
  | MainPc.returned _ => true
  | MainPc.failed _ => true
  | _ => false

/-- Number of statements a per-file goroutine has left at most, a send counted five times. -/
def TaskPc.rank : TaskPc → Nat
  | TaskPc.unspawned => 16
  | TaskPc.stat => 15
  | TaskPc.lock => 14
  | TaskPc.prompt => 13
  | TaskPc.unlock _ => 12
  | TaskPc.openSrc => 11
  | TaskPc.mkdirAll _ => 10
  | TaskPc.create _ => 9
  | TaskPc.copy _ _ => 8
  | TaskPc.sync => 7
  | TaskPc.send _ => 6
  | TaskPc.wgDone => 1
  | TaskPc.finished => 0

/-- Rank of the calling goroutine, not counting the events it still has to receive. -/
def MainPc.rank (n : Nat) : MainPc → Nat
  | MainPc.mkdirRoot => 8 + n
  | MainPc.spawn k => 7 + (n - k)
  | MainPc.spawnCloser => 6
  | MainPc.lock _ => 5
  | MainPc.report _ => 4
  | MainPc.unlock => 3
  | MainPc.recv => 2
  | MainPc.summary => 1
  | MainPc.returned _ => 0
  | MainPc.failed _ => 0

/-- Rank of the closing goroutine. -/
def CloserPc.rank : CloserPc → Nat
  | CloserPc.unspawned => 3
  | CloserPc.wait => 2
  | CloserPc.close => 1
  | CloserPc.finished => 0

/-- Bound on the number of steps left in a state. -/
def State.measure (s : State) : Nat :=
  s.main.rank s.tasks.length + s.closer.rank + (s.tasks.map (fun t => t.pc.rank)).sum
    + 4 * s.eventChan.length

/-- The events task `i` has sent so far. -/
def State.sentBy (s : State) (i : Nat) : List CopyEvent :=
  (s.sent.filter (fun p => p.1 = i)).map Prod.snd

/-- An oracle without fault that answers the prompt with `answer`. -/
def Oracle.ok (answer : Bool) : Oracle := ⟨none, 0, answer⟩

/-- A schedule for a single file: the calling goroutine up to the start of the closing
goroutine, then `taskSteps` steps of the task, the closing goroutine, and the reporter; no
fault, every prompt answered with `answer`. -/
def sequentialSchedule (taskSteps : Nat) (answer : Bool) : List (Thread × Oracle) :=
  [(Thread.main, Oracle.ok answer), (Thread.main, Oracle.ok answer),
    (Thread.main, Oracle.ok answer), (Thread.main, Oracle.ok answer)]
  ++ List.replicate taskSteps (Thread.task 0, Oracle.ok answer)
  ++ [(Thread.closer, Oracle.ok answer), (Thread.closer, Oracle.ok answer)]
  ++ List.replicate 6 (Thread.main, Oracle.ok answer)

/-- Number of per-file goroutines the calling goroutine has started, of `n` files. -/
def MainPc.started (n : Nat) : MainPc → Nat
  | MainPc.mkdirRoot => 0
  | MainPc.failed _ => 0
  | MainPc.spawn k => k
  | _ => n

/-- Whether the calling goroutine has started the closing goroutine. -/
def MainPc.closerStarted : MainPc → Bool
  | MainPc.mkdirRoot => false
  | MainPc.failed _ => false
  | MainPc.spawn _ => false
  | MainPc.spawnCloser => false
  | _ => true

/-- The event `processCopyEvents` has received and not yet reported. -/
def MainPc.inHand : MainPc → List CopyEvent
  | MainPc.lock event => [event]
  | MainPc.report event => [event]
  | _ => []

/-- The invariant of the transition system: the mutex is locked exactly when one thread is in
a prompt or a report, the `WaitGroup` counts the started tasks that have not ended, tasks are
started in order, the closing goroutine closes only after all tasks have ended, every task that
has passed its send has sent exactly one event, the events sent are the events reported, in
hand or buffered, in this order, and the reporter variables are those of `processCopyEvents` on
the events reported. -/
structure Inv (s : State) : Prop where
  mutex : s.tasks.countP (fun t => t.pc.prompting) + s.main.printing.toNat = s.confirmMu.toNat
  wg : s.wg = s.tasks.countP (fun t => t.pc.live)
  started : ∀ (i : Nat) (t : Task), s.tasks[i]? = some t →
    (t.pc ≠ TaskPc.unspawned ↔ i < s.main.started s.tasks.length)
  closer : s.closer ≠ CloserPc.unspawned ↔ s.main.closerStarted = true
  allDone : (s.closer = CloserPc.close ∨ s.closer = CloserPc.finished) →
    ∀ t ∈ s.tasks, t.pc = TaskPc.finished
  closed : s.closed = true ↔ s.closer = CloserPc.finished
  sentCount : s.sent.length = s.tasks.countP (fun t => t.pc.hasSent)
  sentBy : ∀ i : Nat, (s.sent.filter (fun p => p.1 = i)).length
    = match s.tasks[i]? with
      | some t => t.pc.hasSent.toNat
      | none => 0
  chan : s.sent.map Prod.snd = s.reported ++ s.main.inHand ++ s.eventChan
  tally : match s.main with
    | MainPc.returned r => (s.tally.printed, r) = processCopyEvents s.reported
    | _ => s.tally = drainEvents s.reported
  drained : (s.main = MainPc.summary ∨ ∃ r, s.main = MainPc.returned r) →
    s.eventChan = [] ∧ s.closed = true

/-- Every event belongs to the file of the task that sends it: tasks keep their file, a started
task has the destination `destDir` joined with its relative path, and every event sent or about
to be sent carries the source and destination path of its task. -/
structure Labelled (destDir : GoString) (srcFiles : List configMetadata) (s : State) : Prop where
  src : s.tasks.map (fun t => t.src) = srcFiles
  dst : ∀ (i : Nat) (t : Task), s.tasks[i]? = some t → t.pc ≠ TaskPc.unspawned →
    t.dst = Join destDir t.src.Path
  pending : ∀ (i : Nat) (t : Task) (ev : CopyEvent), s.tasks[i]? = some t →
    t.pc = TaskPc.send ev → ev.SrcPath = t.src.Path ∧ ev.DestPath = t.dst
  sent : ∀ p ∈ s.sent, ∃ t, s.tasks[p.1]? = some t ∧ t.pc.hasSent = true
    ∧ p.2.SrcPath = t.src.Path ∧ p.2.DestPath = t.dst

/-- The oracle that applies the outcomes `env` of one per-file task to the statement at control
point `pc`. -/
def taskOracle (env : Outcomes) : TaskPc → Oracle
  | TaskPc.stat => ⟨env.stat, 0, false⟩
  | TaskPc.prompt => ⟨none, 0, env.overwrite⟩
  | TaskPc.openSrc => ⟨env.openSrc, 0, false⟩
  | TaskPc.mkdirAll _ => ⟨env.mkdirAll, 0, false⟩
  | TaskPc.create _ => ⟨env.create, 0, false⟩
  | TaskPc.copy _ _ =>
    match env.copy with
    | some (n, err) => ⟨some err, n, false⟩
    | none => ⟨none, 0, false⟩
  | TaskPc.sync => ⟨env.sync, 0, false⟩
  | _ => ⟨none, 0, false⟩

/-- Task `i` running alone: up to `fuel` consecutive steps of task `i` under the outcomes
`env`, no other thread stepping in between. -/
def runTaskAlone (env : Outcomes) (i : Nat) : Nat → State → State
  | 0, s => s
  | fuel + 1, s =>
    match s.tasks[i]? with
    | none => s
    | some t =>
      match stepTask (taskOracle env t.pc) s i with
      | some s1 => runTaskAlone env i fuel s1
      | none => s

/-- Task `i` is the task `t`, the channel is open and has room, and the `WaitGroup` counter is
positive: nothing but the mutex can keep the task from running. -/
def Ready (s : State) (i : Nat) (t : Task) : Prop :=
  s.tasks[i]? = some t ∧ s.closed = false ∧ s.eventChan.length < s.tasks.length ∧ s.wg ≠ 0

/-- Between `s` and `s'` task `i` has run to its end with the effect `r`: the file system it
leaves and the events it has sent. -/
def RanAs (s s' : State) (i : Nat) (t : Task) (r : FS × List CopyEvent) : Prop :=
  s'.fs = r.1 ∧ s'.sent = s.sent ++ r.2.map (fun ev => (i, ev))
    ∧ s'.eventChan = s.eventChan ++ r.2
    ∧ s'.tasks[i]? = some { t with pc := TaskPc.finished }

/-! ## copy.go: a declined overwrite inside `CopyFilesConcurrently` -/

/-- A project directory `proj` that already holds `a.conf` with content `old`, next to the
checkout of `checkoutFS`. -/
def projectFS : FS := fun p =>
  if p = str "." then some Node.dir
  else if p = str "configs" then some Node.dir
  else if p = str "configs/a.conf" then some (Node.file (str "x"))
  else if p = str "proj" then some Node.dir
  else if p = str "proj/a.conf" then some (Node.file (str "old"))
  else none

/-- Control point of task `i` after the execution `sched` from `s0`; `none` when `sched` is not
a schedule from `s0` or there is no task `i`. -/
def pcAfter (destDir : GoString) (s0 : State) (sched : List (Thread × Oracle)) (i : Nat) :
    Option TaskPc :=
  ((exec destDir s0 sched).bind (fun s => s.tasks[i]?)).map (fun t => t.pc)

/-- In the execution `sched` from `s0` the user answers the overwrite prompt of task `i` with
no: after some initial part of `sched` task `i` has left `pterm`'s confirm prompt with the
result `false` and is about to unlock `confirmMu`. -/
def Declines (destDir : GoString) (s0 : State) (sched : List (Thread × Oracle)) (i : Nat) :
    Prop :=
  ∃ pre post, sched = pre ++ post ∧ pcAfter destDir s0 pre i = some (TaskPc.unlock false)

/-- The event of a declined overwrite of `dst` by the file `src`,
`CopyEvent{SrcPath: src.Path, DestPath: dst, Error: fmt.Errorf("overwrite cancelled by user")}`. -/
def cancelEvent (src : configMetadata) (dst : GoString) : CopyEvent :=
  { SrcPath := src.Path, DestPath := dst, PostMessage := [], Error := some overwriteCancelled }

/-- Task `i`, with file `src` and destination `dst`, is on the declined branch: it is about to
unlock after the answer no or about to send the cancel event and has sent nothing, or it has
sent the cancel event and nothing else. -/
def DeclinedAt (s : State) (i : Nat) (src : configMetadata) (dst : GoString) : Prop :=
  ∃ t, s.tasks[i]? = some t ∧ t.src = src ∧ t.dst = dst
    ∧ (((t.pc = TaskPc.unlock false ∨ t.pc = TaskPc.send (cancelEvent src dst))
          ∧ s.sentBy i = [])
        ∨ ((t.pc = TaskPc.wgDone ∨ t.pc = TaskPc.finished)
          ∧ s.sentBy i = [cancelEvent src dst]))

/-- A schedule for two tasks on one destination: the calling goroutine creates the destination
root and starts both tasks; task 0 calls `os.Stat`; task 1 runs from `os.Stat` through the
prompt, answered with yes, and `copyFile` to its end; task 0 then takes the mutex, its prompt
is answered with no, and it runs to its end; the closing goroutine and the reporter follow. -/
def interferenceSchedule : List (Thread × Oracle) :=
  List.replicate 3 (Thread.main, Oracle.ok true)
  ++ [(Thread.task 0, Oracle.ok false)]
  ++ List.replicate 11 (Thread.task 1, Oracle.ok true)
  ++ List.replicate 5 (Thread.task 0, Oracle.ok false)
  ++ List.replicate 2 (Thread.main, Oracle.ok true)
  ++ List.replicate 2 (Thread.closer, Oracle.ok true)
  ++ List.replicate 10 (Thread.main, Oracle.ok true)

/-- The handle a task copies to is the one `os.Create` returned for its destination: the
cleaned destination path. -/
def Handles (s : State) : Prop :=
  ∀ (j : Nat) (t : Task) (srcFile dstFile : GoString), s.tasks[j]? = some t →
    t.pc = TaskPc.copy srcFile dstFile → dstFile = Clean t.dst

/-! ## Theorems: config.go -/

theorem getConfigMetadata_foldl (configs : Catalog) (acc : List configMetadata)
    (sel : List GoString) :
    sel.foldl
      (fun configMetadata selectedConfig =>
        match configs selectedConfig with
        | some selectedConfigMetadata => configMetadata ++ selectedConfigMetadata
        | none => configMetadata) acc
      = acc ++ resolvedFileList configs sel := by
  induction sel generalizing acc with
  | nil => simp [resolvedFileList]
  | cons label rest ih =>
    rw [List.foldl_cons, ih]
    cases h : configs label <;> simp [resolvedFileList, h]

theorem getConfigMetadata_eq (configs : Catalog) (sel : List GoString) :
    getConfigMetadata configs sel = resolvedFileList configs sel := by
  simp [getConfigMetadata, getConfigMetadata_foldl]

theorem resolvedFileList_cons (configs : Catalog) (label : GoString) (rest : List GoString) :
    resolvedFileList configs (label :: rest)
      = (configs label).getD [] ++ resolvedFileList configs rest := by
  cases h : configs label <;> simp [resolvedFileList, h]

theorem resolvedFileList_append (configs : Catalog) (a b : List GoString) :
    resolvedFileList configs (a ++ b)
      = resolvedFileList configs a ++ resolvedFileList configs b := by
  simp [resolvedFileList]

theorem mem_removeRepeats {label : GoString} {sel : List GoString}
    (h : label ∈ removeRepeats sel) : label ∈ sel := by
  induction sel with
  | nil => simp [removeRepeats] at h
  | cons x rest ih =>
    simp only [removeRepeats, List.mem_cons, List.mem_filter] at h
    rcases h with h | ⟨h, _⟩
    · exact h ▸ List.mem_cons_self _ _
    · exact List.mem_cons_of_mem _ (ih h)

theorem resolvedFileList_filter_ne (configs : Catalog) (label : GoString) (sel : List GoString)
    (h : label ∈ sel → (configs label).getD [] = []) :
    resolvedFileList configs (sel.filter (fun other => other ≠ label))
      = resolvedFileList configs sel := by
  induction sel with
  | nil => rfl
  | cons x rest ih =>
    by_cases hx : x = label
    · subst hx
      have h0 := h (List.mem_cons_self _ _)
      have ih' := ih (fun _ => h0)
      simp only [ne_eq, decide_not] at ih'
      simp [List.filter_cons, resolvedFileList_cons, h0, ih']
    · have ih' := ih (fun hm => h (List.mem_cons_of_mem _ hm))
      simp only [ne_eq, decide_not] at ih'
      simp [List.filter_cons, hx, resolvedFileList_cons, ih']

/-- C6: for every catalog and selection, `getConfigMetadata` returns the concatenation, in
selection order, of the entry lists of exactly the selected labels that are catalog keys, each
list in catalog order and nothing deduplicated; every occurrence of a label contributes its own
entry list when it is a key and nothing (and no error) when it is not. -/
theorem getConfigMetadata_concatenates_selected (configs : Catalog) (selection : List GoString) :
    getConfigMetadata configs selection
        = ((selection.filter (fun label => (configs label).isSome)).map
            (fun label => (configs label).getD [])).flatten
      ∧ ∀ (before after : List GoString) (label : GoString),
          getConfigMetadata configs (before ++ label :: after)
            = getConfigMetadata configs before
              ++ (match configs label with
                  | some entries => entries
                  | none => [])
              ++ getConfigMetadata configs after := by
  refine ⟨getConfigMetadata_eq configs selection, ?_⟩
  intro before after label
  simp only [getConfigMetadata_eq, resolvedFileList_append, resolvedFileList_cons]
  cases configs label <;> simp

/-- C7 fails as stated: with the catalog `web ↦ [nginx.conf]` the selection `[web, web]` resolves
to two entries, while the selection with the repeat removed resolves to one. -/
theorem getConfigMetadata_repeated_label_counterexample :
    getConfigMetadata exampleCatalog [str "web", str "web"]
        = [⟨str "nginx.conf", []⟩, ⟨str "nginx.conf", []⟩]
      ∧ getConfigMetadata exampleCatalog (removeRepeats [str "web", str "web"])
        = [⟨str "nginx.conf", []⟩]
      ∧ getConfigMetadata exampleCatalog [str "web", str "web"]
        ≠ getConfigMetadata exampleCatalog (removeRepeats [str "web", str "web"]) := by
  decide

/-- C7 (amended): when every label that occurs more than once in the selection has no entries
(it is not a catalog key, or its entry list is empty), `getConfigMetadata` on the selection
equals `getConfigMetadata` on the selection with every repeated occurrence removed. -/
theorem getConfigMetadata_removeRepeats (configs : Catalog) (selection : List GoString)
    (h : ∀ label ∈ selection, 1 < selection.count label → (configs label).getD [] = []) :
    getConfigMetadata configs selection
      = getConfigMetadata configs (removeRepeats selection) := by
  simp only [getConfigMetadata_eq]
  induction selection with
  | nil => rfl
  | cons x rest ih =>
    have hrest : ∀ label ∈ rest, 1 < rest.count label → (configs label).getD [] = [] := by
      intro label hm hl
      apply h label (List.mem_cons_of_mem _ hm)
      have := List.count_le_count_cons (a := label) (b := x) (l := rest)
      omega
    have hx : x ∈ removeRepeats rest → (configs x).getD [] = [] := by
      intro hm
      apply h x (List.mem_cons_self _ _)
      have h1 : 0 < rest.count x := List.count_pos_iff.mpr (mem_removeRepeats hm)
      simp only [List.count_cons_self]
      omega
    simp only [removeRepeats, resolvedFileList_cons]
    rw [resolvedFileList_filter_ne configs x _ hx, ← ih hrest]

theorem getConfigMetadata_removeRepeats_witness :
    getConfigMetadata exampleCatalog [str "web", str "ghost", str "db", str "ghost"]
      = getConfigMetadata exampleCatalog
          (removeRepeats [str "web", str "ghost", str "db", str "ghost"]) :=
  getConfigMetadata_removeRepeats exampleCatalog
    [str "web", str "ghost", str "db", str "ghost"] (by decide)

/-! ## Theorems: the reporter `processCopyEvents` -/

theorem foldl_reportEvent_errorCount (t : Tally) (events : List CopyEvent) :
    (events.foldl reportEvent t).errorCount
      = t.errorCount + events.countP (fun e => e.Error.isSome) := by
  induction events generalizing t with
  | nil => simp
  | cons e rest ih =>
    rw [List.foldl_cons, ih]
    cases h : e.Error with
    | some err => simp [reportEvent, h, List.countP_cons]; omega
    | none => simp only [reportEvent, h]; split <;> simp [List.countP_cons, h]

theorem foldl_reportEvent_successCount (t : Tally) (events : List CopyEvent) :
    (events.foldl reportEvent t).successCount
      = t.successCount + events.countP (fun e => e.Error.isNone) := by
  induction events generalizing t with
  | nil => simp
  | cons e rest ih =>
    rw [List.foldl_cons, ih]
    cases h : e.Error with
    | some err => simp [reportEvent, h, List.countP_cons]
    | none => simp only [reportEvent, h]; split <;> simp [List.countP_cons, h] <;> omega

theorem foldl_reportEvent_successEvents (t : Tally) (events : List CopyEvent) :
    (events.foldl reportEvent t).successEvents
      = t.successEvents ++ events.filter CopyEvent.hasPostMessage := by
  induction events generalizing t with
  | nil => simp
  | cons e rest ih =>
    rw [List.foldl_cons, ih]
    cases h : e.Error with
    | some err => simp [reportEvent, h, List.filter_cons, CopyEvent.hasPostMessage]
    | none =>
      by_cases hm : e.PostMessage = []
      · simp [reportEvent, h, List.filter_cons, CopyEvent.hasPostMessage, hm]
      · have hl : 0 < e.PostMessage.length := List.length_pos.mpr hm
        simp [reportEvent, h, List.filter_cons, CopyEvent.hasPostMessage, hm, hl]

theorem foldl_reportEvent_printed_info (t : Tally) (events : List CopyEvent) :
    (events.foldl reportEvent t).printed.filter Line.isInfo
      = t.printed.filter Line.isInfo := by
  induction events generalizing t with
  | nil => simp
  | cons e rest ih =>
    rw [List.foldl_cons, ih]
    cases h : e.Error with
    | some err => simp [reportEvent, h, Line.isInfo]
    | none => simp only [reportEvent, h]; split <;> simp [Line.isInfo]

theorem countP_isNone_eq (events : List CopyEvent) :
    events.countP (fun e => e.Error.isNone)
      = events.length - events.countP (fun e => e.Error.isSome) := by
  induction events with
  | nil => simp
  | cons e rest ih =>
    have hle := List.countP_le_length (fun e : CopyEvent => e.Error.isSome) (l := rest)
    cases h : e.Error with
    | some err => simp [List.countP_cons, h, ih]
    | none => simp [List.countP_cons, h, ih]; omega

theorem drainEvents_errorCount (events : List CopyEvent) :
    (drainEvents events).errorCount = events.countP (fun e => e.Error.isSome) := by
  simp [drainEvents, foldl_reportEvent_errorCount, Tally.init]

theorem summaryLine_not_info (t : Tally) : (summaryLine t).isInfo = false := by
  unfold summaryLine; split <;> rfl

/-- C8: after `processCopyEvents` has drained a sequence of N events, its error count is the
number of events whose `Error` is non-nil and its success count is N minus that number. -/
theorem drainEvents_counts (events : List CopyEvent) :
    (drainEvents events).errorCount = events.countP (fun e => e.Error.isSome)
      ∧ (drainEvents events).successCount
          = events.length - events.countP (fun e => e.Error.isSome) := by
  constructor
  · simp [drainEvents, foldl_reportEvent_errorCount, Tally.init]
  · simp [drainEvents, foldl_reportEvent_successCount, Tally.init, countP_isNone_eq]

/-- C9: the output of `processCopyEvents` is the per-event lines, then a blank line, the summary
and a blank line, then exactly one line `DestPath ++ ": " ++ PostMessage` for each event with a
nil `Error` and a non-empty `PostMessage`, in the order the events were consumed; these are the
only `Info` lines of the whole output, so a failed event or an event with an empty message gets
none. -/
theorem processCopyEvents_post_messages (events : List CopyEvent) :
    (processCopyEvents events).1
        = (drainEvents events).printed
          ++ [Line.plain [], summaryLine (drainEvents events), Line.plain []]
          ++ (events.filter (fun e => e.Error.isNone && decide (e.PostMessage ≠ []))).map
              (fun e => Line.info (e.DestPath ++ str ": " ++ e.PostMessage))
      ∧ (processCopyEvents events).1.filter Line.isInfo
        = (events.filter (fun e => e.Error.isNone && decide (e.PostMessage ≠ []))).map
            (fun e => Line.info (e.DestPath ++ str ": " ++ e.PostMessage)) := by
  have hs : (drainEvents events).successEvents = events.filter CopyEvent.hasPostMessage := by
    simp [drainEvents, foldl_reportEvent_successEvents, Tally.init]
  have hp : (drainEvents events).printed.filter Line.isInfo = [] := by
    simp [drainEvents, foldl_reportEvent_printed_info, Tally.init]
  have hf : (fun e : CopyEvent => e.Error.isNone && decide (e.PostMessage ≠ []))
      = CopyEvent.hasPostMessage := rfl
  have hm : (fun e : CopyEvent => Line.info (e.DestPath ++ str ": " ++ e.PostMessage))
      = postMessageLine := rfl
  rw [hf, hm]
  constructor
  · simp [processCopyEvents, summarize, hs]
  · simp only [processCopyEvents, summarize, hs, List.filter_append, hp, List.nil_append]
    have h3 : List.filter Line.isInfo
        [Line.plain [], summaryLine (drainEvents events), Line.plain []] = [] := by
      have := summaryLine_not_info (drainEvents events)
      rw [List.filter_cons, List.filter_cons, List.filter_cons, this]
      rfl
    rw [h3, List.nil_append, List.filter_eq_self]
    intro l hl
    obtain ⟨e, _, rfl⟩ := List.mem_map.mp hl
    rfl

theorem processCopyEvents_result (events : List CopyEvent) :
    (processCopyEvents events).2 ≠ none ↔ ∃ e ∈ events, e.Error ≠ none := by
  have hc := drainEvents_errorCount events
  simp only [processCopyEvents, summarize, resultError]
  split
  · rename_i h
    rw [hc] at h
    obtain ⟨e, he, hp⟩ := List.countP_pos_iff.mp h
    simp only [ne_eq, reduceCtorEq, not_false_eq_true, true_iff]
    exact ⟨e, he, by cases h' : e.Error <;> simp_all⟩
  · rename_i h
    rw [hc] at h
    simp only [ne_eq, not_true_eq_false, false_iff, not_exists, not_and, not_not]
    intro e he
    have : ¬ (e.Error.isSome = true) := fun hp => h (List.countP_pos_iff.mpr ⟨e, he, hp⟩)
    cases h' : e.Error <;> simp_all

/-! ## Theorems: one per-file task -/

theorem copyFile_sends_one (env : Outcomes) (fs : FS) (base : GoString) (src : configMetadata)
    (dst : GoString) : (copyFile env fs base src dst).2.length = 1 := by
  unfold copyFile
  cases osOpen fs env.openSrc (Join base src.Path) with
  | error err => rfl
  | ok srcFile =>
    dsimp only
    cases osMkdirAll fs env.mkdirAll (Dir dst) with
    | error err => rfl
    | ok fs1 =>
      dsimp only
      cases osCreate fs1 env.create dst with
      | error err => rfl
      | ok created =>
        obtain ⟨fs2, dstFile⟩ := created
        dsimp only
        cases hc : ioCopy fs2 env.copy dstFile srcFile with
        | mk fs3 res =>
          cases res with
          | some err => rfl
          | none =>
            dsimp only
            cases fileSync env.sync <;> rfl

theorem copyTask_sends_one (env : Outcomes) (fs : FS) (src : configMetadata) (dst : GoString) :
    (copyTask env fs src dst).2.length = 1 := by
  unfold copyTask
  split
  · split
    · rfl
    · exact copyFile_sends_one ..
  · exact copyFile_sends_one ..

/-! ## Theorems: the transition system of `CopyFilesConcurrently` -/

theorem countP_set_toNat {α : Type} (p : α → Bool) (l : List α) (i : Nat) (x a : α)
    (h : l[i]? = some x) :
    (l.set i a).countP p + (p x).toNat = l.countP p + (p a).toNat := by
  induction l generalizing i with
  | nil => simp at h
  | cons y ys ih =>
    cases i with
    | zero =>
      simp only [List.getElem?_cons_zero, Option.some.injEq] at h
      subst h
      simp only [List.set_cons_zero, List.countP_cons]
      cases p y <;> cases p a <;> simp
    | succ j =>
      simp only [List.getElem?_cons_succ] at h
      have := ih j h
      simp only [List.set_cons_succ, List.countP_cons]
      omega

theorem sum_map_set {α : Type} (f : α → Nat) (l : List α) (i : Nat) (x a : α)
    (h : l[i]? = some x) :
    ((l.set i a).map f).sum + f x = (l.map f).sum + f a := by
  induction l generalizing i with
  | nil => simp at h
  | cons y ys ih =>
    cases i with
    | zero =>
      simp only [List.getElem?_cons_zero, Option.some.injEq] at h
      subst h
      simp only [List.set_cons_zero, List.map_cons, List.sum_cons]
      omega
    | succ j =>
      simp only [List.getElem?_cons_succ] at h
      have := ih j h
      simp only [List.set_cons_succ, List.map_cons, List.sum_cons]
      omega

theorem exists_of_countP_pos {α : Type} (p : α → Bool) (l : List α) (h : 0 < l.countP p) :
    ∃ (i : Nat) (x : α), l[i]? = some x ∧ p x = true := by
  obtain ⟨x, hx, hp⟩ := List.countP_pos_iff.mp h
  obtain ⟨i, hi, rfl⟩ := List.getElem_of_mem hx
  exact ⟨i, l[i], List.getElem?_eq_getElem hi, hp⟩

/-- What one step of a per-file goroutine does to the shared state. -/
theorem stepTask_shape {o : Oracle} {s s' : State} {i : Nat} (h : stepTask o s i = some s') :
    ∃ t pc', s.tasks[i]? = some t ∧ s'.tasks = s.tasks.set i { t with pc := pc' }
      ∧ s'.main = s.main ∧ s'.closer = s.closer ∧ s'.closed = s.closed
      ∧ s'.tally = s.tally ∧ s'.reported = s.reported
      ∧ s'.confirmMu.toNat + t.pc.prompting.toNat = s.confirmMu.toNat + pc'.prompting.toNat
      ∧ s'.wg + t.pc.live.toNat = s.wg + pc'.live.toNat
      ∧ t.pc ≠ TaskPc.unspawned ∧ pc' ≠ TaskPc.unspawned ∧ t.pc ≠ TaskPc.finished
      ∧ ((s'.eventChan = s.eventChan ∧ s'.sent = s.sent ∧ pc'.hasSent = t.pc.hasSent)
          ∨ (∃ ev, t.pc = TaskPc.send ev ∧ pc' = TaskPc.wgDone
              ∧ s'.eventChan = s.eventChan ++ [ev] ∧ s'.sent = s.sent ++ [(i, ev)]
              ∧ s.closed = false ∧ s.eventChan.length < s.tasks.length))
      ∧ pc'.rank + 4 * s'.eventChan.length < t.pc.rank + 4 * s.eventChan.length
      ∧ (∀ ev, pc' = TaskPc.send ev → ev.SrcPath = t.src.Path ∧ ev.DestPath = t.dst) := by
  unfold stepTask at h
  cases ht : s.tasks[i]? with
  | none => simp [ht] at h
  | some t =>
    simp only [ht] at h
    refine ⟨t, ?_⟩
    cases hpc : t.pc with
    | unspawned => simp [hpc] at h
    | finished => simp [hpc] at h
    | _ =>
      simp only [hpc] at h
      repeat' split at h
      all_goals first
        | (simp only [Option.some.injEq] at h
           subst h
           refine ⟨_, rfl, rfl, ?_⟩
           simp_all [State.setPc, TaskPc.prompting, TaskPc.live, TaskPc.hasSent, TaskPc.rank,
             Task.failure]
           try omega)
        | simp at h

theorem idx_lt_length {α : Type} {l : List α} {i : Nat} {x : α} (h : l[i]? = some x) :
    i < l.length := by
  by_contra hc
  rw [List.getElem?_eq_none (by omega)] at h
  simp at h

theorem getElem?_set_task (l : List Task) (i j : Nat) (x t : Task) (h : l[i]? = some t) :
    (l.set i x)[j]? = if i = j then some x else l[j]? := by
  rw [List.getElem?_set]
  split
  · have : i < l.length := by
      by_contra hc
      rw [List.getElem?_eq_none (by omega)] at h
      simp at h
    subst_vars
    simp [this]
  · rfl

theorem inv_stepTask {o : Oracle} {s s' : State} {i : Nat} (hinv : Inv s)
    (h : stepTask o s i = some s') : Inv s' := by
  obtain ⟨t, pc', ht, htasks, hmain, hcloser, hclosed, htally, hrep, hmu, hwg, hsp, hsp', hfin,
    hchan, _, _⟩ := stepTask_shape h
  have hlen : s'.tasks.length = s.tasks.length := by rw [htasks, List.length_set]
  have hget : ∀ j, s'.tasks[j]? = if i = j then some { t with pc := pc' } else s.tasks[j]? := by
    intro j; rw [htasks]; exact getElem?_set_task _ _ _ _ _ ht
  have hmem : t ∈ s.tasks := List.getElem?_mem ht
  constructor
  · have := countP_set_toNat (fun t : Task => t.pc.prompting) s.tasks i t { t with pc := pc' } ht
    have := hinv.mutex
    rw [htasks, hmain]
    simp only at *
    omega
  · have := countP_set_toNat (fun t : Task => t.pc.live) s.tasks i t { t with pc := pc' } ht
    have := hinv.wg
    rw [htasks]
    simp only at *
    omega
  · intro j tj hj
    rw [hget] at hj
    rw [hlen, hmain]
    by_cases hij : i = j
    · subst hij
      simp only [if_true, Option.some.injEq] at hj
      subst hj
      have := hinv.started i t ht
      simp only [ne_eq, hsp', not_false_eq_true, true_iff]
      exact this.mp hsp
    · simp only [hij, if_false] at hj
      exact hinv.started j tj hj
  · rw [hcloser, hmain]; exact hinv.closer
  · intro hc
    rw [hcloser] at hc
    exact absurd (hinv.allDone hc t hmem) hfin
  · rw [hclosed, hcloser]; exact hinv.closed
  · have := countP_set_toNat (fun t : Task => t.pc.hasSent) s.tasks i t { t with pc := pc' } ht
    have := hinv.sentCount
    rw [htasks]
    rcases hchan with ⟨_, hs, hh⟩ | ⟨ev, hpc, hpc', _, hs, _, _⟩
    · rw [hs]; simp only [hh] at *; omega
    · rw [hs]; simp only [hpc, hpc', TaskPc.hasSent, List.length_append, List.length_singleton,
        Bool.toNat_false, Bool.toNat_true] at *; omega
  · intro j
    have := hinv.sentBy j
    rw [hget]
    rcases hchan with ⟨_, hs, hh⟩ | ⟨ev, hpc, hpc', _, hs, _, _⟩
    · rw [hs, this]
      by_cases hij : i = j
      · subst hij
        simp [ht, hh]
      · simp [hij]
    · rw [hs, List.filter_append, List.length_append, this]
      by_cases hij : i = j
      · subst hij
        simp [ht, hpc, hpc', TaskPc.hasSent]
      · simp [hij]
  · rw [hrep, hmain]
    rcases hchan with ⟨hc, hs, _⟩ | ⟨ev, _, _, hc, hs, _, _⟩
    · rw [hc, hs]; exact hinv.chan
    · rw [hc, hs, List.map_append, hinv.chan]; simp
  · rw [hmain, htally, hrep]; exact hinv.tally
  · intro hm
    rw [hmain] at hm
    have hd := hinv.drained hm
    rcases hchan with ⟨hc, _, _⟩ | ⟨ev, _, _, _, _, hcl, _⟩
    · rw [hc, hclosed]; exact hd
    · rw [hd.2] at hcl; simp at hcl

theorem drainEvents_append_one (events : List CopyEvent) (event : CopyEvent) :
    drainEvents (events ++ [event]) = reportEvent (drainEvents events) event := by
  simp [drainEvents, List.foldl_append]

theorem inv_stepMain_simple {s s' : State} (hinv : Inv s)
    (htasks : s'.tasks = s.tasks) (hwg : s'.wg = s.wg) (hcloser : s'.closer = s.closer)
    (hclosed : s'.closed = s.closed) (hsent : s'.sent = s.sent)
    (hmutex : s'.main.printing.toNat + s.confirmMu.toNat
      = s.main.printing.toNat + s'.confirmMu.toNat)
    (hstarted : ∀ i, i < s.tasks.length →
      (i < s'.main.started s.tasks.length ↔ i < s.main.started s.tasks.length))
    (hcs : s'.main.closerStarted = s.main.closerStarted)
    (hchan : s'.reported ++ s'.main.inHand ++ s'.eventChan
      = s.reported ++ s.main.inHand ++ s.eventChan)
    (htally : match s'.main with
      | MainPc.returned r => (s'.tally.printed, r) = processCopyEvents s'.reported
      | _ => s'.tally = drainEvents s'.reported)
    (hdrained : (s'.main = MainPc.summary ∨ ∃ r, s'.main = MainPc.returned r) →
      s'.eventChan = [] ∧ s'.closed = true) : Inv s' := by
  constructor
  · have := hinv.mutex; rw [htasks]; omega
  · rw [hwg, htasks]; exact hinv.wg
  · intro i t hi
    rw [htasks] at hi ⊢
    have hlt : i < s.tasks.length := by
      by_contra hc
      rw [List.getElem?_eq_none (by omega)] at hi
      simp at hi
    rw [hstarted i hlt]
    exact hinv.started i t hi
  · rw [hcloser, hcs]; exact hinv.closer
  · rw [hcloser, htasks]; exact hinv.allDone
  · rw [hclosed, hcloser]; exact hinv.closed
  · rw [hsent, htasks]; exact hinv.sentCount
  · rw [hsent, htasks]; exact hinv.sentBy
  · rw [hsent, hchan]; exact hinv.chan
  · exact htally
  · exact hdrained

theorem inv_stepMain {destDir : GoString} {o : Oracle} {s s' : State} (hinv : Inv s)
    (h : stepMain destDir o s = some s') : Inv s' := by
  unfold stepMain at h
  have htal := hinv.tally
  have hmu := hinv.mutex
  have hcl := hinv.closed
  have hclo := hinv.closer
  split at h
  · -- mkdirRoot
    rename_i hm
    split at h <;> (simp only [Option.some.injEq] at h; subst h)
    all_goals
      apply inv_stepMain_simple hinv <;>
        simp_all [MainPc.printing, MainPc.started, MainPc.closerStarted, MainPc.inHand]
  · -- spawn
    rename_i k hm
    split at h <;> (simp only [Option.some.injEq] at h; subst h)
    · rename_i t ht
      have hun : t.pc = TaskPc.unspawned := by
        have := hinv.started k t ht
        rw [hm] at this
        simp only [MainPc.started, lt_self_iff_false, iff_false, ne_eq, not_not] at this
        exact this
      have hget : ∀ j, (s.tasks.set k
          { t with dst := Join destDir t.src.Path, pc := TaskPc.stat })[j]?
          = if k = j then some { t with dst := Join destDir t.src.Path, pc := TaskPc.stat }
            else s.tasks[j]? := fun j => getElem?_set_task _ _ _ _ _ ht
      have hcs : s.closer = CloserPc.unspawned := by
        by_contra hc
        have := hinv.closer.mp hc
        simp [hm, MainPc.closerStarted] at this
      constructor
      · have := countP_set_toNat (fun t : Task => t.pc.prompting) s.tasks k t
          { t with dst := Join destDir t.src.Path, pc := TaskPc.stat } ht
        simp only [hun, TaskPc.prompting, hm, MainPc.printing] at *
        omega
      · have := countP_set_toNat (fun t : Task => t.pc.live) s.tasks k t
          { t with dst := Join destDir t.src.Path, pc := TaskPc.stat } ht
        have := hinv.wg
        simp only [hun, TaskPc.live, Bool.toNat_false, Bool.toNat_true] at *
        omega
      · intro j tj hj
        simp only [hget, List.length_set, MainPc.started] at hj ⊢
        by_cases hkj : k = j
        · subst hkj
          simp only [if_true, Option.some.injEq] at hj
          subst hj
          simp
        · simp only [hkj, if_false] at hj
          have := hinv.started j tj hj
          rw [hm] at this
          simp only [MainPc.started] at this
          rw [this]
          omega
      · simp [hcs, MainPc.closerStarted]
      · intro hc
        simp [hcs] at hc
      · exact hinv.closed
      · have := countP_set_toNat (fun t : Task => t.pc.hasSent) s.tasks k t
          { t with dst := Join destDir t.src.Path, pc := TaskPc.stat } ht
        have := hinv.sentCount
        simp only [hun, TaskPc.hasSent, Bool.toNat_false] at *
        omega
      · intro j
        have := hinv.sentBy j
        simp only [hget]
        by_cases hkj : k = j
        · subst hkj
          simp only [ht, hun, TaskPc.hasSent, Bool.toNat_false] at this
          simp [this, TaskPc.hasSent]
        · simp only [hkj, if_false]
          exact this
      · have := hinv.chan
        simp only [hm, MainPc.inHand] at this ⊢
        exact this
      · simp only [hm] at htal
        exact htal
      · intro hc
        simp at hc
    · rename_i hk
      apply inv_stepMain_simple hinv <;>
        simp_all [MainPc.printing, MainPc.started, MainPc.closerStarted, MainPc.inHand]
      intro i hi
      omega
  · -- spawnCloser
    rename_i hm
    simp only [Option.some.injEq] at h; subst h
    have hcs : s.closer = CloserPc.unspawned := by
      by_contra hc
      have := hinv.closer.mp hc
      simp [hm, MainPc.closerStarted] at this
    have hncl : s.closed = false := by
      cases hc : s.closed with
      | false => rfl
      | true => have := hinv.closed.mp hc; simp [hcs] at this
    constructor
    · simp only [hm, MainPc.printing] at *
      exact hmu
    · exact hinv.wg
    · intro i t hi
      have := hinv.started i t hi
      simp only [hm, MainPc.started] at this ⊢
      exact this
    · simp [MainPc.closerStarted]
    · intro hc
      simp at hc
    · simp [hncl]
    · exact hinv.sentCount
    · exact hinv.sentBy
    · have := hinv.chan
      simp only [hm, MainPc.inHand] at this ⊢
      exact this
    · simp only [hm] at htal
      exact htal
    · intro hc
      simp at hc
  · -- recv
    rename_i hm
    split at h
    · simp only [Option.some.injEq] at h; subst h
      rename_i event rest hch
      apply inv_stepMain_simple hinv <;>
        simp_all [MainPc.printing, MainPc.started, MainPc.closerStarted, MainPc.inHand]
    · split at h
      · simp only [Option.some.injEq] at h; subst h
        apply inv_stepMain_simple hinv <;>
          simp_all [MainPc.printing, MainPc.started, MainPc.closerStarted, MainPc.inHand]
      · simp at h
  · -- lock
    split at h
    · simp at h
    · simp only [Option.some.injEq] at h; subst h
      apply inv_stepMain_simple hinv <;>
        simp_all [MainPc.printing, MainPc.started, MainPc.closerStarted, MainPc.inHand]
  · -- report
    simp only [Option.some.injEq] at h; subst h
    apply inv_stepMain_simple hinv <;>
      simp_all [MainPc.printing, MainPc.started, MainPc.closerStarted, MainPc.inHand,
        drainEvents_append_one]
  · -- unlock
    split at h
    · simp only [Option.some.injEq] at h; subst h
      apply inv_stepMain_simple hinv <;>
        simp_all [MainPc.printing, MainPc.started, MainPc.closerStarted, MainPc.inHand]
    · simp at h
  · -- summary
    simp only [Option.some.injEq] at h; subst h
    have hd := hinv.drained
    apply inv_stepMain_simple hinv <;>
      simp_all [MainPc.printing, MainPc.started, MainPc.closerStarted, MainPc.inHand,
        processCopyEvents]
  · simp at h
  · simp at h

theorem inv_stepCloser {s s' : State} (hinv : Inv s) (h : stepCloser s = some s') : Inv s' := by
  unfold stepCloser at h
  split at h
  · simp at h
  · -- wait
    rename_i hc
    split at h
    · rename_i hwg
      simp only [Option.some.injEq] at h; subst h
      have hstarted : s.main.closerStarted = true := hinv.closer.mp (by simp [hc])
      have hncl : s.closed = false := by
        cases hcl : s.closed with
        | false => rfl
        | true => have := hinv.closed.mp hcl; simp [hc] at this
      constructor
      · exact hinv.mutex
      · exact hinv.wg
      · exact hinv.started
      · simp [hstarted]
      · intro _ t ht
        obtain ⟨i, hi⟩ := List.mem_iff_getElem?.mp ht
        have hlt : i < s.tasks.length := idx_lt_length hi
        have hsp := hinv.started i t hi
        have hlive : t.pc.live = false := by
          have h0 : s.tasks.countP (fun t => t.pc.live) = 0 := by rw [← hinv.wg]; exact hwg
          have := List.countP_eq_zero.mp h0 t ht
          simpa using this
        have hn : s.main.started s.tasks.length = s.tasks.length := by
          cases hm : s.main <;> simp_all [MainPc.closerStarted, MainPc.started]
        rw [hn] at hsp
        have hne := hsp.mpr hlt
        cases hpc : t.pc <;> simp_all [TaskPc.live]
      · simp [hncl]
      · exact hinv.sentCount
      · exact hinv.sentBy
      · exact hinv.chan
      · exact hinv.tally
      · intro hm
        have := hinv.drained hm
        simp [hncl] at this
    · simp at h
  · -- close
    rename_i hc
    split at h
    · simp at h
    · simp only [Option.some.injEq] at h; subst h
      constructor
      · exact hinv.mutex
      · exact hinv.wg
      · exact hinv.started
      · have := hinv.closer
        simp only [hc] at this
        simpa using this
      · intro _
        exact hinv.allDone (Or.inl hc)
      · simp
      · exact hinv.sentCount
      · exact hinv.sentBy
      · exact hinv.chan
      · exact hinv.tally
      · intro hm
        exact ⟨(hinv.drained hm).1, rfl⟩
  · simp at h

theorem inv_init (srcFiles : List configMetadata) (fs : FS) : Inv (State.init srcFiles fs) := by
  constructor
  · simp [State.init, MainPc.printing, List.countP_eq_zero, TaskPc.prompting]
  · simp only [State.init]
    symm
    rw [List.countP_eq_zero]
    intro t ht
    obtain ⟨src, _, rfl⟩ := List.mem_map.mp ht
    simp [TaskPc.live]
  · intro i t hi
    simp only [State.init, List.getElem?_map, Option.map_eq_some'] at hi
    obtain ⟨src, _, rfl⟩ := hi
    simp [State.init, MainPc.started]
  · simp [State.init, MainPc.closerStarted]
  · simp [State.init]
  · simp [State.init]
  · simp only [State.init, List.length_nil]
    symm
    rw [List.countP_eq_zero]
    intro t ht
    obtain ⟨src, _, rfl⟩ := List.mem_map.mp ht
    simp [TaskPc.hasSent]
  · intro i
    simp only [State.init, List.filter_nil, List.length_nil, List.getElem?_map]
    cases srcFiles[i]? <;> simp [TaskPc.hasSent]
  · simp [State.init, MainPc.inHand]
  · simp [State.init, drainEvents]
  · simp [State.init]

theorem inv_step {destDir : GoString} {s s' : State} {c : Thread × Oracle} (hinv : Inv s)
    (h : step destDir s c = some s') : Inv s' := by
  unfold step at h
  split at h
  · exact inv_stepMain hinv h
  · exact inv_stepTask hinv h
  · exact inv_stepCloser hinv h

theorem inv_exec {destDir : GoString} {sched : List (Thread × Oracle)} {s s' : State}
    (hinv : Inv s) (h : exec destDir s sched = some s') : Inv s' := by
  induction sched generalizing s with
  | nil =>
    simp only [exec, Option.some.injEq] at h
    exact h ▸ hinv
  | cons c rest ih =>
    simp only [exec] at h
    split at h
    · rename_i s1 hs1
      exact ih (inv_step hinv hs1) h
    · simp at h

theorem tasks_length_step {destDir : GoString} {s s' : State} {c : Thread × Oracle}
    (h : step destDir s c = some s') : s'.tasks.length = s.tasks.length := by
  unfold step at h
  split at h
  · unfold stepMain at h
    repeat' split at h
    all_goals first
      | (simp only [Option.some.injEq] at h; subst h; simp)
      | simp at h
  · obtain ⟨t, pc', _, htasks, _⟩ := stepTask_shape h
    rw [htasks, List.length_set]
  · unfold stepCloser at h
    repeat' split at h
    all_goals first
      | (simp only [Option.some.injEq] at h; subst h; simp)
      | simp at h

theorem tasks_length_exec {destDir : GoString} {sched : List (Thread × Oracle)} {s s' : State}
    (h : exec destDir s sched = some s') : s'.tasks.length = s.tasks.length := by
  induction sched generalizing s with
  | nil =>
    simp only [exec, Option.some.injEq] at h
    rw [h]
  | cons c rest ih =>
    simp only [exec] at h
    split at h
    · rename_i s1 hs1
      rw [ih h, tasks_length_step hs1]
    · simp at h

/-- Every step strictly decreases the measure. -/
theorem measure_step {destDir : GoString} {s s' : State} {c : Thread × Oracle} (hinv : Inv s)
    (h : step destDir s c = some s') : s'.measure < s.measure := by
  unfold step at h
  split at h
  · unfold stepMain at h
    split at h
    · rename_i hm
      split at h <;> (simp only [Option.some.injEq] at h; subst h) <;>
        simp only [State.measure, hm, MainPc.rank] <;> omega
    · rename_i k hm
      split at h <;> (simp only [Option.some.injEq] at h; subst h)
      · rename_i t ht
        have hs := sum_map_set (fun t : Task => t.pc.rank) s.tasks k t
          { t with dst := Join destDir t.src.Path, pc := TaskPc.stat } ht
        have hk : k < s.tasks.length := idx_lt_length ht
        have hun : t.pc = TaskPc.unspawned := by
          have := hinv.started k t ht
          rw [hm] at this
          simp only [MainPc.started, lt_self_iff_false, iff_false, ne_eq, not_not] at this
          exact this
        simp only [State.measure, hm, MainPc.rank, List.length_set, TaskPc.rank, hun] at hs ⊢
        omega
      · simp only [State.measure, hm, MainPc.rank]; omega
    · rename_i hm
      simp only [Option.some.injEq] at h; subst h
      have hcs : s.closer = CloserPc.unspawned := by
        by_contra hc
        have := hinv.closer.mp hc
        simp [hm, MainPc.closerStarted] at this
      simp only [State.measure, hm, MainPc.rank, hcs, CloserPc.rank]
      omega
    · rename_i hm
      split at h
      · rename_i event rest hch
        simp only [Option.some.injEq] at h; subst h
        simp only [State.measure, hm, MainPc.rank, hch, List.length_cons]
        omega
      · split at h
        · simp only [Option.some.injEq] at h; subst h
          simp only [State.measure, hm, MainPc.rank]
          omega
        · simp at h
    · rename_i hm
      split at h
      · simp at h
      · simp only [Option.some.injEq] at h; subst h
        simp only [State.measure, hm, MainPc.rank]
        omega
    · rename_i hm
      simp only [Option.some.injEq] at h; subst h
      simp only [State.measure, hm, MainPc.rank]
      omega
    · rename_i hm
      split at h
      · simp only [Option.some.injEq] at h; subst h
        simp only [State.measure, hm, MainPc.rank]
        omega
      · simp at h
    · rename_i hm
      simp only [Option.some.injEq] at h; subst h
      simp only [State.measure, hm, MainPc.rank]
      omega
    · simp at h
    · simp at h
  · obtain ⟨t, pc', ht, htasks, hmain, hcloser, _, _, _, _, _, _, _, _, _, hrank, _⟩ :=
      stepTask_shape h
    have hs := sum_map_set (fun t : Task => t.pc.rank) s.tasks _ t { t with pc := pc' } ht
    simp only [State.measure, htasks, hmain, hcloser, List.length_set] at hs ⊢
    omega
  · unfold stepCloser at h
    split at h
    · simp at h
    · rename_i hc
      split at h
      · simp only [Option.some.injEq] at h; subst h
        simp only [State.measure, hc, CloserPc.rank]
        omega
      · simp at h
    · rename_i hc
      split at h
      · simp at h
      · simp only [Option.some.injEq] at h; subst h
        simp only [State.measure, hc, CloserPc.rank]
        omega
    · simp at h

theorem measure_exec {destDir : GoString} {sched : List (Thread × Oracle)} {s s' : State}
    (hinv : Inv s) (h : exec destDir s sched = some s') :
    s'.measure + sched.length ≤ s.measure := by
  induction sched generalizing s with
  | nil =>
    simp only [exec, Option.some.injEq] at h
    simp [h]
  | cons c rest ih =>
    simp only [exec] at h
    split at h
    · rename_i s1 hs1
      have h1 := ih (inv_step hinv hs1) h
      have h2 := measure_step hinv hs1
      simp only [List.length_cons]
      omega
    · simp at h

theorem measure_init (srcFiles : List configMetadata) (fs : FS) :
    (State.init srcFiles fs).measure = 17 * srcFiles.length + 11 := by
  have : ∀ l : List configMetadata,
      (List.map (fun t : Task => t.pc.rank)
        (List.map (fun src => { src := src, dst := [], pc := TaskPc.unspawned }) l)).sum
        = 16 * l.length := by
    intro l
    induction l with
    | nil => rfl
    | cons x xs ih =>
      rw [List.map_cons, List.map_cons, List.sum_cons, ih, List.length_cons]
      show 16 + 16 * xs.length = 16 * (xs.length + 1)
      omega
  simp only [State.measure, State.init, this, MainPc.rank, CloserPc.rank, List.length_map,
    List.length_nil]
  omega

theorem countP_pos_of_getElem? {p : Task → Bool} {l : List Task} {i : Nat} {t : Task}
    (h : l[i]? = some t) (hp : p t = true) : 0 < l.countP p :=
  List.countP_pos_iff.mpr ⟨t, List.getElem?_mem h, hp⟩

/-- A task whose prompt is in progress can always take its next step. -/
theorem prompting_enabled {s : State} {i : Nat} {t : Task} (hinv : Inv s)
    (ht : s.tasks[i]? = some t) (hp : t.pc.prompting = true) (o : Oracle) :
    (stepTask o s i).isSome = true := by
  have hpos := countP_pos_of_getElem? (p := fun t => t.pc.prompting) ht hp
  have hmu : s.confirmMu = true := by
    have := hinv.mutex
    cases hc : s.confirmMu with
    | true => rfl
    | false => rw [hc] at this; simp only [Bool.toNat_false] at this; omega
  unfold stepTask
  simp only [ht]
  cases hpc : t.pc <;> simp_all [TaskPc.prompting]
  split <;> simp

/-- When the mutex is locked and the reporter does not hold it, some task holds it. -/
theorem exists_prompting {s : State} (hinv : Inv s) (hmu : s.confirmMu = true)
    (hmain : s.main.printing = false) :
    ∃ (i : Nat) (t : Task), s.tasks[i]? = some t ∧ t.pc.prompting = true := by
  have := hinv.mutex
  rw [hmu, hmain] at this
  simp only [Bool.toNat_false, Bool.toNat_true, add_zero] at this
  exact exists_of_countP_pos (fun t : Task => t.pc.prompting) s.tasks (by omega)

/-- A started task that has not ended can take a step unless it waits for the mutex, provided
the channel is open and not full. -/
theorem live_enabled {s : State} {i : Nat} {t : Task} (hinv : Inv s)
    (ht : s.tasks[i]? = some t) (hl : t.pc.live = true) (hopen : s.closed = false)
    (hroom : s.eventChan.length < s.tasks.length) :
    (∀ o, (stepTask o s i).isSome = true) ∨ (t.pc = TaskPc.lock ∧ s.confirmMu = true) := by
  have hwg : s.wg ≠ 0 := by
    have := countP_pos_of_getElem? (p := fun t => t.pc.live) ht hl
    have := hinv.wg
    omega
  by_cases hp : t.pc.prompting = true
  · exact Or.inl (prompting_enabled hinv ht hp)
  · cases hpc : t.pc with
    | lock =>
      cases hmu : s.confirmMu with
      | true => exact Or.inr ⟨rfl, rfl⟩
      | false =>
        left; intro o
        unfold stepTask
        simp [ht, hpc, hmu]
    | unspawned => simp [hpc, TaskPc.live] at hl
    | finished => simp [hpc, TaskPc.live] at hl
    | prompt => simp [hpc, TaskPc.prompting] at hp
    | unlock r => simp [hpc, TaskPc.prompting] at hp
    | send ev =>
      left; intro o
      unfold stepTask
      simp only [ht, hpc, hopen]
      rw [if_neg (by simp; omega)]
      rfl
    | wgDone =>
      left; intro o
      unfold stepTask
      simp [ht, hpc, hwg]
    | _ =>
      left; intro o
      unfold stepTask
      simp only [ht, hpc]
      repeat' split
      all_goals rfl

/-- Deadlock freedom: in every state satisfying the invariant in which
`CopyFilesConcurrently` has not returned, some thread can take a step, whatever the environment
does to it. -/
theorem progress (destDir : GoString) {s : State} (hinv : Inv s)
    (hrun : s.main.terminal = false) :
    ∃ th : Thread, ∀ o : Oracle, (step destDir s (th, o)).isSome = true := by
  have holder : s.confirmMu = true → s.main.printing = false →
      ∃ th : Thread, ∀ o : Oracle, (step destDir s (th, o)).isSome = true := by
    intro hmu hmain
    obtain ⟨i, t, ht, hp⟩ := exists_prompting hinv hmu hmain
    exact ⟨Thread.task i, fun o => prompting_enabled hinv ht hp o⟩
  cases hm : s.main with
  | returned r => simp [hm, MainPc.terminal] at hrun
  | failed err => simp [hm, MainPc.terminal] at hrun
  | mkdirRoot =>
    refine ⟨Thread.main, fun o => ?_⟩
    simp only [step, stepMain, hm]
    split <;> rfl
  | spawn k =>
    refine ⟨Thread.main, fun o => ?_⟩
    simp only [step, stepMain, hm]
    split <;> rfl
  | spawnCloser => exact ⟨Thread.main, fun o => by simp [step, stepMain, hm]⟩
  | report ev => exact ⟨Thread.main, fun o => by simp [step, stepMain, hm]⟩
  | summary => exact ⟨Thread.main, fun o => by simp [step, stepMain, hm]⟩
  | unlock =>
    have hmu : s.confirmMu = true := by
      have := hinv.mutex
      rw [hm] at this
      cases hc : s.confirmMu with
      | true => rfl
      | false => rw [hc] at this; simp [MainPc.printing] at this
    exact ⟨Thread.main, fun o => by simp [step, stepMain, hm, hmu]⟩
  | lock ev =>
    cases hmu : s.confirmMu with
    | false => exact ⟨Thread.main, fun o => by simp [step, stepMain, hm, hmu]⟩
    | true => exact holder hmu (by simp [hm, MainPc.printing])
  | recv =>
    cases hch : s.eventChan with
    | cons ev rest => exact ⟨Thread.main, fun o => by simp [step, stepMain, hm, hch]⟩
    | nil =>
      cases hcl : s.closed with
      | true => exact ⟨Thread.main, fun o => by simp [step, stepMain, hm, hch, hcl]⟩
      | false =>
        have hstarted : s.closer ≠ CloserPc.unspawned :=
          hinv.closer.mpr (by simp [hm, MainPc.closerStarted])
        have hnf : s.closer ≠ CloserPc.finished := by
          intro hc
          have := hinv.closed.mpr hc
          simp [hcl] at this
        cases hc : s.closer with
        | unspawned => exact absurd hc hstarted
        | finished => exact absurd hc hnf
        | close => exact ⟨Thread.closer, fun o => by simp [step, stepCloser, hc, hcl]⟩
        | wait =>
          by_cases hwg : s.wg = 0
          · exact ⟨Thread.closer, fun o => by simp [step, stepCloser, hc, hwg]⟩
          · have hpos : 0 < s.tasks.countP (fun t => t.pc.live) := by
              have := hinv.wg
              omega
            obtain ⟨i, t, ht, hl⟩ := exists_of_countP_pos _ _ hpos
            have hroom : s.eventChan.length < s.tasks.length := by
              have := idx_lt_length ht
              rw [hch]
              simpa using (by omega : 0 < s.tasks.length)
            rcases live_enabled hinv ht hl hcl hroom with h | ⟨_, hmu⟩
            · exact ⟨Thread.task i, h⟩
            · exact holder hmu (by simp [hm, MainPc.printing])

theorem countP_two {α : Type} (p : α → Bool) (l : List α) (i j : Nat) (a b : α)
    (hij : i ≠ j) (hi : l[i]? = some a) (hj : l[j]? = some b) (ha : p a = true)
    (hb : p b = true) : 2 ≤ l.countP p := by
  induction l generalizing i j with
  | nil => simp at hi
  | cons x xs ih =>
    cases i with
    | zero =>
      cases j with
      | zero => exact absurd rfl hij
      | succ j' =>
        simp only [List.getElem?_cons_zero, Option.some.injEq] at hi
        simp only [List.getElem?_cons_succ] at hj
        subst hi
        have := List.countP_pos_iff.mpr ⟨b, List.getElem?_mem hj, hb⟩
        simp only [List.countP_cons, ha, if_true]
        omega
    | succ i' =>
      cases j with
      | zero =>
        simp only [List.getElem?_cons_zero, Option.some.injEq] at hj
        simp only [List.getElem?_cons_succ] at hi
        subst hj
        have := List.countP_pos_iff.mpr ⟨a, List.getElem?_mem hi, ha⟩
        simp only [List.countP_cons, hb, if_true]
        omega
      | succ j' =>
        simp only [List.getElem?_cons_succ] at hi hj
        have := ih i' j' (fun e => hij (by rw [e])) hi hj
        simp only [List.countP_cons]
        omega

/-- What holds once `processCopyEvents` has returned: every task has ended, every file has its
event, the channel is empty, and output and result are those of `processCopyEvents` on the
events in the order they were sent. -/
theorem inv_returned {s : State} {r : Option GoError} (hinv : Inv s)
    (hm : s.main = MainPc.returned r) :
    (∀ t ∈ s.tasks, t.pc = TaskPc.finished) ∧ s.sent.length = s.tasks.length
      ∧ s.eventChan = [] ∧ s.reported = s.sent.map Prod.snd
      ∧ (s.tally.printed, r) = processCopyEvents (s.sent.map Prod.snd) := by
  obtain ⟨hch, hcl⟩ := hinv.drained (Or.inr ⟨r, hm⟩)
  have hall := hinv.allDone (Or.inr (hinv.closed.mp hcl))
  have hrep : s.reported = s.sent.map Prod.snd := by
    have := hinv.chan
    rw [hm, hch] at this
    simpa [MainPc.inHand] using this.symm
  refine ⟨hall, ?_, hch, hrep, ?_⟩
  · rw [hinv.sentCount, List.countP_eq_length]
    intro t ht
    simp [hall t ht, TaskPc.hasSent]
  · have := hinv.tally
    rw [hm] at this
    rw [← hrep]
    exact this

theorem inv_sentBy_le_one {s : State} (hinv : Inv s) (i : Nat) : (s.sentBy i).length ≤ 1 := by
  have := hinv.sentBy i
  simp only [State.sentBy, List.length_map]
  rw [this]
  split
  · exact Bool.toNat_le _
  · omega

theorem inv_sent_le {s : State} (hinv : Inv s) : s.sent.length ≤ s.tasks.length := by
  rw [hinv.sentCount]
  exact List.countP_le_length _

theorem inv_failed_no_event {s : State} {err : GoError} (hinv : Inv s)
    (hm : s.main = MainPc.failed err) : s.sent = [] := by
  have h0 : s.tasks.countP (fun t => t.pc.hasSent) = 0 := by
    rw [List.countP_eq_zero]
    intro t ht
    obtain ⟨i, hi⟩ := List.mem_iff_getElem?.mp ht
    have := hinv.started i t hi
    rw [hm] at this
    simp only [MainPc.started, not_lt_zero', iff_false, ne_eq, not_not] at this
    simp [this, TaskPc.hasSent]
  have := hinv.sentCount
  rw [h0] at this
  exact List.length_eq_zero.mp this

/-! ## Theorems: filepath.go -/

theorem decode_size_pos (c : Nat) (rest : GoString) :
    1 ≤ (DecodeRuneInString (c :: rest)).2 := by
  unfold DecodeRuneInString
  repeat' split
  all_goals simp_all

theorem decode_size_le (s : GoString) : (DecodeRuneInString s).2 ≤ 4 := by
  unfold DecodeRuneInString
  repeat' split
  all_goals simp

theorem decode_ascii (c : Nat) (rest : GoString) (h : c < RuneSelf) :
    DecodeRuneInString (c :: rest) = (c, 1) := by
  simp [DecodeRuneInString, h]

theorem IsSpace_RuneError : IsSpace RuneError = false := by decide

theorem IsSpace_ascii (c : Nat) (h : c < RuneSelf) : IsSpace c = asciiSpace c := by
  unfold IsSpace asciiSpace RuneSelf at *
  have h1 : c ≤ 0xFF := by omega
  simp only [h1, if_true]
  congr 1
  apply propext
  constructor
  · rintro (h | h | h | h | h | h | h | h) <;> omega
  · rintro (h | h | h | h | h | h) <;> omega

/-- A valid decoding depends only on the bytes it consumes. -/
theorem decode_append (u v : GoString) (r : Nat) (h : DecodeRuneInString u = (r, u.length))
    (hr : r ≠ RuneError) : DecodeRuneInString (u ++ v) = (r, u.length) := by
  have key : ∀ (a : Nat) (w : GoString), w.length ≤ 3 →
      DecodeRuneInString (a :: w) = (r, w.length + 1) →
      DecodeRuneInString (a :: (w ++ v)) = (r, w.length + 1) := by
    intro a w hw h
    simp only [DecodeRuneInString, List.length_cons, List.length_append] at h ⊢
    by_cases h1 : a < RuneSelf
    · simp only [h1, if_true] at h ⊢
      simp only [Prod.mk.injEq] at h
      simp only [Prod.mk.injEq]
      exact ⟨h.1, by omega⟩
    · simp only [h1, if_false] at h ⊢
      cases hl : leadInfo a with
      | none =>
        simp only [hl, Prod.mk.injEq] at h
        exact absurd h.1.symm hr
      | some t =>
        obtain ⟨sz, lo, hi⟩ := t
        simp only [hl] at h ⊢
        by_cases h2 : w.length + 1 < sz
        · simp_all
        · have h2' : ¬ (w.length + v.length + 1 < sz) := by omega
          simp only [h2, h2', if_false] at h ⊢
          match w, hw with
          | [], _ => simp_all
          | b :: w1, hw =>
            simp only [List.cons_append] at h ⊢
            by_cases h3 : b < lo ∨ hi < b
            · simp_all
            · simp only [h3, if_false] at h ⊢
              by_cases h4 : sz ≤ 2
              · simp_all
              · simp only [h4, if_false] at h ⊢
                match w1, hw with
                | [], _ => simp_all
                | c :: w2, hw =>
                  simp only [List.cons_append] at h ⊢
                  by_cases h5 : (!isCont c) = true
                  · simp_all
                  · simp only [h5, if_false] at h ⊢
                    by_cases h6 : sz ≤ 3
                    · simp_all
                    · simp only [h6, if_false] at h ⊢
                      match w2, hw with
                      | [], _ => simp_all
                      | d :: w3, hw =>
                        simp only [List.cons_append] at h ⊢
                        by_cases h7 : (!isCont d) = true
                        · simp_all
                        · simp_all
  match u with
  | [] => simp [DecodeRuneInString] at h; exact absurd h.symm hr
  | a :: w =>
    have hle := decode_size_le (a :: w)
    rw [h] at hle
    simp only [List.length_cons] at hle h
    exact key a w (by omega) h

/-- A rune other than `RuneError` returned by `DecodeLastRuneInString` is the forward decoding
of the last `size` bytes. -/
theorem decodeLast_valid (u : GoString) (r size : Nat)
    (h : DecodeLastRuneInString u = (r, size)) (hr : r ≠ RuneError) :
    1 ≤ size ∧ size ≤ u.length ∧ DecodeRuneInString (u.drop (u.length - size)) = (r, size) := by
  unfold DecodeLastRuneInString at h
  dsimp only at h
  split at h
  · simp only [Prod.mk.injEq] at h
    exact absurd h.1.symm hr
  · rename_i hlen
    split at h
    · rename_i hascii
      simp only [Prod.mk.injEq] at h
      obtain ⟨h1, h2⟩ := h
      subst h2
      refine ⟨le_refl _, by omega, ?_⟩
      have hlt : u.length - 1 < u.length := by omega
      rw [List.drop_eq_getElem_cons hlt]
      have hg : u.getD (u.length - 1) 0 = u[u.length - 1] := by
        simp [List.getD_eq_getElem?_getD, List.getElem?_eq_getElem hlt]
      rw [hg] at h1 hascii
      rw [decode_ascii _ _ hascii, h1]
    · generalize hst : (if scanStart u (if (u.length : Int) - (UTFMax : Int) < 0 then 0
          else (u.length : Int) - (UTFMax : Int)) UTFMax ((u.length : Int) - 2) < 0 then (0 : Int)
          else scanStart u (if (u.length : Int) - (UTFMax : Int) < 0 then 0
          else (u.length : Int) - (UTFMax : Int)) UTFMax ((u.length : Int) - 2)) = start at h
      have hnn : 0 ≤ start := by
        rw [← hst]; split <;> omega
      cases hd : DecodeRuneInString (u.drop start.toNat) with
      | mk r' size' =>
        rw [hd] at h
        dsimp only at h
        split at h
        · simp only [Prod.mk.injEq] at h
          exact absurd h.1.symm hr
        · rename_i heq
          simp only [ne_eq, not_not] at heq
          simp only [Prod.mk.injEq] at h
          obtain ⟨h1, h2⟩ := h
          subst h1 h2
          have hs : start.toNat = u.length - size' := by omega
          have hle : size' ≤ u.length := by omega
          rw [← hs]
          refine ⟨?_, hle, hd⟩
          cases hdr : u.drop start.toNat with
          | nil =>
            rw [hdr] at hd
            simp only [DecodeRuneInString, Prod.mk.injEq] at hd
            exact absurd hd.1.symm hr
          | cons c rest =>
            have := decode_size_pos c rest
            rw [← hdr, hd] at this
            exact this

/-- When the backward scan of `lastIndexFunc` finds only white space, the string starts with a
white-space rune. -/
theorem lastIndexFunc_none (t : GoString) (fuel i : Nat) (hi : i ≤ t.length) (hpos : 0 < i)
    (hf : i ≤ fuel) (h : lastIndexFunc IsSpace false t fuel i = none) :
    IsSpace (DecodeRuneInString t).1 = true := by
  induction fuel generalizing i with
  | zero => omega
  | succ fuel ih =>
    unfold lastIndexFunc at h
    simp only [hpos, if_true] at h
    cases hd : DecodeLastRuneInString (t.take i) with
    | mk r size =>
      rw [hd] at h
      dsimp only at h
      split at h
      · simp at h
      · rename_i hsp
        have hspace : IsSpace r = true := by
          cases hr : IsSpace r with
          | true => rfl
          | false => exact absurd hr hsp
        have hne : r ≠ RuneError := by
          intro he
          rw [he, IsSpace_RuneError] at hspace
          simp at hspace
        obtain ⟨h1, h2, h3⟩ := decodeLast_valid (t.take i) r size hd hne
        have hlen : (t.take i).length = i := by simp [hi]
        rw [hlen] at h2 h3
        by_cases hz : i - size = 0
        · have hsz : size = i := by omega
          subst hsz
          simp only [Nat.sub_self, List.drop_zero] at h3
          have := decode_append (t.take size) (t.drop size) r (by rw [hlen]; exact h3) hne
          rw [List.take_append_drop] at this
          rw [this]
          exact hspace
        · exact ih (i - size) (by omega) (by omega) (by omega) h

theorem TrimRightFunc_ne_nil (t : GoString) (hne : t ≠ [])
    (hfirst : IsSpace (DecodeRuneInString t).1 = false) : TrimRightFunc t IsSpace ≠ [] := by
  unfold TrimRightFunc
  have hpos : 0 < t.length := List.length_pos.mpr hne
  cases hl : lastIndexFunc IsSpace false t t.length t.length with
  | none =>
    have := lastIndexFunc_none t t.length t.length (le_refl _) hpos (le_refl _) hl
    rw [hfirst] at this
    simp at this
  | some i =>
    dsimp only
    obtain ⟨c, rest, rfl⟩ := List.exists_cons_of_ne_nil hne
    split
    · cases i with
      | zero =>
        have := decode_size_pos c rest
        simp only [List.drop_zero, Nat.zero_add]
        obtain ⟨k, hk⟩ := Nat.exists_eq_add_of_le this
        rw [hk, Nat.add_comm]
        simp
      | succ j =>
        rw [Nat.add_right_comm]
        simp
    · simp

theorem indexFunc_none_iff (fuel : Nat) (s : GoString) (off : Nat) :
    indexFunc IsSpace false fuel s off = none ↔ (runes fuel s).all IsSpace = true := by
  induction fuel generalizing s off with
  | zero => simp [indexFunc, runes]
  | succ fuel ih =>
    cases s with
    | nil => simp [indexFunc, runes]
    | cons c rest =>
      simp only [indexFunc, runes, List.all_cons, Bool.and_eq_true]
      cases hsp : IsSpace (DecodeRuneInString (c :: rest)).1 with
      | false => simp
      | true =>
        simp only [Bool.true_eq_false, if_false, true_and]
        exact ih _ _

theorem indexFunc_some (fuel : Nat) (s : GoString) (off i : Nat)
    (h : indexFunc IsSpace false fuel s off = some i) :
    ∃ k, i = off + k ∧ k < s.length ∧ IsSpace (DecodeRuneInString (s.drop k)).1 = false := by
  induction fuel generalizing s off with
  | zero => simp [indexFunc] at h
  | succ fuel ih =>
    cases s with
    | nil => simp [indexFunc] at h
    | cons c rest =>
      simp only [indexFunc] at h
      split at h
      · rename_i hsp
        simp only [Option.some.injEq] at h
        exact ⟨0, by omega, by simp, by simpa using hsp⟩
      · obtain ⟨k, hk1, hk2, hk3⟩ := ih _ _ h
        refine ⟨(DecodeRuneInString (c :: rest)).2 + k, by omega, ?_, ?_⟩
        · simp only [List.length_drop] at hk2
          omega
        · rw [List.drop_drop] at hk3
          exact hk3

theorem TrimFunc_eq_nil_iff (s : GoString) :
    TrimFunc s IsSpace = [] ↔ whitespaceOnly s = true := by
  unfold TrimFunc TrimLeftFunc whitespaceOnly
  rw [← indexFunc_none_iff s.length s 0]
  cases hi : indexFunc IsSpace false s.length s 0 with
  | none => simp [TrimRightFunc, lastIndexFunc]
  | some i =>
    obtain ⟨k, hk1, hk2, hk3⟩ := indexFunc_some _ _ _ _ hi
    simp only [Nat.zero_add] at hk1
    subst hk1
    simp only [reduceCtorEq, iff_false]
    apply TrimRightFunc_ne_nil _ _ hk3
    intro hnil
    have := congrArg List.length hnil
    simp only [List.length_drop, List.length_nil] at this
    omega

theorem trimSpaceRight_ne_nil (rev : GoString) (c : Nat) (hc : c < RuneSelf)
    (hns : asciiSpace c = false) : trimSpaceRight (rev ++ [c]) ≠ [] := by
  induction rev with
  | nil =>
    have : ¬ (c ≥ RuneSelf) := by omega
    simp [trimSpaceRight, this, hns]
  | cons d rev ih =>
    simp only [List.cons_append, trimSpaceRight]
    split
    · apply TrimRightFunc_ne_nil
      · simp
      · have hrev : (d :: (rev ++ [c])).reverse = c :: (rev.reverse ++ [d]) := by simp
        show IsSpace (DecodeRuneInString (d :: (rev ++ [c])).reverse).1 = false
        rw [hrev, decode_ascii _ _ hc]
        rw [IsSpace_ascii c hc]
        exact hns
    · split
      · exact ih
      · simp

theorem whitespaceOnly_cons_ascii (c : Nat) (rest : GoString) (hc : c < RuneSelf) :
    whitespaceOnly (c :: rest) = (asciiSpace c && whitespaceOnly rest) := by
  simp [whitespaceOnly, runes, decode_ascii c rest hc, IsSpace_ascii c hc]

/-- `strings.TrimSpace` leaves nothing exactly when every rune of the string is white space. -/
theorem TrimSpace_eq_nil_iff (s : GoString) : TrimSpace s = [] ↔ whitespaceOnly s = true := by
  induction s with
  | nil => simp [TrimSpace, whitespaceOnly, runes]
  | cons c rest ih =>
    unfold TrimSpace
    split
    · exact TrimFunc_eq_nil_iff _
    · rename_i hge
      have hc : c < RuneSelf := by omega
      rw [whitespaceOnly_cons_ascii c rest hc]
      split
      · rename_i hsp
        simp [hsp, ih]
      · rename_i hsp
        have hns : asciiSpace c = false := by
          cases h : asciiSpace c with
          | true => exact absurd h hsp
          | false => rfl
        have := trimSpaceRight_ne_nil rest.reverse c hc hns
        simp only [List.reverse_cons]
        simp [this, hns]

theorem Clean_ne_nil (path : GoString) : Clean path ≠ [] := by
  unfold Clean
  split
  · simp
  · rename_i c rest
    dsimp only
    generalize (if IsPathSeparator c = true then
        cleanLoop (IsPathSeparator c) (c :: rest).length rest [47] 1
      else cleanLoop (IsPathSeparator c) (c :: rest).length (c :: rest) [] 0) = outRev
    by_cases h : outRev.length = 0
    · simp [h]
    · rw [if_neg h]
      intro hc
      exact h (by simpa using congrArg List.length hc)

theorem labelled_init (destDir : GoString) (srcFiles : List configMetadata) (fs : FS) :
    Labelled destDir srcFiles (State.init srcFiles fs) := by
  constructor
  · simp [State.init, Function.comp_def]
  · intro i t hi hne
    simp only [State.init, List.getElem?_map, Option.map_eq_some'] at hi
    obtain ⟨src, _, rfl⟩ := hi
    exact absurd rfl hne
  · intro i t ev hi hpc
    simp only [State.init, List.getElem?_map, Option.map_eq_some'] at hi
    obtain ⟨src, _, rfl⟩ := hi
    simp at hpc
  · intro p hp
    simp [State.init] at hp

theorem map_src_set (l : List Task) (i : Nat) (t x : Task) (h : l[i]? = some t)
    (hx : x.src = t.src) : (l.set i x).map (fun t => t.src) = l.map (fun t => t.src) := by
  induction l generalizing i with
  | nil => rfl
  | cons y ys ih =>
    cases i with
    | zero =>
      simp only [List.getElem?_cons_zero, Option.some.injEq] at h
      subst h
      simp [hx]
    | succ j =>
      simp only [List.getElem?_cons_succ] at h
      simp [ih j h]

theorem labelled_stepTask {destDir : GoString} {srcFiles : List configMetadata} {o : Oracle}
    {s s' : State} {i : Nat} (hl : Labelled destDir srcFiles s)
    (h : stepTask o s i = some s') : Labelled destDir srcFiles s' := by
  obtain ⟨t, pc', ht, htasks, _, _, _, _, _, _, _, hsp, _, _, hchan, _, hsend⟩ :=
    stepTask_shape h
  have hget : ∀ j, s'.tasks[j]? = if i = j then some { t with pc := pc' } else s.tasks[j]? := by
    intro j; rw [htasks]; exact getElem?_set_task _ _ _ _ _ ht
  constructor
  · rw [htasks, map_src_set s.tasks i t { t with pc := pc' } ht rfl]
    exact hl.src
  · intro j tj hj hne
    rw [hget] at hj
    by_cases hij : i = j
    · subst hij
      simp only [if_true, Option.some.injEq] at hj
      subst hj
      exact hl.dst i t ht hsp
    · simp only [hij, if_false] at hj
      exact hl.dst j tj hj hne
  · intro j tj ev hj hpc
    rw [hget] at hj
    by_cases hij : i = j
    · subst hij
      simp only [if_true, Option.some.injEq] at hj
      subst hj
      exact hsend ev hpc
    · simp only [hij, if_false] at hj
      exact hl.pending j tj ev hj hpc
  · intro p hp
    have old : ∀ q ∈ s.sent, ∃ t', s'.tasks[q.1]? = some t' ∧ t'.pc.hasSent = true
        ∧ q.2.SrcPath = t'.src.Path ∧ q.2.DestPath = t'.dst := by
      intro q hq
      obtain ⟨tq, h1, h2, h3, h4⟩ := hl.sent q hq
      rw [hget]
      by_cases hij : i = q.1
      · rw [← hij] at h1
        rw [ht] at h1
        simp only [Option.some.injEq] at h1
        subst h1
        simp only [hij, if_true]
        refine ⟨_, rfl, ?_, h3, h4⟩
        rcases hchan with ⟨_, _, hh⟩ | ⟨ev, hpc, _⟩
        · simp only [hh]; exact h2
        · rw [hpc] at h2; simp [TaskPc.hasSent] at h2
      · simp only [hij, if_false]
        exact ⟨tq, h1, h2, h3, h4⟩
    rcases hchan with ⟨_, hs, _⟩ | ⟨ev, hpc, hpc', _, hs, _, _⟩
    · rw [hs] at hp
      exact old p hp
    · rw [hs, List.mem_append, List.mem_singleton] at hp
      rcases hp with hp | rfl
      · exact old p hp
      · rw [hget]
        simp only [if_true]
        have := hl.pending i t ev ht hpc
        exact ⟨_, rfl, by simp [hpc', TaskPc.hasSent], this.1, this.2⟩

theorem labelled_stepMain {destDir : GoString} {srcFiles : List configMetadata} {o : Oracle}
    {s s' : State} (hinv : Inv s) (hl : Labelled destDir srcFiles s)
    (h : stepMain destDir o s = some s') : Labelled destDir srcFiles s' := by
  have same : s'.tasks = s.tasks → s'.sent = s.sent → Labelled destDir srcFiles s' := by
    intro h1 h2
    exact ⟨by rw [h1]; exact hl.src, by rw [h1]; exact hl.dst, by rw [h1]; exact hl.pending,
      by rw [h1, h2]; exact hl.sent⟩
  unfold stepMain at h
  split at h
  · split at h <;> (simp only [Option.some.injEq] at h; subst h) <;> exact same rfl rfl
  · rename_i k hm
    split at h <;> (simp only [Option.some.injEq] at h; subst h)
    · rename_i t ht
      have hun : t.pc = TaskPc.unspawned := by
        have := hinv.started k t ht
        rw [hm] at this
        simp only [MainPc.started, lt_self_iff_false, iff_false, ne_eq, not_not] at this
        exact this
      have hget : ∀ j, (s.tasks.set k
          { t with dst := Join destDir t.src.Path, pc := TaskPc.stat })[j]?
          = if k = j then some { t with dst := Join destDir t.src.Path, pc := TaskPc.stat }
            else s.tasks[j]? := fun j => getElem?_set_task _ _ _ _ _ ht
      constructor
      · simp only
        rw [map_src_set s.tasks k t
          { t with dst := Join destDir t.src.Path, pc := TaskPc.stat } ht rfl]
        exact hl.src
      · intro j tj hj hne
        simp only [hget] at hj
        by_cases hkj : k = j
        · subst hkj
          simp only [if_true, Option.some.injEq] at hj
          subst hj
          rfl
        · simp only [hkj, if_false] at hj
          exact hl.dst j tj hj hne
      · intro j tj ev hj hpc
        simp only [hget] at hj
        by_cases hkj : k = j
        · subst hkj
          simp only [if_true, Option.some.injEq] at hj
          subst hj
          simp at hpc
        · simp only [hkj, if_false] at hj
          exact hl.pending j tj ev hj hpc
      · intro p hp
        obtain ⟨tp, h1, h2, h3, h4⟩ := hl.sent p hp
        simp only [hget]
        by_cases hkj : k = p.1
        · rw [← hkj, ht] at h1
          simp only [Option.some.injEq] at h1
          subst h1
          rw [hun] at h2
          simp [TaskPc.hasSent] at h2
        · simp only [hkj, if_false]
          exact ⟨tp, h1, h2, h3, h4⟩
    · exact same rfl rfl
  · simp only [Option.some.injEq] at h; subst h; exact same rfl rfl
  · split at h
    · simp only [Option.some.injEq] at h; subst h; exact same rfl rfl
    · split at h
      · simp only [Option.some.injEq] at h; subst h; exact same rfl rfl
      · simp at h
  · split at h
    · simp at h
    · simp only [Option.some.injEq] at h; subst h; exact same rfl rfl
  · simp only [Option.some.injEq] at h; subst h; exact same rfl rfl
  · split at h
    · simp only [Option.some.injEq] at h; subst h; exact same rfl rfl
    · simp at h
  · simp only [Option.some.injEq] at h; subst h; exact same rfl rfl
  · simp at h
  · simp at h

theorem labelled_stepCloser {destDir : GoString} {srcFiles : List configMetadata}
    {s s' : State} (hl : Labelled destDir srcFiles s)
    (h : stepCloser s = some s') : Labelled destDir srcFiles s' := by
  have same : s'.tasks = s.tasks → s'.sent = s.sent → Labelled destDir srcFiles s' := by
    intro h1 h2
    exact ⟨by rw [h1]; exact hl.src, by rw [h1]; exact hl.dst, by rw [h1]; exact hl.pending,
      by rw [h1, h2]; exact hl.sent⟩
  unfold stepCloser at h
  repeat' split at h
  all_goals first
    | (simp only [Option.some.injEq] at h; subst h; exact same rfl rfl)
    | simp at h

theorem labelled_exec {destDir : GoString} {srcFiles : List configMetadata}
    {sched : List (Thread × Oracle)} {s s' : State} (hinv : Inv s)
    (hl : Labelled destDir srcFiles s) (h : exec destDir s sched = some s') :
    Labelled destDir srcFiles s' := by
  induction sched generalizing s with
  | nil =>
    simp only [exec, Option.some.injEq] at h
    exact h ▸ hl
  | cons c rest ih =>
    simp only [exec] at h
    split at h
    · rename_i s1 hs1
      refine ih (inv_step hinv hs1) ?_ h
      unfold step at hs1
      split at hs1
      · exact labelled_stepMain hinv hl hs1
      · exact labelled_stepTask hl hs1
      · exact labelled_stepCloser hl hs1
    · simp at h

/-- Every event on the stream carries the relative path of the file of the task that sent it
and the destination root joined with that path. -/
theorem labelled_sent_file {destDir : GoString} {srcFiles : List configMetadata} {s : State}
    (hl : Labelled destDir srcFiles s) (p : Nat × CopyEvent) (hp : p ∈ s.sent) :
    ∃ src, srcFiles[p.1]? = some src ∧ p.2.SrcPath = src.Path
      ∧ p.2.DestPath = Join destDir src.Path := by
  obtain ⟨t, h1, h2, h3, h4⟩ := hl.sent p hp
  have hne : t.pc ≠ TaskPc.unspawned := by
    intro hc
    rw [hc] at h2
    simp [TaskPc.hasSent] at h2
  refine ⟨t.src, ?_, h3, ?_⟩
  · rw [← hl.src, List.getElem?_map, h1]
    rfl
  · rw [h4]
    exact hl.dst p.1 t h1 hne

/-- C1: in every execution of `CopyFilesConcurrently` on N files, whatever the file-system
calls and the prompts do, no task ever has more than one event on the stream, the stream never
carries more than N, and every event carries the path of the file of its task and the
destination root joined with it; the execution takes at most 17·N + 11 steps and can always go
on until the call has returned; and once the destination root has been created and
`processCopyEvents` has returned, exactly N events have been sent, exactly one by each per-file
task, and all of them have been received. Run on its own, a per-file task sends exactly one
event under every outcome of its system calls and of the prompt. -/
theorem copyFilesConcurrently_one_event_per_file (srcFiles : List configMetadata)
    (destDir : GoString) (fs : FS) (sched : List (Thread × Oracle)) (s : State)
    (h : CopyFilesConcurrently srcFiles destDir fs sched = some s) :
    (∀ i, (s.sentBy i).length ≤ 1) ∧ s.sent.length ≤ srcFiles.length
      ∧ (∀ p ∈ s.sent, ∃ src, srcFiles[p.1]? = some src ∧ p.2.SrcPath = src.Path
          ∧ p.2.DestPath = Join destDir src.Path)
      ∧ sched.length ≤ 17 * srcFiles.length + 11
      ∧ (s.main.terminal = false →
          ∃ th : Thread, ∀ o : Oracle, (step destDir s (th, o)).isSome = true)
      ∧ (∀ r, s.main = MainPc.returned r →
          s.sent.length = srcFiles.length
            ∧ (∀ i, i < srcFiles.length → (s.sentBy i).length = 1)
            ∧ s.eventChan = [] ∧ s.reported = s.sent.map Prod.snd)
      ∧ (∀ (env : Outcomes) (fs0 : FS) (src : configMetadata) (dst : GoString),
          (copyTask env fs0 src dst).2.length = 1) := by
  have hinv : Inv s := inv_exec (inv_init srcFiles fs) h
  have hlab : Labelled destDir srcFiles s :=
    labelled_exec (inv_init srcFiles fs) (labelled_init destDir srcFiles fs) h
  have hlen : s.tasks.length = srcFiles.length := by
    rw [tasks_length_exec h]; simp [State.init]
  refine ⟨inv_sentBy_le_one hinv, hlen ▸ inv_sent_le hinv, labelled_sent_file hlab, ?_,
    progress destDir hinv, ?_, copyTask_sends_one⟩
  · have := measure_exec (inv_init srcFiles fs) h
    rw [measure_init] at this
    omega
  · intro r hm
    obtain ⟨hall, hsent, hch, hrep, _⟩ := inv_returned hinv hm
    refine ⟨hlen ▸ hsent, ?_, hch, hrep⟩
    intro i hi
    have := hinv.sentBy i
    simp only [State.sentBy, List.length_map]
    rw [this]
    have hi' : i < s.tasks.length := by omega
    rw [List.getElem?_eq_getElem hi']
    simp [hall _ (List.getElem_mem hi'), TaskPc.hasSent]

theorem copyFilesConcurrently_one_event_per_file_witness :
    ∃ s, CopyFilesConcurrently [⟨str "a.conf", str "hi"⟩] (str "proj") checkoutFS
        (sequentialSchedule 8 true) = some s
      ∧ s.main = MainPc.returned none ∧ s.sent.length = 1 ∧ (s.sentBy 0).length = 1 := by
  have hs : (CopyFilesConcurrently [⟨str "a.conf", str "hi"⟩] (str "proj") checkoutFS
      (sequentialSchedule 8 true)).isSome = true := by decide
  obtain ⟨s, hs⟩ := Option.isSome_iff_exists.mp hs
  have hm : (CopyFilesConcurrently [⟨str "a.conf", str "hi"⟩] (str "proj") checkoutFS
      (sequentialSchedule 8 true)).map (fun s => s.main) = some (MainPc.returned none) := by
    decide
  rw [hs] at hm
  simp only [Option.map_some', Option.some.injEq] at hm
  have := copyFilesConcurrently_one_event_per_file [⟨str "a.conf", str "hi"⟩] (str "proj")
    checkoutFS (sequentialSchedule 8 true) s hs
  exact ⟨s, hs, hm, (this.2.2.2.2.2.1 none hm).1, (this.2.2.2.2.2.1 none hm).2.1 0 (by decide)⟩

/-- C2 fails as stated: when the project path is the existing regular file `configs/a.conf`,
`os.MkdirAll` of the destination root fails and `CopyFilesConcurrently` returns a non-nil error
although no task was started and no event, hence no event carrying an error, was sent. -/
theorem copyFilesConcurrently_root_failure_counterexample :
    (CopyFilesConcurrently [⟨str "a.conf", str "hi"⟩] (str "configs/a.conf") checkoutFS
        [(Thread.main, Oracle.ok true)]).map (fun s => (s.main, s.sent))
      = some (MainPc.failed ⟨str "failed to create destination directory: "
          ++ str "mkdir configs/a.conf: not a directory"⟩, []) := by
  decide

/-- C2 (amended): in every execution of `CopyFilesConcurrently` in which the destination root
was created, the error returned is non-nil if and only if at least one per-file event carries
an error; when the creation of the destination root fails the call returns an error and no
event is sent. The execution takes at most 17·N + 11 steps and can always go on until the call
has returned. `processCopyEvents` returns a non-nil error exactly when its error count is
greater than zero. -/
theorem copyFilesConcurrently_error_iff (srcFiles : List configMetadata) (destDir : GoString)
    (fs : FS) (sched : List (Thread × Oracle)) (s : State)
    (h : CopyFilesConcurrently srcFiles destDir fs sched = some s) :
    (∀ r, s.main = MainPc.returned r → (r ≠ none ↔ ∃ p ∈ s.sent, p.2.Error ≠ none))
      ∧ (∀ err, s.main = MainPc.failed err → s.sent = [])
      ∧ sched.length ≤ 17 * srcFiles.length + 11
      ∧ (s.main.terminal = false →
          ∃ th : Thread, ∀ o : Oracle, (step destDir s (th, o)).isSome = true)
      ∧ (∀ events : List CopyEvent,
          (processCopyEvents events).2 ≠ none ↔ 0 < (drainEvents events).errorCount) := by
  have hinv : Inv s := inv_exec (inv_init srcFiles fs) h
  refine ⟨?_, fun err hm => inv_failed_no_event hinv hm, ?_, progress destDir hinv, ?_⟩
  · intro r hm
    obtain ⟨_, _, _, _, hres⟩ := inv_returned hinv hm
    have hr : r = (processCopyEvents (s.sent.map Prod.snd)).2 := by rw [← hres]
    rw [hr, processCopyEvents_result]
    constructor
    · rintro ⟨e, he, herr⟩
      obtain ⟨p, hp, rfl⟩ := List.mem_map.mp he
      exact ⟨p, hp, herr⟩
    · rintro ⟨p, hp, herr⟩
      exact ⟨p.2, List.mem_map.mpr ⟨p, hp, rfl⟩, herr⟩
  · have := measure_exec (inv_init srcFiles fs) h
    rw [measure_init] at this
    omega
  · intro events
    simp only [processCopyEvents, summarize, resultError]
    split <;> simp_all

theorem copyFilesConcurrently_error_iff_witness :
    ∃ s, CopyFilesConcurrently [⟨str "a.conf", str "hi"⟩] (str "configs") checkoutFS
        (sequentialSchedule 6 false) = some s
      ∧ s.main = MainPc.returned (some ⟨str "1 files failed to copy"⟩)
      ∧ ∃ p ∈ s.sent, p.2.Error ≠ none := by
  have hs : (CopyFilesConcurrently [⟨str "a.conf", str "hi"⟩] (str "configs") checkoutFS
      (sequentialSchedule 6 false)).isSome = true := by decide
  obtain ⟨s, hs⟩ := Option.isSome_iff_exists.mp hs
  have hm : (CopyFilesConcurrently [⟨str "a.conf", str "hi"⟩] (str "configs") checkoutFS
      (sequentialSchedule 6 false)).map (fun s => s.main)
      = some (MainPc.returned (some ⟨str "1 files failed to copy"⟩)) := by
    decide
  rw [hs] at hm
  simp only [Option.map_some', Option.some.injEq] at hm
  have := copyFilesConcurrently_error_iff [⟨str "a.conf", str "hi"⟩] (str "configs")
    checkoutFS (sequentialSchedule 6 false) s hs
  exact ⟨s, hs, hm, (this.1 _ hm).mp (by simp)⟩

/-- C3: in every execution of `CopyFilesConcurrently`, `confirmMu` is locked whenever a task is
between the `Lock` before its overwrite prompt and the `Unlock` after it, and whenever the
reporter is between the `Lock` before it prints a result and the `Unlock` after it; no two
tasks are ever inside their prompt sections at the same time, and no task is inside its prompt
section while the reporter is inside its print section. -/
theorem confirmMu_serializes_prompts_and_prints (srcFiles : List configMetadata)
    (destDir : GoString) (fs : FS) (sched : List (Thread × Oracle)) (s : State)
    (h : CopyFilesConcurrently srcFiles destDir fs sched = some s) :
    (∀ (i : Nat) (t : Task), s.tasks[i]? = some t → t.pc.prompting = true →
        s.confirmMu = true)
      ∧ (s.main.printing = true → s.confirmMu = true)
      ∧ (∀ (i j : Nat) (ti tj : Task), i ≠ j → s.tasks[i]? = some ti → s.tasks[j]? = some tj →
          ¬ (ti.pc.prompting = true ∧ tj.pc.prompting = true))
      ∧ (∀ (i : Nat) (t : Task), s.tasks[i]? = some t →
          ¬ (t.pc.prompting = true ∧ s.main.printing = true)) := by
  have hinv : Inv s := inv_exec (inv_init srcFiles fs) h
  have hmu := hinv.mutex
  have hle : s.confirmMu.toNat ≤ 1 := Bool.toNat_le _
  refine ⟨?_, ?_, ?_, ?_⟩
  · intro i t ht hp
    have := countP_pos_of_getElem? (p := fun t => t.pc.prompting) ht hp
    cases hc : s.confirmMu with
    | true => rfl
    | false => rw [hc] at hmu; simp only [Bool.toNat_false] at hmu; omega
  · intro hp
    cases hc : s.confirmMu with
    | true => rfl
    | false => rw [hc, hp] at hmu; simp at hmu
  · rintro i j ti tj hij hi hj ⟨hpi, hpj⟩
    have := countP_two (fun t : Task => t.pc.prompting) s.tasks i j ti tj hij hi hj hpi hpj
    omega
  · rintro i t ht ⟨hp, hm⟩
    have := countP_pos_of_getElem? (p := fun t => t.pc.prompting) ht hp
    rw [hm] at hmu
    simp only [Bool.toNat_true] at hmu
    omega

theorem confirmMu_serializes_prompts_and_prints_witness :
    ∃ s, CopyFilesConcurrently [⟨str "a.conf", str "hi"⟩] (str "configs") checkoutFS
        ((sequentialSchedule 3 false).take 6) = some s
      ∧ s.tasks.map (fun t => t.pc) = [TaskPc.prompt] ∧ s.confirmMu = true := by
  have hs : (CopyFilesConcurrently [⟨str "a.conf", str "hi"⟩] (str "configs") checkoutFS
      ((sequentialSchedule 3 false).take 6)).isSome = true := by decide
  obtain ⟨s, hs⟩ := Option.isSome_iff_exists.mp hs
  have hm : (CopyFilesConcurrently [⟨str "a.conf", str "hi"⟩] (str "configs") checkoutFS
      ((sequentialSchedule 3 false).take 6)).map (fun s => s.tasks)
      = some [⟨⟨str "a.conf", str "hi"⟩, str "configs/a.conf", TaskPc.prompt⟩] := by
    decide
  rw [hs] at hm
  simp only [Option.map_some', Option.some.injEq] at hm
  have h3 := confirmMu_serializes_prompts_and_prints [⟨str "a.conf", str "hi"⟩] (str "configs")
    checkoutFS ((sequentialSchedule 3 false).take 6) s hs
  exact ⟨s, hs, by rw [hm]; rfl, h3.1 0 _ (by rw [hm]; rfl) (by rfl)⟩

/-! ## Theorems: the per-file task and the transition system agree -/

theorem runTaskAlone_finished (env : Outcomes) (i k : Nat) (s : State) (t : Task)
    (ht : s.tasks[i]? = some t) (hpc : t.pc = TaskPc.finished) :
    runTaskAlone env i k s = s := by
  cases k with
  | zero => rfl
  | succ k => simp [runTaskAlone, ht, stepTask, hpc]

theorem runTaskAlone_step (env : Outcomes) (i k : Nat) (s s1 : State) (t : Task)
    (ht : s.tasks[i]? = some t) (h : stepTask (taskOracle env t.pc) s i = some s1) :
    runTaskAlone env i (k + 1) s = runTaskAlone env i k s1 := by
  simp [runTaskAlone, ht, h]

/-- A step that changes only the file system and the control point of the task leaves the task
ready, and what runs after it counts from the state before it. -/
theorem ready_setPc {s : State} {i : Nat} {t : Task} (hr : Ready s i t) (fs1 : FS)
    (pc1 : TaskPc) :
    Ready ({ s with fs := fs1 }.setPc i t pc1) i { t with pc := pc1 }
      ∧ ∀ s' r, RanAs ({ s with fs := fs1 }.setPc i t pc1) s' i { t with pc := pc1 } r →
          RanAs s s' i t r := by
  obtain ⟨ht, h2, h3, h4⟩ := hr
  have hi := idx_lt_length ht
  refine ⟨⟨by simp [State.setPc, List.getElem?_set, hi], h2, ?_, h4⟩, ?_⟩
  · simpa [State.setPc] using h3
  · intro s' r h
    exact h

theorem ready_setPcMu {s : State} {i : Nat} {t : Task} (hr : Ready s i t) (mu : Bool)
    (pc1 : TaskPc) :
    Ready ({ s with confirmMu := mu }.setPc i t pc1) i { t with pc := pc1 }
      ∧ ∀ s' r, RanAs ({ s with confirmMu := mu }.setPc i t pc1) s' i { t with pc := pc1 } r →
          RanAs s s' i t r := by
  obtain ⟨ht, h2, h3, h4⟩ := hr
  have hi := idx_lt_length ht
  refine ⟨⟨by simp [State.setPc, List.getElem?_set, hi], h2, ?_, h4⟩, ?_⟩
  · simpa [State.setPc] using h3
  · intro s' r h
    exact h

theorem stepTask_lock (o : Oracle) (s : State) (i : Nat) (t : Task)
    (ht : s.tasks[i]? = some t) (hpc : t.pc = TaskPc.lock) (hmu : s.confirmMu = false) :
    stepTask o s i = some ({ s with confirmMu := true }.setPc i t TaskPc.prompt) := by
  simp [stepTask, ht, hpc, hmu]

theorem stepTask_prompt (o : Oracle) (s : State) (i : Nat) (t : Task)
    (ht : s.tasks[i]? = some t) (hpc : t.pc = TaskPc.prompt) (hmu : s.confirmMu = true) :
    stepTask o s i = some ({ s with confirmMu := true }.setPc i t (TaskPc.unlock o.answer)) := by
  simp [stepTask, ht, hpc, State.setPc, ← hmu]

theorem stepTask_unlock (o : Oracle) (s : State) (i : Nat) (t : Task) (result : Bool)
    (ht : s.tasks[i]? = some t) (hpc : t.pc = TaskPc.unlock result)
    (hmu : s.confirmMu = true) :
    stepTask o s i = some ({ s with confirmMu := false }.setPc i t
      (if !result then TaskPc.send (t.failure overwriteCancelled) else TaskPc.openSrc)) := by
  cases result <;> simp [stepTask, ht, hpc, hmu]

theorem step_pack (env : Outcomes) {s : State} {i : Nat} {t : Task} (hr : Ready s i t)
    (mu : Bool) (pc1 : TaskPc) (k : Nat)
    (hstep : stepTask (taskOracle env t.pc) s i
      = some ({ s with confirmMu := mu }.setPc i t pc1)) :
    ∃ s1, runTaskAlone env i (k + 1) s = runTaskAlone env i k s1
      ∧ Ready s1 i { t with pc := pc1 } ∧ s1.confirmMu = mu ∧ s1.fs = s.fs
      ∧ ∀ s' r, RanAs s1 s' i { t with pc := pc1 } r → RanAs s s' i t r :=
  ⟨_, runTaskAlone_step env i k s _ t hr.1 hstep, (ready_setPcMu hr mu pc1).1, rfl, rfl,
    (ready_setPcMu hr mu pc1).2⟩

theorem runTaskAlone_send (env : Outcomes) (i k : Nat) (s : State) (t : Task) (ev : CopyEvent)
    (hr : Ready s i t) (hpc : t.pc = TaskPc.send ev) :
    RanAs s (runTaskAlone env i (k + 2) s) i t (s.fs, [ev]) := by
  obtain ⟨ht, hopen, hroom, hwg⟩ := hr
  have hi := idx_lt_length ht
  have hnr : ¬ (s.tasks.length ≤ s.eventChan.length) := by omega
  have h1 : stepTask (taskOracle env t.pc) s i
      = some ({ s with eventChan := s.eventChan ++ [ev], sent := s.sent ++ [(i, ev)] }.setPc
          i t TaskPc.wgDone) := by
    simp [stepTask, ht, hpc, hopen, hnr]
  unfold RanAs
  rw [runTaskAlone, ht]
  simp only [h1]
  rw [runTaskAlone]
  simp only [State.setPc, List.getElem?_set, hi, if_true, ite_true]
  simp only [stepTask, State.setPc, List.getElem?_set, List.length_set, hi, if_true, hwg,
    if_false, ite_true]
  rw [runTaskAlone_finished env i k _ { t with pc := TaskPc.finished }
    (by simp [List.getElem?_set, hi]) rfl]
  simp [List.getElem?_set, hi]

theorem runTaskAlone_sync (env : Outcomes) (i k : Nat) (s : State) (t : Task)
    (hr : Ready s i t) (hpc : t.pc = TaskPc.sync) :
    RanAs s (runTaskAlone env i (k + 3) s) i t
      (match fileSync env.sync with
        | some err => (s.fs, [t.failure err])
        | none =>
          (s.fs, [{ SrcPath := t.src.Path, DestPath := t.dst, PostMessage := t.src.PostMessage,
                    Error := none }])) := by
  have ht := hr.1
  cases h1 : fileSync env.sync with
  | some err =>
    have hs : stepTask (taskOracle env t.pc) s i
        = some ({ s with fs := s.fs }.setPc i t (TaskPc.send (t.failure err))) := by
      simp [stepTask, ht, hpc, taskOracle, h1, State.setPc]
    rw [runTaskAlone_step env i (k + 2) s _ t ht hs]
    obtain ⟨hr1, back⟩ := ready_setPc hr s.fs (TaskPc.send (t.failure err))
    exact back _ _ (runTaskAlone_send env i k _ _ _ hr1 rfl)
  | none =>
    have hs : stepTask (taskOracle env t.pc) s i
        = some ({ s with fs := s.fs }.setPc i t (TaskPc.send
            { SrcPath := t.src.Path, DestPath := t.dst, PostMessage := t.src.PostMessage,
              Error := none })) := by
      simp [stepTask, ht, hpc, taskOracle, h1, State.setPc]
    rw [runTaskAlone_step env i (k + 2) s _ t ht hs]
    obtain ⟨hr1, back⟩ := ready_setPc hr s.fs (TaskPc.send
      { SrcPath := t.src.Path, DestPath := t.dst, PostMessage := t.src.PostMessage,
        Error := none })
    exact back _ _ (runTaskAlone_send env i k _ _ _ hr1 rfl)

theorem runTaskAlone_copy (env : Outcomes) (i k : Nat) (s : State) (t : Task)
    (srcFile dstFile : GoString) (hr : Ready s i t)
    (hpc : t.pc = TaskPc.copy srcFile dstFile) :
    RanAs s (runTaskAlone env i (k + 4) s) i t
      (match ioCopy s.fs env.copy dstFile srcFile with
        | (fs3, some err) => (fs3, [t.failure err])
        | (fs3, none) =>
          match fileSync env.sync with
          | some err => (fs3, [t.failure err])
          | none =>
            (fs3, [{ SrcPath := t.src.Path, DestPath := t.dst,
                     PostMessage := t.src.PostMessage, Error := none }])) := by
  have ht := hr.1
  have horacle : (taskOracle env t.pc).fault.map
      (fun err => ((taskOracle env t.pc).written, err)) = env.copy := by
    rw [hpc]
    simp only [taskOracle]
    cases env.copy with
    | none => rfl
    | some p => rfl
  cases h1 : ioCopy s.fs env.copy dstFile srcFile with
  | mk fs3 res =>
    cases res with
    | some err =>
      have hs : stepTask (taskOracle env t.pc) s i
          = some ({ s with fs := fs3 }.setPc i t (TaskPc.send (t.failure err))) := by
        simp only [stepTask, ht, hpc]
        rw [hpc] at horacle
        rw [horacle, h1]
      rw [runTaskAlone_step env i (k + 3) s _ t ht hs]
      obtain ⟨hr1, back⟩ := ready_setPc hr fs3 (TaskPc.send (t.failure err))
      exact back _ _ (runTaskAlone_send env i (k + 1) _ _ _ hr1 rfl)
    | none =>
      have hs : stepTask (taskOracle env t.pc) s i
          = some ({ s with fs := fs3 }.setPc i t TaskPc.sync) := by
        simp only [stepTask, ht, hpc]
        rw [hpc] at horacle
        rw [horacle, h1]
      rw [runTaskAlone_step env i (k + 3) s _ t ht hs]
      obtain ⟨hr1, back⟩ := ready_setPc hr fs3 TaskPc.sync
      exact back _ _ (runTaskAlone_sync env i k _ _ hr1 rfl)

theorem runTaskAlone_create (env : Outcomes) (i k : Nat) (s : State) (t : Task)
    (srcFile : GoString) (hr : Ready s i t) (hpc : t.pc = TaskPc.create srcFile) :
    RanAs s (runTaskAlone env i (k + 5) s) i t
      (match osCreate s.fs env.create t.dst with
        | .error err => (s.fs, [t.failure err])
        | .ok (fs2, dstFile) =>
          match ioCopy fs2 env.copy dstFile srcFile with
          | (fs3, some err) => (fs3, [t.failure err])
          | (fs3, none) =>
            match fileSync env.sync with
            | some err => (fs3, [t.failure err])
            | none =>
              (fs3, [{ SrcPath := t.src.Path, DestPath := t.dst,
                       PostMessage := t.src.PostMessage, Error := none }])) := by
  have ht := hr.1
  cases h1 : osCreate s.fs env.create t.dst with
  | error err =>
    have hs : stepTask (taskOracle env t.pc) s i
        = some ({ s with fs := s.fs }.setPc i t (TaskPc.send (t.failure err))) := by
      simp [stepTask, ht, hpc, taskOracle, h1, State.setPc]
    rw [runTaskAlone_step env i (k + 4) s _ t ht hs]
    obtain ⟨hr1, back⟩ := ready_setPc hr s.fs (TaskPc.send (t.failure err))
    exact back _ _ (runTaskAlone_send env i (k + 2) _ _ _ hr1 rfl)
  | ok created =>
    obtain ⟨fs2, dstFile⟩ := created
    have hs : stepTask (taskOracle env t.pc) s i
        = some ({ s with fs := fs2 }.setPc i t (TaskPc.copy srcFile dstFile)) := by
      simp [stepTask, ht, hpc, taskOracle, h1, State.setPc]
    rw [runTaskAlone_step env i (k + 4) s _ t ht hs]
    obtain ⟨hr1, back⟩ := ready_setPc hr fs2 (TaskPc.copy srcFile dstFile)
    exact back _ _ (runTaskAlone_copy env i k _ _ srcFile dstFile hr1 rfl)

theorem runTaskAlone_mkdirAll (env : Outcomes) (i k : Nat) (s : State) (t : Task)
    (srcFile : GoString) (hr : Ready s i t) (hpc : t.pc = TaskPc.mkdirAll srcFile) :
    RanAs s (runTaskAlone env i (k + 6) s) i t
      (match osMkdirAll s.fs env.mkdirAll (Dir t.dst) with
        | .error err =>
          (s.fs, [t.failure
            ⟨str "failed to create directory path " ++ Dir t.dst ++ str ": " ++ err.msg⟩])
        | .ok fs1 =>
          match osCreate fs1 env.create t.dst with
          | .error err => (fs1, [t.failure err])
          | .ok (fs2, dstFile) =>
            match ioCopy fs2 env.copy dstFile srcFile with
            | (fs3, some err) => (fs3, [t.failure err])
            | (fs3, none) =>
              match fileSync env.sync with
              | some err => (fs3, [t.failure err])
              | none =>
                (fs3, [{ SrcPath := t.src.Path, DestPath := t.dst,
                         PostMessage := t.src.PostMessage, Error := none }])) := by
  have ht := hr.1
  cases h1 : osMkdirAll s.fs env.mkdirAll (Dir t.dst) with
  | error err =>
    have hs : stepTask (taskOracle env t.pc) s i
        = some ({ s with fs := s.fs }.setPc i t (TaskPc.send (t.failure
            ⟨str "failed to create directory path " ++ Dir t.dst ++ str ": " ++ err.msg⟩))) := by
      simp [stepTask, ht, hpc, taskOracle, h1, State.setPc]
    rw [runTaskAlone_step env i (k + 5) s _ t ht hs]
    obtain ⟨hr1, back⟩ := ready_setPc hr s.fs (TaskPc.send (t.failure
      ⟨str "failed to create directory path " ++ Dir t.dst ++ str ": " ++ err.msg⟩))
    exact back _ _ (runTaskAlone_send env i (k + 3) _ _ _ hr1 rfl)
  | ok fs1 =>
    have hs : stepTask (taskOracle env t.pc) s i
        = some ({ s with fs := fs1 }.setPc i t (TaskPc.create srcFile)) := by
      simp [stepTask, ht, hpc, taskOracle, h1, State.setPc]
    rw [runTaskAlone_step env i (k + 5) s _ t ht hs]
    obtain ⟨hr1, back⟩ := ready_setPc hr fs1 (TaskPc.create srcFile)
    exact back _ _ (runTaskAlone_create env i k _ _ srcFile hr1 rfl)

/-- From the first statement of `copyFile` the goroutine runs as `copyFile` says. -/
theorem runTaskAlone_copyFile (env : Outcomes) (i k : Nat) (s : State) (t : Task)
    (hr : Ready s i t) (hpc : t.pc = TaskPc.openSrc) :
    RanAs s (runTaskAlone env i (k + 7) s) i t
      (copyFile env s.fs BASE_SOURCE_DIR t.src t.dst) := by
  have ht := hr.1
  unfold copyFile
  cases h1 : osOpen s.fs env.openSrc (Join BASE_SOURCE_DIR t.src.Path) with
  | error err =>
    have hs : stepTask (taskOracle env t.pc) s i
        = some ({ s with fs := s.fs }.setPc i t (TaskPc.send (t.failure err))) := by
      simp [stepTask, ht, hpc, taskOracle, h1, State.setPc]
    rw [runTaskAlone_step env i (k + 6) s _ t ht hs]
    obtain ⟨hr1, back⟩ := ready_setPc hr s.fs (TaskPc.send (t.failure err))
    exact back _ _ (runTaskAlone_send env i (k + 4) _ _ _ hr1 rfl)
  | ok srcFile =>
    have hs : stepTask (taskOracle env t.pc) s i
        = some ({ s with fs := s.fs }.setPc i t (TaskPc.mkdirAll srcFile)) := by
      simp [stepTask, ht, hpc, taskOracle, h1, State.setPc]
    rw [runTaskAlone_step env i (k + 6) s _ t ht hs]
    obtain ⟨hr1, back⟩ := ready_setPc hr s.fs (TaskPc.mkdirAll srcFile)
    exact back _ _ (runTaskAlone_mkdirAll env i k _ _ srcFile hr1 rfl)

/-- A per-file goroutine that runs alone from its first statement, with the mutex free, an open
channel with room and a positive `WaitGroup` counter, has ended after eleven steps, and the
file system it leaves and the event it has sent are those of `copyTask`. -/
theorem runTaskAlone_eq_copyTask (env : Outcomes) (s : State) (i : Nat) (t : Task)
    (hr : Ready s i t) (hpc : t.pc = TaskPc.stat) (hmu : s.confirmMu = false) :
    RanAs s (runTaskAlone env i 11 s) i t (copyTask env s.fs t.src t.dst) := by
  have ht := hr.1
  have hi := idx_lt_length ht
  unfold copyTask
  cases h1 : osStat s.fs env.stat t.dst with
  | error err =>
    have hs : stepTask (taskOracle env t.pc) s i
        = some ({ s with fs := s.fs }.setPc i t TaskPc.openSrc) := by
      simp [stepTask, ht, hpc, taskOracle, h1, State.setPc]
    rw [runTaskAlone_step env i 10 s _ t ht hs]
    obtain ⟨hr1, back⟩ := ready_setPc hr s.fs TaskPc.openSrc
    exact back _ _ (runTaskAlone_copyFile env i 3 _ _ hr1 rfl)
  | ok node =>
    have hs1 : stepTask (taskOracle env t.pc) s i
        = some ({ s with confirmMu := false }.setPc i t TaskPc.lock) := by
      simp [stepTask, ht, hpc, taskOracle, h1, State.setPc, ← hmu]
    obtain ⟨s1, e1, hr1, hmu1, hfs1, back1⟩ := step_pack env hr false TaskPc.lock 10 hs1
    rw [e1]
    apply back1
    obtain ⟨s2, e2, hr2, hmu2, hfs2, back2⟩ := step_pack env hr1 true TaskPc.prompt 9
      (stepTask_lock _ _ i _ hr1.1 rfl hmu1)
    rw [e2]
    apply back2
    obtain ⟨s3, e3, hr3, hmu3, hfs3, back3⟩ := step_pack env hr2 true
      (TaskPc.unlock env.overwrite) 8 (stepTask_prompt _ _ i _ hr2.1 rfl hmu2)
    rw [e3]
    apply back3
    obtain ⟨s4, e4, hr4, hmu4, hfs4, back4⟩ := step_pack env hr3 false
      (if !env.overwrite then TaskPc.send (Task.failure t overwriteCancelled)
        else TaskPc.openSrc) 7
      (stepTask_unlock _ _ i _ env.overwrite hr3.1 rfl hmu3)
    rw [e4]
    apply back4
    have hfs : s.fs = s4.fs := by rw [hfs4, hfs3, hfs2, hfs1]
    rw [hfs]
    cases hov : env.overwrite with
    | false =>
      simp only [hov] at hr4 ⊢
      exact runTaskAlone_send env i 5 _ _ _ hr4 rfl
    | true =>
      simp only [hov] at hr4 ⊢
      exact runTaskAlone_copyFile env i 0 _ _ hr4 rfl

/-! ## Theorems: the fuel of the library loops is enough -/

theorem length_dropWhile_le {α : Type} (p : α → Bool) (l : List α) :
    (l.dropWhile p).length ≤ l.length := by
  induction l with
  | nil => simp
  | cons x xs ih =>
    simp only [List.dropWhile_cons]
    split
    · simp only [List.length_cons]; omega
    · exact le_refl _

/-- Fuel beyond the length of the unread input does not change the result of the loop of
`filepath.Clean`: the loop always ends by running out of input. -/
theorem cleanLoop_fuel (rooted : Bool) (fuel more : Nat) (path outRev : GoString)
    (dotdot : Nat) (h : path.length ≤ fuel) :
    cleanLoop rooted (fuel + more) path outRev dotdot
      = cleanLoop rooted fuel path outRev dotdot := by
  induction fuel generalizing path outRev dotdot with
  | zero =>
    have : path = [] := List.length_eq_zero.mp (by omega)
    subst this
    cases more <;> simp [cleanLoop]
  | succ fuel ih =>
    rw [Nat.add_right_comm]
    cases path with
    | nil => simp [cleanLoop]
    | cons c rest =>
      simp only [List.length_cons] at h
      have hrest : rest.length ≤ fuel := by omega
      have htail : rest.tail.length ≤ fuel := by
        have := List.length_tail rest
        omega
      simp only [cleanLoop]
      split
      · exact ih _ _ _ hrest
      · rename_i hsep
        split
        · exact ih _ _ _ hrest
        · split
          · split
            · split
              · exact ih _ _ _ htail
              · exact ih _ _ _ htail
            · split
              · exact ih _ _ _ htail
              · exact ih _ _ _ htail
          · apply ih
            have hc : (!IsPathSeparator c) = true := by simpa using hsep
            rw [List.dropWhile_cons, if_pos hc]
            have := length_dropWhile_le (fun b => !IsPathSeparator b) rest
            omega

/-- Fuel beyond the length of the string does not change `validLoop`. -/
theorem validLoop_fuel (fuel more : Nat) (s : GoString) (h : s.length ≤ fuel) :
    validLoop (fuel + more) s = validLoop fuel s := by
  induction fuel generalizing s with
  | zero =>
    have : s = [] := List.length_eq_zero.mp (by omega)
    subst this
    cases more <;> simp [validLoop]
  | succ fuel ih =>
    rw [Nat.add_right_comm]
    simp only [validLoop]
    repeat' split
    all_goals first
      | rfl
      | (apply ih; simp only [List.length_cons] at h; omega)

/-- Fuel beyond the length of the string does not change the runes of a string. -/
theorem runes_fuel (fuel more : Nat) (s : GoString) (h : s.length ≤ fuel) :
    runes (fuel + more) s = runes fuel s := by
  induction fuel generalizing s with
  | zero =>
    have : s = [] := List.length_eq_zero.mp (by omega)
    subst this
    cases more <;> simp [runes]
  | succ fuel ih =>
    rw [Nat.add_right_comm]
    cases s with
    | nil => simp [runes]
    | cons c rest =>
      simp only [runes, List.cons.injEq, true_and]
      apply ih
      have := decode_size_pos c rest
      simp only [List.length_drop, List.length_cons] at h ⊢
      omega

theorem mkdirAllParent_length (path : GoString) (h : path ≠ []) :
    (mkdirAllParent path).length < path.length := by
  unfold mkdirAllParent
  rw [List.length_reverse]
  obtain ⟨c, rest, hrev⟩ := List.exists_cons_of_ne_nil (l := path.reverse) (by simpa using h)
  have hlen : path.length = rest.length + 1 := by
    rw [← List.length_reverse, hrev, List.length_cons]
  rw [hrev, hlen]
  have h1 := length_dropWhile_le IsPathSeparator rest
  have h2 := length_dropWhile_le (fun b => !IsPathSeparator b) rest
  have h3 := length_dropWhile_le (fun b => !IsPathSeparator b)
    (List.dropWhile IsPathSeparator rest)
  cases hc : IsPathSeparator c with
  | true =>
    rw [List.dropWhile_cons, if_pos hc]
    omega
  | false =>
    rw [List.dropWhile_cons, if_neg (by simp [hc]), List.dropWhile_cons, if_pos (by simp [hc])]
    omega

/-- Fuel beyond `len(path) + 1` does not change the recursion of `os.MkdirAll`. -/
theorem mkdirAllRec_fuel (fuel more : Nat) (fs : FS) (path : GoString)
    (h : path.length + 1 ≤ fuel) :
    mkdirAllRec (fuel + more) fs path = mkdirAllRec fuel fs path := by
  induction fuel generalizing fs path with
  | zero => omega
  | succ fuel ih =>
    rw [Nat.add_right_comm]
    simp only [mkdirAllRec]
    split
    · rfl
    · rfl
    · by_cases hp : (mkdirAllParent path).length > 0
      · simp only [hp, if_true]
        have hne : path ≠ [] := by
          intro hc
          subst hc
          simp [mkdirAllParent] at hp
        have := mkdirAllParent_length path hne
        rw [ih fs (mkdirAllParent path) (by omega)]
      · simp only [hp, if_false]


theorem scanStart_le (s : GoString) (lim : Int) (fuel : Nat) (start : Int) :
    scanStart s lim fuel start ≤ start := by
  induction fuel generalizing start with
  | zero => simp [scanStart]
  | succ fuel ih =>
    simp only [scanStart]
    split
    · split
      · exact le_refl _
      · have := ih (start - 1)
        omega
    · exact le_refl _

theorem decodeLast_size_pos (s : GoString) (h : s ≠ []) :
    1 ≤ (DecodeLastRuneInString s).2 := by
  have hlen : 0 < s.length := List.length_pos.mpr h
  unfold DecodeLastRuneInString
  dsimp only
  rw [if_neg (by omega)]
  split
  · exact le_refl _
  · generalize hsc : scanStart s (if (s.length : Int) - (UTFMax : Int) < 0 then 0
        else (s.length : Int) - (UTFMax : Int)) UTFMax ((s.length : Int) - 2) = sc
    have hle : sc ≤ (s.length : Int) - 2 := by
      rw [← hsc]; exact scanStart_le _ _ _ _
    cases hd : DecodeRuneInString
        (s.drop (if sc < 0 then (0 : Int) else sc).toNat) with
    | mk r size =>
      dsimp only
      split
      all_goals
        split
        · exact Nat.le_refl 1
        · rename_i heq
          simp only [ne_eq, not_not] at heq
          show 1 ≤ size
          omega

/-- Fuel beyond the length of the string does not change `indexFunc`. -/
theorem indexFunc_fuel (f : Nat → Bool) (truth : Bool) (fuel more : Nat) (s : GoString)
    (off : Nat) (h : s.length ≤ fuel) :
    indexFunc f truth (fuel + more) s off = indexFunc f truth fuel s off := by
  induction fuel generalizing s off with
  | zero =>
    have : s = [] := List.length_eq_zero.mp (by omega)
    subst this
    cases more <;> simp [indexFunc]
  | succ fuel ih =>
    rw [Nat.add_right_comm]
    cases s with
    | nil => simp [indexFunc]
    | cons c rest =>
      simp only [indexFunc]
      split
      · rfl
      · apply ih
        have := decode_size_pos c rest
        simp only [List.length_drop, List.length_cons] at h ⊢
        omega

/-- Fuel beyond the start index does not change `lastIndexFunc`. -/
theorem lastIndexFunc_fuel (f : Nat → Bool) (truth : Bool) (s : GoString) (fuel more i : Nat)
    (h : i ≤ fuel) (hi : i ≤ s.length) :
    lastIndexFunc f truth s (fuel + more) i = lastIndexFunc f truth s fuel i := by
  induction fuel generalizing i with
  | zero =>
    have : i = 0 := by omega
    subst this
    cases more <;> simp [lastIndexFunc]
  | succ fuel ih =>
    rw [Nat.add_right_comm]
    simp only [lastIndexFunc]
    split
    · rename_i hpos
      split
      · rfl
      · apply ih
        · have hne : s.take i ≠ [] := by
            intro hc
            have := congrArg List.length hc
            simp only [List.length_take, List.length_nil] at this
            omega
          have := decodeLast_size_pos (s.take i) hne
          omega
        · omega
    · rfl

/-! ## Theorems: what a successful copy leaves behind -/

theorem lookup_store_self (fs : FS) (path : GoString) (node : Node) (h : path ≠ []) :
    (fs.store path node).lookup path = some node := by
  simp [FS.lookup, FS.store, h]

theorem osMkdir_ok {fs fs1 : FS} {path : GoString} (h : osMkdir fs path = .ok fs1) :
    fs.lookup path = none ∧ path ≠ [] ∧ fs1 = fs.store path Node.dir := by
  unfold osMkdir at h
  split at h
  · simp at h
  · rename_i hl
    split at h
    · rename_i hc
      simp only [Except.ok.injEq] at h
      exact ⟨hl, hc.1, h.symm⟩
    · simp at h

/-- `os.MkdirAll` only adds directories: whatever a path named before, it still names. -/
theorem mkdirAllRec_preserves (fuel : Nat) (fs fs1 : FS) (path : GoString)
    (h : mkdirAllRec fuel fs path = .ok fs1) (p : GoString) (node : Node)
    (hp : fs p = some node) : fs1 p = some node := by
  induction fuel generalizing fs fs1 path with
  | zero =>
    simp only [mkdirAllRec, Except.ok.injEq] at h
    exact h ▸ hp
  | succ fuel ih =>
    simp only [mkdirAllRec] at h
    split at h
    · simp only [Except.ok.injEq] at h
      exact h ▸ hp
    · simp at h
    · split at h
      · simp at h
      · rename_i fs' hmade
        have hp' : fs' p = some node := by
          split at hmade
          · exact ih fs fs' _ hmade hp
          · simp only [Except.ok.injEq] at hmade
            exact hmade ▸ hp
        split at h
        · rename_i fs2 hmk
          simp only [Except.ok.injEq] at h
          subst h
          obtain ⟨hnone, hne, rfl⟩ := osMkdir_ok hmk
          simp only [FS.store]
          split
          · rename_i heq
            simp only [FS.lookup, hne, if_false] at hnone
            rw [heq, hnone] at hp'
            simp at hp'
          · exact hp'
        · split at h
          · simp only [Except.ok.injEq] at h
            exact h ▸ hp'
          · simp at h

/-- After a successful `os.MkdirAll` the path names a directory. -/
theorem mkdirAllRec_isDir (fuel : Nat) (fs fs1 : FS) (path : GoString)
    (h : mkdirAllRec (fuel + 1) fs path = .ok fs1) : fs1.isDir path = true := by
  simp only [mkdirAllRec] at h
  split at h
  · rename_i hl
    simp only [Except.ok.injEq] at h
    subst h
    simp [FS.isDir, hl]
  · simp at h
  · split at h
    · simp at h
    · rename_i fs' hmade
      split at h
      · rename_i fs2 hmk
        simp only [Except.ok.injEq] at h
        subst h
        obtain ⟨_, hne, rfl⟩ := osMkdir_ok hmk
        simp [FS.isDir, lookup_store_self _ _ _ hne]
      · split at h
        · rename_i hd
          simp only [Except.ok.injEq] at h
          exact h ▸ hd
        · simp at h

theorem osOpen_ok {fs : FS} {fault : Option GoError} {path handle : GoString}
    (h : osOpen fs fault path = .ok handle) :
    ∃ node, fs.lookup path = some node ∧ path ≠ [] ∧ handle = Clean path := by
  unfold osOpen at h
  split at h
  · simp at h
  · split at h
    · rename_i node hl
      simp only [Except.ok.injEq] at h
      refine ⟨node, hl, ?_, h.symm⟩
      intro hc
      simp [FS.lookup, hc] at hl
    · simp at h

theorem osMkdirAll_ok {fs fs1 : FS} {fault : Option GoError} {path : GoString}
    (h : osMkdirAll fs fault path = .ok fs1) :
    mkdirAllRec (path.length + 1) fs path = .ok fs1 := by
  unfold osMkdirAll at h
  split at h
  · simp at h
  · exact h

theorem osCreate_ok {fs fs2 : FS} {fault : Option GoError} {path handle : GoString}
    (h : osCreate fs fault path = .ok (fs2, handle)) :
    fs.lookup path ≠ some Node.dir ∧ path ≠ []
      ∧ fs2 = fs.store path (Node.file []) ∧ handle = Clean path := by
  unfold osCreate at h
  split at h
  · simp at h
  · split at h
    · simp at h
    · rename_i hnd
      split at h
      · rename_i hc
        simp only [Except.ok.injEq, Prod.mk.injEq] at h
        refine ⟨?_, hc.1, h.1.symm, h.2.symm⟩
        intro hd
        exact hnd hd
      · simp at h

theorem ioCopy_ok {fs fs3 : FS} {fault : Option (Nat × GoError)} {dstFile srcFile : GoString}
    (h : ioCopy fs fault dstFile srcFile = (fs3, none)) :
    ∃ content, fs srcFile = some (Node.file content)
      ∧ fs3 = fun p => if p = dstFile then some (Node.file content) else fs p := by
  unfold ioCopy at h
  split at h
  · rename_i content hs
    split at h
    · simp at h
    · simp only [Prod.mk.injEq, and_true] at h
      exact ⟨content, hs, h.symm⟩
  · simp at h

/-- Apart from a copy of a file onto itself, `copyFile` is correct in the modelled file system:
when it reports success and the destination is not the source file, the destination holds the
content the source had when the copy began, the source is unchanged, and the directory of the
destination exists. -/
theorem copyFile_success_distinct (env : Outcomes) (fs : FS) (base : GoString)
    (src : configMetadata) (dst : GoString) (ev : CopyEvent)
    (hev : ev ∈ (copyFile env fs base src dst).2) (hok : ev.Error = none)
    (hne : Clean dst ≠ Clean (Join base src.Path)) :
    ∃ content, fs.lookup (Join base src.Path) = some (Node.file content)
      ∧ (copyFile env fs base src dst).1.lookup dst = some (Node.file content)
      ∧ (copyFile env fs base src dst).1.lookup (Join base src.Path)
          = some (Node.file content)
      ∧ (copyFile env fs base src dst).1.isDir (Dir dst) = true := by
  unfold copyFile at hev ⊢
  cases h1 : osOpen fs env.openSrc (Join base src.Path) with
  | error err =>
    simp only [h1, List.mem_singleton] at hev
    subst hev
    simp at hok
  | ok srcFile =>
    simp only [h1] at hev ⊢
    cases h2 : osMkdirAll fs env.mkdirAll (Dir dst) with
    | error err =>
      simp only [h2, List.mem_singleton] at hev
      subst hev
      simp at hok
    | ok fs1 =>
      simp only [h2] at hev ⊢
      cases h3 : osCreate fs1 env.create dst with
      | error err =>
        simp only [h3, List.mem_singleton] at hev
        subst hev
        simp at hok
      | ok created =>
        obtain ⟨fs2, dstFile⟩ := created
        simp only [h3] at hev ⊢
        cases h4 : ioCopy fs2 env.copy dstFile srcFile with
        | mk fs3 res =>
          cases res with
          | some err =>
            simp only [h4, List.mem_singleton] at hev
            subst hev
            simp at hok
          | none =>
            simp only [h4] at hev ⊢
            cases h5 : fileSync env.sync with
            | some err =>
              simp only [h5, List.mem_singleton] at hev
              subst hev
              simp at hok
            | none =>
              simp only [h5]
              obtain ⟨node0, hl0, hsrcne, rfl⟩ := osOpen_ok h1
              have hrec := osMkdirAll_ok h2
              obtain ⟨hnd, hdstne, rfl, rfl⟩ := osCreate_ok h3
              obtain ⟨content, hc2, rfl⟩ := ioCopy_ok h4
              have hsrc0 : fs (Clean (Join base src.Path)) = some node0 := by
                simpa [FS.lookup, hsrcne] using hl0
              have hsrc1 : fs1 (Clean (Join base src.Path)) = some node0 :=
                mkdirAllRec_preserves _ fs fs1 _ hrec _ _ hsrc0
              have hsrc2 : (fs1.store dst (Node.file [])) (Clean (Join base src.Path))
                  = some node0 := by
                simp only [FS.store]
                rw [if_neg (fun e => hne e.symm)]
                exact hsrc1
              rw [hsrc2] at hc2
              simp only [Option.some.injEq] at hc2
              subst hc2
              have hdir1 : fs1.isDir (Dir dst) = true := mkdirAllRec_isDir _ fs fs1 _ hrec
              have hdirne : Dir dst ≠ [] := Clean_ne_nil _
              have hd1 : fs1 (Clean (Dir dst)) = some Node.dir := by
                simp only [FS.isDir, FS.lookup, hdirne, if_false] at hdir1
                split at hdir1
                · assumption
                · simp at hdir1
              have hdd : Clean (Dir dst) ≠ Clean dst := by
                intro e
                apply hnd
                simp only [FS.lookup, hdstne, if_false]
                rw [← e]
                exact hd1
              refine ⟨content, ?_, ?_, ?_, ?_⟩
              · simpa [FS.lookup, hsrcne] using hsrc0
              · simp [FS.lookup, hdstne]
              · simp only [FS.lookup, hsrcne, if_false]
                rw [if_neg (fun e => hne e.symm)]
                exact hsrc2
              · simp only [FS.isDir, FS.lookup, hdirne, if_false]
                rw [if_neg hdd]
                simp only [FS.store]
                rw [if_neg hdd, hd1]

/-- The per-file task as a whole: when it reports success and the destination is not the
source file, the destination holds the content the source had when the task began, and the
directory of the destination exists. -/
theorem copyTask_success_distinct (env : Outcomes) (fs : FS) (src : configMetadata)
    (dst : GoString) (ev : CopyEvent) (hev : ev ∈ (copyTask env fs src dst).2)
    (hok : ev.Error = none) (hne : Clean dst ≠ Clean (Join BASE_SOURCE_DIR src.Path)) :
    ∃ content, fs.lookup (Join BASE_SOURCE_DIR src.Path) = some (Node.file content)
      ∧ (copyTask env fs src dst).1.lookup dst = some (Node.file content)
      ∧ (copyTask env fs src dst).1.isDir (Dir dst) = true := by
  unfold copyTask at hev ⊢
  split at hev
  · split at hev
    · simp only [List.mem_singleton] at hev
      subst hev
      simp at hok
    · rename_i hov
      simp only [hov, if_false]
      obtain ⟨c, h1, h2, _, h4⟩ := copyFile_success_distinct env fs _ src dst ev hev hok hne
      exact ⟨c, h1, h2, h4⟩
  · obtain ⟨c, h1, h2, _, h4⟩ := copyFile_success_distinct env fs _ src dst ev hev hok hne
    exact ⟨c, h1, h2, h4⟩

/-! ## Theorems: claims about one per-file task -/

/-- C5 fails when the destination root is the base source directory: with project path
`configs` the destination of `a.conf` is its own source `configs/a.conf`; the user accepts the
overwrite, `os.Create` truncates the file before it is read, and the task reports success
although the destination is now empty while the source held `x` when the copy began. The whole
call `CopyFilesConcurrently` then returns a nil error with the file emptied. -/
theorem copyTask_onto_own_source :
    Join BASE_SOURCE_DIR (str "a.conf") = Join (str "configs") (str "a.conf")
      ∧ checkoutFS.lookup (Join BASE_SOURCE_DIR (str "a.conf")) = some (Node.file (str "x"))
      ∧ (copyTask (Outcomes.clean true) checkoutFS ⟨str "a.conf", str "hi"⟩
          (Join (str "configs") (str "a.conf"))).2
          = [{ SrcPath := str "a.conf", DestPath := str "configs/a.conf",
               PostMessage := str "hi", Error := none }]
      ∧ (copyTask (Outcomes.clean true) checkoutFS ⟨str "a.conf", str "hi"⟩
          (Join (str "configs") (str "a.conf"))).1.lookup (Join (str "configs") (str "a.conf"))
          = some (Node.file [])
      ∧ (CopyFilesConcurrently [⟨str "a.conf", str "hi"⟩] (str "configs") checkoutFS
          (sequentialSchedule 11 true)).map
            (fun s => (s.main, s.fs.lookup (str "configs/a.conf"), s.sent.map Prod.snd))
          = some (MainPc.returned none, some (Node.file []),
              [{ SrcPath := str "a.conf", DestPath := str "configs/a.conf",
                 PostMessage := str "hi", Error := none }]) := by
  decide

/-! ## filepath.go against its specification

`strings.Trim` and `utf8.ValidString` are compared with definitions written from the words of
the specification: `trimQuotes`, `WellFormedUTF8`. -/

theorem trimLeftByte_eq (s : GoString) (c : Nat) :
    trimLeftByte s c = s.dropWhile (fun b => b == c) := by
  induction s with
  | nil => rfl
  | cons x xs ih =>
    simp only [trimLeftByte, List.dropWhile_cons]
    by_cases h : x = c
    · simp [h, ih]
    · simp [h]

theorem trimRightByte_eq (s : GoString) (c : Nat) :
    trimRightByte s c = s.rdropWhile (fun b => b == c) := by
  simp [trimRightByte, trimLeftByte_eq, List.rdropWhile]

theorem rdropWhile_cons (p : Nat → Bool) (x : Nat) (xs : List Nat) :
    (x :: xs).rdropWhile p
      = if xs.rdropWhile p = [] then (if p x then [] else [x]) else x :: xs.rdropWhile p := by
  simp only [List.rdropWhile, List.reverse_cons, List.dropWhile_append]
  by_cases h : List.dropWhile p xs.reverse = []
  · simp only [h, List.isEmpty_nil, if_true, List.reverse_nil]
    by_cases hx : p x = true
    · simp [hx]
    · simp [hx]
  · have h2 : (List.dropWhile p xs.reverse).isEmpty = false := by
      cases hd : List.dropWhile p xs.reverse with
      | nil => exact absurd hd h
      | cons a b => rfl
    simp [h, h2]

/-- Dropping at the front and dropping at the back commute. -/
theorem dropWhile_rdropWhile (p : Nat → Bool) (l : List Nat) :
    (l.rdropWhile p).dropWhile p = (l.dropWhile p).rdropWhile p := by
  induction l with
  | nil => rfl
  | cons x xs ih =>
    by_cases hx : p x = true
    · have h1 : (x :: xs).dropWhile p = xs.dropWhile p := by
        rw [List.dropWhile_cons, if_pos hx]
      rw [h1, rdropWhile_cons]
      by_cases h : xs.rdropWhile p = []
      · have hall := List.rdropWhile_eq_nil_iff.mp h
        have h2 : xs.dropWhile p = [] := List.dropWhile_eq_nil_iff.mpr hall
        rw [if_pos h, if_pos hx, h2]
        rfl
      · rw [if_neg h, List.dropWhile_cons, if_pos hx]
        exact ih
    · have hx' : p x = false := by simpa using hx
      have h1 : (x :: xs).dropWhile p = x :: xs := by
        rw [List.dropWhile_cons, if_neg hx]
      rw [h1]
      have h2 : ∃ r, (x :: xs).rdropWhile p = x :: r := by
        rw [rdropWhile_cons]
        by_cases h : xs.rdropWhile p = []
        · exact ⟨[], by simp [h, hx']⟩
        · exact ⟨xs.rdropWhile p, by simp [h]⟩
      obtain ⟨r, hr⟩ := h2
      rw [hr, List.dropWhile_cons, if_neg hx]

/-- `strings.Trim` with the single quote is the specification: the quotes at both ends are
dropped. -/
theorem Trim_eq_trimQuotes (s : GoString) : Trim s 39 = trimQuotes s := by
  unfold Trim trimQuotes
  split
  · rename_i h
    subst h
    rfl
  · rw [trimLeftByte_eq, trimRightByte_eq, dropWhile_rdropWhile]

theorem takeWhile_eq_replicate (c : Nat) (l : List Nat) :
    l.takeWhile (fun b => b == c) = List.replicate (l.takeWhile (fun b => b == c)).length c := by
  rw [List.eq_replicate_iff]
  refine ⟨rfl, ?_⟩
  intro b hb
  have := List.mem_takeWhile_imp hb
  simpa using this

/-- What `trimQuotes` leaves: the input is the result between two runs of single quotes, and the
result neither starts nor ends with a single quote. -/
theorem trimQuotes_spec (s : GoString) :
    (∃ a b, s = List.replicate a 39 ++ trimQuotes s ++ List.replicate b 39)
      ∧ (trimQuotes s).head? ≠ some 39 ∧ (trimQuotes s).getLast? ≠ some 39 := by
  unfold trimQuotes
  set d := s.dropWhile (fun b => b == 39) with hd
  refine ⟨?_, ?_, ?_⟩
  · refine ⟨(s.takeWhile (fun b => b == 39)).length,
      (d.reverse.takeWhile (fun b => b == 39)).length, ?_⟩
    have h1 := List.takeWhile_append_dropWhile (fun b => b == 39) s
    have h2 := List.takeWhile_append_dropWhile (fun b => b == 39) d.reverse
    have h3 : d = (d.reverse.dropWhile (fun b => b == 39)).reverse
        ++ (d.reverse.takeWhile (fun b => b == 39)).reverse := by
      rw [← List.reverse_append, h2, List.reverse_reverse]
    rw [← takeWhile_eq_replicate, ← List.reverse_replicate, ← takeWhile_eq_replicate,
      List.append_assoc]
    show s = _ ++ ((d.reverse.dropWhile (fun b => b == 39)).reverse ++ _)
    rw [← h3, h1]
  · intro h
    have hpre := List.rdropWhile_prefix (fun b => b == 39) d
    cases ht : d.rdropWhile (fun b => b == 39) with
    | nil => rw [ht] at h; simp at h
    | cons x xs =>
      rw [ht] at h hpre
      simp only [List.head?_cons, Option.some.injEq] at h
      subst h
      obtain ⟨r, hr⟩ := hpre
      have := List.head?_dropWhile_not (fun b => b == 39) s
      rw [← hd, ← hr] at this
      simp at this
  · intro h
    cases ht : d.rdropWhile (fun b => b == 39) with
    | nil => rw [ht] at h; simp at h
    | cons x xs =>
      have hne : d.rdropWhile (fun b => b == 39) ≠ [] := by rw [ht]; simp
      have := List.rdropWhile_last_not (fun b => b == 39) d hne
      rw [List.getLast?_eq_getLast _ hne, Option.some.injEq] at h
      rw [h] at this
      simp at this

theorem leadInfo_spec {b size lo hi : Nat} (h : leadInfo b = some (size, lo, hi)) :
    (size = 2 ∧ 0xC2 ≤ b ∧ b ≤ 0xDF ∧ lo = 0x80 ∧ hi = 0xBF)
      ∨ (size = 3 ∧ ((b = 0xE0 ∧ lo = 0xA0 ∧ hi = 0xBF) ∨ (0xE1 ≤ b ∧ b ≤ 0xEC ∧ lo = 0x80 ∧ hi = 0xBF)
          ∨ (b = 0xED ∧ lo = 0x80 ∧ hi = 0x9F) ∨ (0xEE ≤ b ∧ b ≤ 0xEF ∧ lo = 0x80 ∧ hi = 0xBF)))
      ∨ (size = 4 ∧ ((b = 0xF0 ∧ lo = 0x90 ∧ hi = 0xBF) ∨ (0xF1 ≤ b ∧ b ≤ 0xF3 ∧ lo = 0x80 ∧ hi = 0xBF)
          ∨ (b = 0xF4 ∧ lo = 0x80 ∧ hi = 0x8F))) := by
  unfold leadInfo at h
  split_ifs at h <;> simp only [Option.some.injEq, Prod.mk.injEq, reduceCtorEq] at h <;>
    obtain ⟨rfl, rfl, rfl⟩ := h <;> simp_all


theorem wellFormed_nil : WellFormedUTF8 [] := ⟨[], rfl, by simp⟩

theorem wellFormed_append {q rest : GoString} (hq : wellFormedSeq q = true)
    (hr : WellFormedUTF8 rest) : WellFormedUTF8 (q ++ rest) := by
  obtain ⟨seqs, hs, hall⟩ := hr
  refine ⟨q :: seqs, by simp [hs], ?_⟩
  intro x hx
  rcases List.mem_cons.mp hx with rfl | hx
  · exact hq
  · exact hall x hx

/-- Soundness of the loop of `utf8.ValidString`: an accepted string is a concatenation of
well-formed byte sequences. -/
theorem validLoop_sound (fuel : Nat) : ∀ s : GoString, validLoop fuel s = true → WellFormedUTF8 s := by
  induction fuel with
  | zero =>
    intro s h
    cases s with
    | nil => exact wellFormed_nil
    | cons a b => simp [validLoop] at h
  | succ f ih =>
    intro s h
    cases s with
    | nil => exact wellFormed_nil
    | cons si rest =>
      simp only [validLoop] at h
      by_cases h0 : si < RuneSelf
      · rw [if_pos h0] at h
        have hq : wellFormedSeq [si] = true := by
          unfold RuneSelf at h0
          simp only [wellFormedSeq, decide_eq_true_eq]
          omega
        exact wellFormed_append hq (ih rest h)
      · rw [if_neg h0] at h
        cases hl : leadInfo si with
        | none => rw [hl] at h; simp at h
        | some tri =>
          obtain ⟨size, lo, hi⟩ := tri
          rw [hl] at h
          have hspec := leadInfo_spec hl
          simp only at h
          by_cases hlen : (si :: rest).length < size
          · rw [if_pos hlen] at h; simp at h
          · rw [if_neg hlen] at h
            cases rest with
            | nil => simp at h
            | cons c1 rest1 =>
              simp only at h
              by_cases hc1 : c1 < lo ∨ hi < c1
              · rw [if_pos hc1] at h; simp at h
              · rw [if_neg hc1] at h
                by_cases h2 : size = 2
                · rw [if_pos h2] at h
                  have hq : wellFormedSeq [si, c1] = true := by
                    simp only [wellFormedSeq, decide_eq_true_eq]
                    omega
                  exact wellFormed_append hq (ih rest1 h)
                · rw [if_neg h2] at h
                  cases rest1 with
                  | nil => simp at h
                  | cons c2 rest2 =>
                    simp only at h
                    by_cases hc2 : isCont c2 = true
                    · simp only [hc2, Bool.not_true, Bool.false_eq_true, if_false] at h
                      simp only [isCont, decide_eq_true_eq] at hc2
                      by_cases h3 : size = 3
                      · rw [if_pos h3] at h
                        have hq : wellFormedSeq [si, c1, c2] = true := by
                          simp only [wellFormedSeq, decide_eq_true_eq]
                          omega
                        exact wellFormed_append hq (ih rest2 h)
                      · rw [if_neg h3] at h
                        cases rest2 with
                        | nil => simp at h
                        | cons c3 rest3 =>
                          simp only at h
                          by_cases hc3 : isCont c3 = true
                          · simp only [hc3, Bool.not_true, Bool.false_eq_true, if_false] at h
                            simp only [isCont, decide_eq_true_eq] at hc3
                            have hq : wellFormedSeq [si, c1, c2, c3] = true := by
                              simp only [wellFormedSeq, decide_eq_true_eq]
                              omega
                            exact wellFormed_append hq (ih rest3 h)
                          · simp [hc3] at h
                    · simp [hc2] at h

theorem leadInfo_two {b : Nat} (h1 : 0xC2 ≤ b) (h2 : b ≤ 0xDF) :
    leadInfo b = some (2, 0x80, 0xBF) := by
  unfold leadInfo
  rw [if_pos ⟨h1, h2⟩]

theorem leadInfo_three {b b1 : Nat}
    (h : (b = 0xE0 ∧ 0xA0 ≤ b1 ∧ b1 ≤ 0xBF) ∨ (0xE1 ≤ b ∧ b ≤ 0xEC ∧ 0x80 ≤ b1 ∧ b1 ≤ 0xBF)
        ∨ (b = 0xED ∧ 0x80 ≤ b1 ∧ b1 ≤ 0x9F) ∨ (0xEE ≤ b ∧ b ≤ 0xEF ∧ 0x80 ≤ b1 ∧ b1 ≤ 0xBF)) :
    ∃ lo hi, leadInfo b = some (3, lo, hi) ∧ ¬ (b1 < lo ∨ hi < b1) := by
  unfold leadInfo
  rcases h with ⟨rfl, h⟩ | ⟨h1, h2, h⟩ | ⟨rfl, h⟩ | ⟨h1, h2, h⟩
  · exact ⟨0xA0, 0xBF, by simp, by omega⟩
  · refine ⟨0x80, 0xBF, ?_, by omega⟩
    rw [if_neg (by omega), if_neg (by omega), if_pos ⟨h1, h2⟩]
  · exact ⟨0x80, 0x9F, by simp, by omega⟩
  · refine ⟨0x80, 0xBF, ?_, by omega⟩
    rw [if_neg (by omega), if_neg (by omega), if_neg (by omega), if_neg (by omega),
      if_pos ⟨h1, h2⟩]

theorem leadInfo_four {b b1 : Nat}
    (h : (b = 0xF0 ∧ 0x90 ≤ b1 ∧ b1 ≤ 0xBF) ∨ (0xF1 ≤ b ∧ b ≤ 0xF3 ∧ 0x80 ≤ b1 ∧ b1 ≤ 0xBF)
        ∨ (b = 0xF4 ∧ 0x80 ≤ b1 ∧ b1 ≤ 0x8F)) :
    ∃ lo hi, leadInfo b = some (4, lo, hi) ∧ ¬ (b1 < lo ∨ hi < b1) := by
  unfold leadInfo
  rcases h with ⟨rfl, h⟩ | ⟨h1, h2, h⟩ | ⟨rfl, h⟩
  · exact ⟨0x90, 0xBF, by simp, by omega⟩
  · refine ⟨0x80, 0xBF, ?_, by omega⟩
    rw [if_neg (by omega), if_neg (by omega), if_neg (by omega), if_neg (by omega),
      if_neg (by omega), if_neg (by omega), if_pos ⟨h1, h2⟩]
  · exact ⟨0x80, 0x8F, by simp, by omega⟩

/-- One iteration of the loop of `utf8.ValidString` consumes one well-formed byte sequence. -/
theorem validLoop_step (f : Nat) (q rest : GoString) (hq : wellFormedSeq q = true) :
    validLoop (f + 1) (q ++ rest) = validLoop f rest := by
  match q, hq with
  | [b0], hq =>
    simp only [wellFormedSeq, decide_eq_true_eq] at hq
    have : b0 < RuneSelf := by unfold RuneSelf; omega
    simp [validLoop, this]
  | [b0, b1], hq =>
    simp only [wellFormedSeq, decide_eq_true_eq] at hq
    have h0 : ¬ b0 < RuneSelf := by unfold RuneSelf; omega
    have hl := leadInfo_two hq.1 hq.2.1
    have hc : ¬ (b1 < 0x80 ∨ 0xBF < b1) := by omega
    simp only [validLoop, List.cons_append, List.nil_append, if_neg h0, hl, List.length_cons,
      if_neg hc, if_true]
    rw [if_neg (by omega)]
  | [b0, b1, b2], hq =>
    simp only [wellFormedSeq, decide_eq_true_eq] at hq
    have h0 : ¬ b0 < RuneSelf := by unfold RuneSelf; omega
    obtain ⟨lo, hi, hl, hc⟩ := leadInfo_three hq.1
    have hc2 : isCont b2 = true := by simp only [isCont, decide_eq_true_eq]; omega
    simp only [validLoop, List.cons_append, List.nil_append, if_neg h0, hl, List.length_cons,
      if_neg hc, hc2]
    rw [if_neg (by omega)]
    simp
  | [b0, b1, b2, b3], hq =>
    simp only [wellFormedSeq, decide_eq_true_eq] at hq
    have h0 : ¬ b0 < RuneSelf := by unfold RuneSelf; omega
    obtain ⟨lo, hi, hl, hc⟩ := leadInfo_four hq.1
    have hc2 : isCont b2 = true := by simp only [isCont, decide_eq_true_eq]; omega
    have hc3 : isCont b3 = true := by simp only [isCont, decide_eq_true_eq]; omega
    simp only [validLoop, List.cons_append, List.nil_append, if_neg h0, hl, List.length_cons,
      if_neg hc, hc2, hc3]
    rw [if_neg (by omega)]
    simp
  | [], hq => simp [wellFormedSeq] at hq
  | _ :: _ :: _ :: _ :: _ :: _, hq => simp [wellFormedSeq] at hq

theorem wellFormedSeq_length {q : GoString} (hq : wellFormedSeq q = true) : 1 ≤ q.length := by
  cases q with
  | nil => simp [wellFormedSeq] at hq
  | cons a b => simp

/-- Completeness of the loop of `utf8.ValidString`. -/
theorem validLoop_complete (seqs : List GoString) (hall : ∀ q ∈ seqs, wellFormedSeq q = true) :
    ∀ fuel, seqs.flatten.length ≤ fuel → validLoop fuel seqs.flatten = true := by
  induction seqs with
  | nil =>
    intro fuel _
    cases fuel <;> simp [validLoop]
  | cons q qs ih =>
    intro fuel hf
    have hq := hall q (List.mem_cons_self _ _)
    have hlen := wellFormedSeq_length hq
    simp only [List.flatten_cons, List.length_append] at hf ⊢
    cases fuel with
    | zero => omega
    | succ f =>
      rw [validLoop_step f q _ hq]
      exact ih (fun x hx => hall x (List.mem_cons_of_mem _ hx)) f (by omega)

/-- `utf8.ValidString` accepts exactly the concatenations of well-formed UTF-8 byte
sequences. -/
theorem ValidString_iff (s : GoString) : ValidString s = true ↔ WellFormedUTF8 s := by
  constructor
  · exact validLoop_sound s.length s
  · rintro ⟨seqs, rfl, hall⟩
    exact validLoop_complete seqs hall _ (Nat.le_refl _)

/-- C10: on a non-Windows system `convertToFilePath` fails exactly when the input is empty or
consists of white-space runes only, or is not valid UTF-8 (not a concatenation of well-formed
UTF-8 byte sequences), or contains a NUL byte, or its normalized form — the input with leading
and trailing single quotes trimmed, then cleaned — is longer than 4096 bytes; in every other
case it returns exactly that normalized form; the normalized form is never the empty string.
The trimmed input is given independently of `strings.Trim`: the input is the trimmed input
between two runs of single quotes, and the trimmed input neither starts nor ends with a single
quote. For instance the quoted input `'./a//b/../c/'` is normalized to `a/c`. -/
theorem convertToFilePath_unix (windowsChecks : GoString → Option GoError) (input : GoString) :
    ((∃ err, convertToFilePath false windowsChecks Clean input = .error err)
        ↔ (whitespaceOnly input = true ∨ ¬ WellFormedUTF8 input ∨ 0 ∈ input
            ∨ 4096 < (Clean (trimQuotes input)).length))
      ∧ ((∃ err, convertToFilePath false windowsChecks Clean input = .error err)
          ∨ convertToFilePath false windowsChecks Clean input = .ok (Clean (trimQuotes input)))
      ∧ Clean (trimQuotes input) ≠ []
      ∧ (∃ a b, input = List.replicate a 39 ++ trimQuotes input ++ List.replicate b 39)
      ∧ (trimQuotes input).head? ≠ some 39
      ∧ (trimQuotes input).getLast? ≠ some 39
      ∧ trimQuotes (str "'./a//b/../c/'") = str "./a//b/../c/"
      ∧ Clean (trimQuotes (str "'./a//b/../c/'")) = str "a/c" := by
  have hw := TrimSpace_eq_nil_iff input
  have ht := Trim_eq_trimQuotes input
  have hv := ValidString_iff input
  have hs := trimQuotes_spec input
  refine ⟨?_, ?_, Clean_ne_nil _, hs.1, hs.2.1, hs.2.2, by decide, by decide⟩
  · unfold convertToFilePath validateNormalizedFilePath
    rw [ht]
    by_cases h1 : TrimSpace input = []
    · simp [h1, hw.mp h1]
    · have h1' : ¬ (whitespaceOnly input = true) := fun h => h1 (hw.mpr h)
      by_cases h2 : ValidString input = true
      · have h2' : WellFormedUTF8 input := hv.mp h2
        by_cases h3 : 0 ∈ input
        · simp [h1, h2, h3, ContainsRune]
        · by_cases h4 : 4096 < (Clean (trimQuotes input)).length
          · simp [h1, h2, h3, h4, ContainsRune]
          · simp [h1, h1', h2, h2', h3, h4, ContainsRune]
      · have h2' : ¬ WellFormedUTF8 input := fun h => h2 (hv.mpr h)
        simp [h1, h2, h2']
  · unfold convertToFilePath validateNormalizedFilePath
    rw [ht]
    by_cases h1 : TrimSpace input = []
    · simp [h1]
    · by_cases h2 : ValidString input = true
      · by_cases h3 : 0 ∈ input
        · simp [h1, h2, h3, ContainsRune]
        · by_cases h4 : 4096 < (Clean (trimQuotes input)).length
          · simp [h1, h2, h3, h4, ContainsRune]
          · simp [h1, h2, h3, h4, ContainsRune]
      · simp [h1, h2]

/-! ## A declined overwrite in every interleaving -/

theorem exec_append (destDir : GoString) (s : State) (a b : List (Thread × Oracle)) :
    exec destDir s (a ++ b) = (exec destDir s a).bind (fun s1 => exec destDir s1 b) := by
  induction a generalizing s with
  | nil => simp [exec]
  | cons c rest ih =>
    simp only [List.cons_append, exec]
    cases step destDir s c with
    | none => simp
    | some s1 => simp [ih]

/-- Frame of one step of a per-file goroutine: only `os.MkdirAll`, `os.Create` and `io.Copy`
change the file system. -/
theorem stepTask_frame {o : Oracle} {s s' : State} {i : Nat} {t : Task}
    (ht : s.tasks[i]? = some t) (h : stepTask o s i = some s')
    (h1 : ∀ f, t.pc ≠ TaskPc.mkdirAll f) (h2 : ∀ f, t.pc ≠ TaskPc.create f)
    (h3 : ∀ f g, t.pc ≠ TaskPc.copy f g) : s'.fs = s.fs := by
  unfold stepTask at h
  rw [ht] at h
  simp only at h
  cases hpc : t.pc with
  | mkdirAll f => exact absurd hpc (h1 f)
  | create f => exact absurd hpc (h2 f)
  | copy f g => exact absurd hpc (h3 f g)
  | _ =>
    simp only [hpc] at h
    repeat' split at h
    all_goals first
      | (simp only [Option.some.injEq] at h; subst h; rfl)
      | simp at h

/-- The branch of a per-file goroutine up to the cancel event: after `os.Stat` it goes for the
mutex exactly when the destination exists, after the mutex comes the prompt, after the prompt
it unlocks with the answer, and after unlocking with the answer no it sends the cancel event
next. -/
theorem stepTask_decline {o : Oracle} {s s' : State} {i : Nat} {t : Task}
    (ht : s.tasks[i]? = some t) (h : stepTask o s i = some s') :
    (t.pc = TaskPc.stat →
        (s'.tasks[i]? = some { t with pc := TaskPc.lock }
          ↔ (o.fault = none ∧ ∃ node, s.fs.lookup t.dst = some node)))
      ∧ (t.pc = TaskPc.lock → s'.tasks[i]? = some { t with pc := TaskPc.prompt })
      ∧ (t.pc = TaskPc.prompt → s'.tasks[i]? = some { t with pc := TaskPc.unlock o.answer })
      ∧ (t.pc = TaskPc.unlock false →
          s'.tasks[i]? = some { t with pc := TaskPc.send (cancelEvent t.src t.dst) }) := by
  have hi := idx_lt_length ht
  unfold stepTask at h
  rw [ht] at h
  simp only at h
  refine ⟨?_, ?_, ?_, ?_⟩
  · intro hpc
    simp only [hpc, osStat] at h
    cases hf : o.fault with
    | some err =>
      simp only [hf, Option.some.injEq] at h
      subst h
      simp [State.setPc, hi]
    | none =>
      simp only [hf] at h
      cases hl : s.fs.lookup t.dst with
      | none =>
        simp only [hl, Option.some.injEq] at h
        subst h
        simp [State.setPc, hi]
      | some node =>
        simp only [hl, Option.some.injEq] at h
        subst h
        simp [State.setPc, hi]
  · intro hpc
    simp only [hpc] at h
    split at h
    · simp at h
    · simp only [Option.some.injEq] at h
      subst h
      simp [State.setPc, hi]
  · intro hpc
    simp only [hpc, Option.some.injEq] at h
    subst h
    simp [State.setPc, hi]
  · intro hpc
    simp only [hpc] at h
    split at h
    · simp only [Bool.not_false, if_true, Option.some.injEq] at h
      subst h
      simp [State.setPc, hi, cancelEvent, Task.failure]
    · simp at h

/-- A step of the calling goroutine leaves a started task and the history of sends as they
are. -/
theorem stepMain_task {destDir : GoString} {o : Oracle} {s s' : State} (hinv : Inv s)
    (h : stepMain destDir o s = some s') {i : Nat} {t : Task} (ht : s.tasks[i]? = some t)
    (hpc : t.pc ≠ TaskPc.unspawned) : s'.tasks[i]? = some t ∧ s'.sent = s.sent := by
  have hst := (hinv.started i t ht).mp hpc
  unfold stepMain at h
  split at h
  case h_2 k hk =>
    rw [hk] at hst
    simp only [MainPc.started] at hst
    split at h
    · rename_i t0 ht0
      simp only [Option.some.injEq] at h
      subst h
      refine ⟨?_, rfl⟩
      simp only
      rw [List.getElem?_set_ne (by omega)]
      exact ht
    · simp only [Option.some.injEq] at h
      subst h
      exact ⟨ht, rfl⟩
  all_goals
    repeat' split at h
    all_goals first
      | (simp only [Option.some.injEq] at h; subst h; exact ⟨ht, rfl⟩)
      | simp at h

theorem stepCloser_task {s s' : State} (h : stepCloser s = some s') :
    s'.tasks = s.tasks ∧ s'.sent = s.sent := by
  unfold stepCloser at h
  repeat' split at h
  all_goals first
    | (simp only [Option.some.injEq] at h; subst h; exact ⟨rfl, rfl⟩)
    | simp at h

/-- No step raises the rank of a task, and a step of the task lowers it. -/
theorem rank_step {destDir : GoString} {s s' : State} {c : Thread × Oracle} (hinv : Inv s)
    (h : step destDir s c = some s') {i : Nat} {t : Task} (ht : s.tasks[i]? = some t) :
    ∃ t', s'.tasks[i]? = some t' ∧ t'.pc.rank ≤ t.pc.rank
      ∧ (c.1 = Thread.task i → t'.pc.rank < t.pc.rank) := by
  unfold step at h
  split at h
  · rename_i hc
    by_cases hpc : t.pc = TaskPc.unspawned
    · have hstep : step destDir s c = some s' := by
        unfold step
        rw [hc]
        exact h
      have hlen := tasks_length_step hstep
      have hi := idx_lt_length ht
      have hi' : i < s'.tasks.length := by omega
      refine ⟨s'.tasks[i], List.getElem?_eq_getElem hi', ?_, by intro h'; rw [hc] at h'; cases h'⟩
      rw [hpc]
      simp only [TaskPc.rank]
      cases s'.tasks[i].pc <;> simp [TaskPc.rank]
    · obtain ⟨h1, _⟩ := stepMain_task hinv h ht hpc
      exact ⟨t, h1, Nat.le_refl _, by intro h'; rw [hc] at h'; cases h'⟩
  · rename_i j hc
    obtain ⟨tj, pc', htj, htasks, _, _, _, _, _, _, _, _, _, _, hch, hrank, _⟩ := stepTask_shape h
    by_cases hji : j = i
    · subst hji
      rw [htj] at ht
      simp only [Option.some.injEq] at ht
      subst ht
      have hlt : pc'.rank < tj.pc.rank := by
        rcases hch with ⟨he, _, _⟩ | ⟨ev, hpc, hpc', _⟩
        · rw [he] at hrank; omega
        · rw [hpc, hpc']; simp [TaskPc.rank]
      refine ⟨{ tj with pc := pc' }, ?_, Nat.le_of_lt hlt, fun _ => hlt⟩
      rw [htasks, List.getElem?_set_self (idx_lt_length htj)]
    · refine ⟨t, ?_, Nat.le_refl _, ?_⟩
      · rw [htasks, List.getElem?_set_ne hji]
        exact ht
      · intro h'
        rw [hc] at h'
        simp only [Thread.task.injEq] at h'
        exact absurd h' hji
  · rename_i hc
    obtain ⟨h1, _⟩ := stepCloser_task h
    exact ⟨t, by rw [h1]; exact ht, Nat.le_refl _, by intro h'; rw [hc] at h'; cases h'⟩

theorem rank_exec {destDir : GoString} {sched : List (Thread × Oracle)} {s s' : State}
    (hinv : Inv s) (h : exec destDir s sched = some s') {i : Nat} {t : Task}
    (ht : s.tasks[i]? = some t) :
    ∃ t', s'.tasks[i]? = some t' ∧ t'.pc.rank ≤ t.pc.rank := by
  induction sched generalizing s t with
  | nil =>
    simp only [exec, Option.some.injEq] at h
    subst h
    exact ⟨t, ht, Nat.le_refl _⟩
  | cons c rest ih =>
    simp only [exec] at h
    split at h
    · rename_i s1 hs1
      obtain ⟨t1, ht1, hle, _⟩ := rank_step hinv hs1 ht
      obtain ⟨t', ht', hle'⟩ := ih (inv_step hinv hs1) h ht1
      exact ⟨t', ht', Nat.le_trans hle' hle⟩
    · simp at h

theorem sentBy_append_other (sent : List (Nat × CopyEvent)) (i j : Nat) (ev : CopyEvent)
    (h : j ≠ i) :
    ((sent ++ [(j, ev)]).filter (fun p => p.1 = i)).map Prod.snd
      = (sent.filter (fun p => p.1 = i)).map Prod.snd := by
  simp [List.filter_append, List.filter_cons, h]

/-- The declined branch is closed under the steps of every thread. -/
theorem declined_step {destDir : GoString} {s s' : State} {c : Thread × Oracle} (hinv : Inv s)
    {i : Nat} {src : configMetadata} {dst : GoString} (hd : DeclinedAt s i src dst)
    (h : step destDir s c = some s') : DeclinedAt s' i src dst := by
  obtain ⟨t, ht, hsrc, hdst, hcase⟩ := hd
  have hpc : t.pc ≠ TaskPc.unspawned := by
    rcases hcase with ⟨h1 | h1, _⟩ | ⟨h1 | h1, _⟩ <;> rw [h1] <;> simp
  unfold step at h
  split at h
  · obtain ⟨h1, h2⟩ := stepMain_task hinv h ht hpc
    exact ⟨t, h1, hsrc, hdst, by simpa only [State.sentBy, h2] using hcase⟩
  · rename_i j hc
    by_cases hji : j = i
    · subst hji
      have hi := idx_lt_length ht
      unfold stepTask at h
      rw [ht] at h
      simp only at h
      rcases hcase with ⟨h1 | h1, hs⟩ | ⟨h1 | h1, hs⟩
      · simp only [h1] at h
        split at h
        · simp only [Bool.not_false, if_true, Option.some.injEq] at h
          subst h
          refine ⟨{ t with pc := TaskPc.send (cancelEvent src dst) }, ?_, hsrc, hdst,
            Or.inl ⟨Or.inr rfl, hs⟩⟩
          simp [State.setPc, hi, cancelEvent, Task.failure, hsrc, hdst]
        · simp at h
      · simp only [h1] at h
        split at h
        · simp at h
        · simp only [Option.some.injEq] at h
          subst h
          refine ⟨{ t with pc := TaskPc.wgDone }, ?_, hsrc, hdst, Or.inr ⟨Or.inl rfl, ?_⟩⟩
          · simp [State.setPc, hi]
          · simp only [State.sentBy] at hs ⊢
            simp only [State.setPc, List.filter_append, List.map_append, hs]
            simp
      · simp only [h1] at h
        split at h
        · simp at h
        · simp only [Option.some.injEq] at h
          subst h
          refine ⟨{ t with pc := TaskPc.finished }, ?_, hsrc, hdst, Or.inr ⟨Or.inr rfl, hs⟩⟩
          simp [State.setPc, hi]
      · simp [h1] at h
    · obtain ⟨tj, pc', htj, htasks, _, _, _, _, _, _, _, _, _, _, hch, _⟩ := stepTask_shape h
      refine ⟨t, ?_, hsrc, hdst, ?_⟩
      · rw [htasks, List.getElem?_set_ne hji]
        exact ht
      · have hsent : s'.sentBy i = s.sentBy i := by
          rcases hch with ⟨_, he, _⟩ | ⟨ev, _, _, _, he, _⟩
          · simp only [State.sentBy, he]
          · simp only [State.sentBy, he]
            exact sentBy_append_other s.sent i j ev hji
        rw [hsent]
        exact hcase
  · obtain ⟨h1, h2⟩ := stepCloser_task h
    exact ⟨t, by rw [h1]; exact ht, hsrc, hdst, by simpa only [State.sentBy, h2] using hcase⟩

theorem declined_exec {destDir : GoString} {sched : List (Thread × Oracle)} {s s' : State}
    (hinv : Inv s) {i : Nat} {src : configMetadata} {dst : GoString}
    (hd : DeclinedAt s i src dst) (h : exec destDir s sched = some s') :
    DeclinedAt s' i src dst := by
  induction sched generalizing s with
  | nil =>
    simp only [exec, Option.some.injEq] at h
    exact h ▸ hd
  | cons c rest ih =>
    simp only [exec] at h
    split at h
    · rename_i s1 hs1
      exact ih (inv_step hinv hs1) (declined_step hinv hd hs1) h
    · simp at h


theorem pcAfter_some {destDir : GoString} {s0 : State} {sched : List (Thread × Oracle)} {i : Nat}
    {pc : TaskPc} (h : pcAfter destDir s0 sched i = some pc) :
    ∃ s t, exec destDir s0 sched = some s ∧ s.tasks[i]? = some t ∧ t.pc = pc := by
  unfold pcAfter at h
  cases he : exec destDir s0 sched with
  | none => simp [he] at h
  | some s =>
    cases ht : s.tasks[i]? with
    | none => simp [he, ht] at h
    | some t =>
      simp only [he, ht, Option.some_bind, Option.map_some', Option.some.injEq] at h
      exact ⟨s, t, rfl, ht, h⟩

/-- Where a task is about to unlock after the answer no, it is on the declined branch with the
event of its file. -/
theorem declined_of_unlock {destDir : GoString} {srcFiles : List configMetadata} {s : State}
    (hinv : Inv s) (hlab : Labelled destDir srcFiles s) {i : Nat} {t : Task}
    (ht : s.tasks[i]? = some t) (hpc : t.pc = TaskPc.unlock false) :
    srcFiles[i]? = some t.src ∧ DeclinedAt s i t.src (Join destDir t.src.Path) := by
  constructor
  · rw [← hlab.src, List.getElem?_map, ht]
    rfl
  · refine ⟨t, ht, rfl, hlab.dst i t ht (by rw [hpc]; simp), Or.inl ⟨Or.inl hpc, ?_⟩⟩
    have := hinv.sentBy i
    rw [ht] at this
    simp only [hpc, TaskPc.hasSent, Bool.toNat_false, List.length_eq_zero] at this
    simp [State.sentBy, this]

/-- A task on the declined branch does not write. -/
theorem declined_frame {o : Oracle} {s s' : State} {i : Nat} {src : configMetadata}
    {dst : GoString} (hd : DeclinedAt s i src dst) (h : stepTask o s i = some s') :
    s'.fs = s.fs := by
  obtain ⟨t, ht, _, _, hcase⟩ := hd
  apply stepTask_frame ht h
  all_goals
    rcases hcase with ⟨h1 | h1, _⟩ | ⟨h1 | h1, _⟩ <;> rw [h1] <;> simp

/-- An execution of `CopyFilesConcurrently` in which the prompt of task `i` is answered with
no: no step of task `i`, before or after the prompt, changes the file system, and the task is
on the declined branch at the end. -/
theorem declines_run {srcFiles : List configMetadata} {destDir : GoString} {fs : FS}
    {sched : List (Thread × Oracle)} {s : State} {i : Nat}
    (h : CopyFilesConcurrently srcFiles destDir fs sched = some s)
    (hd : Declines destDir (State.init srcFiles fs) sched i) :
    (∀ pre o post sa sb, sched = pre ++ (Thread.task i, o) :: post →
        exec destDir (State.init srcFiles fs) pre = some sa → stepTask o sa i = some sb →
        sb.fs = sa.fs)
      ∧ ∃ f, srcFiles[i]? = some f ∧ DeclinedAt s i f (Join destDir f.Path) := by
  obtain ⟨a, b, hsplit, hpc⟩ := hd
  obtain ⟨s1, t1, he1, ht1, hpc1⟩ := pcAfter_some hpc
  have hinv1 : Inv s1 := inv_exec (inv_init srcFiles fs) he1
  have hlab1 : Labelled destDir srcFiles s1 :=
    labelled_exec (inv_init srcFiles fs) (labelled_init destDir srcFiles fs) he1
  obtain ⟨hf, hd1⟩ := declined_of_unlock hinv1 hlab1 ht1 hpc1
  constructor
  · intro pre o post sa sb hsched hpre hstep
    have hinva : Inv sa := inv_exec (inv_init srcFiles fs) hpre
    rw [hsplit] at hsched
    rcases List.append_eq_append_iff.mp hsched with ⟨a', ha, hb⟩ | ⟨c', ha, hb⟩
    · -- the step comes after the answer
      rw [ha, exec_append, he1] at hpre
      exact declined_frame (declined_exec hinv1 hd1 hpre) hstep
    · -- the step comes before the answer
      rw [ha, exec_append, hpre] at he1
      simp only [Option.some_bind] at he1
      cases c' with
      | nil =>
        simp only [exec, Option.some.injEq] at he1
        subst he1
        exact declined_frame hd1 hstep
      | cons c0 rest =>
        simp only [List.cons_append, List.cons.injEq] at hb
        obtain ⟨hc0, _⟩ := hb
        subst hc0
        simp only [exec, step, hstep] at he1
        obtain ⟨ta, _, hta, _⟩ := stepTask_shape hstep
        have hstep' : step destDir sa (Thread.task i, o) = some sb := by
          simp only [step]
          exact hstep
        obtain ⟨tb, htb, _, hlt⟩ := rank_step hinva hstep' hta
        obtain ⟨t', ht', hle⟩ := rank_exec (inv_step hinva hstep') he1 htb
        rw [ht1] at ht'
        simp only [Option.some.injEq] at ht'
        subst ht'
        have hlt' := hlt rfl
        rw [hpc1] at hle
        simp only [TaskPc.rank] at hle
        apply stepTask_frame hta hstep
        all_goals
          intros
          intro hc
          rw [hc] at hlt'
          simp only [TaskPc.rank] at hlt'
          omega
  · refine ⟨t1.src, hf, ?_⟩
    unfold CopyFilesConcurrently at h
    rw [hsplit, exec_append, he1] at h
    exact declined_exec hinv1 hd1 h

/-- A step of the calling goroutine removes or replaces no node. -/
theorem stepMain_keeps {destDir : GoString} {o : Oracle} {s s' : State}
    (h : stepMain destDir o s = some s') {k : GoString} {node : Node}
    (hk : s.fs k = some node) : s'.fs k = some node := by
  unfold stepMain at h
  split at h
  case h_1 =>
    split at h
    · simp only [Option.some.injEq] at h
      subst h
      exact hk
    · rename_i fs1 hm
      simp only [Option.some.injEq] at h
      subst h
      exact mkdirAllRec_preserves _ _ _ _ (osMkdirAll_ok hm) k node hk
  all_goals
    repeat' split at h
    all_goals first
      | (simp only [Option.some.injEq] at h; subst h; exact hk)
      | simp at h

theorem stepCloser_fs {s s' : State} (h : stepCloser s = some s') : s'.fs = s.fs := by
  unfold stepCloser at h
  repeat' split at h
  all_goals first
    | (simp only [Option.some.injEq] at h; subst h; rfl)
    | simp at h

/-- `io.Copy` writes under the handle of the destination only. -/
theorem ioCopy_keeps (fs : FS) (fault : Option (Nat × GoError)) (dstFile srcFile k : GoString)
    (hk : k ≠ dstFile) : (ioCopy fs fault dstFile srcFile).1 k = fs k := by
  unfold ioCopy
  split
  · split <;> simp [hk]
  · rfl

/-- A step of a per-file goroutine with another destination removes or replaces no node under
the name `k`. -/
theorem stepTask_keeps {o : Oracle} {s s' : State} {j : Nat} {t : Task}
    (ht : s.tasks[j]? = some t) (h : stepTask o s j = some s')
    (hh : ∀ f g, t.pc = TaskPc.copy f g → g = Clean t.dst) {k : GoString} {node : Node}
    (hne : Clean t.dst ≠ k) (hk : s.fs k = some node) : s'.fs k = some node := by
  cases hpc : t.pc with
  | mkdirAll f =>
    unfold stepTask at h
    rw [ht] at h
    simp only [hpc] at h
    split at h
    · simp only [Option.some.injEq] at h
      subst h
      exact hk
    · rename_i fs1 hm
      simp only [Option.some.injEq] at h
      subst h
      exact mkdirAllRec_preserves _ _ _ _ (osMkdirAll_ok hm) k node hk
  | create f =>
    unfold stepTask at h
    rw [ht] at h
    simp only [hpc] at h
    split at h
    · simp only [Option.some.injEq] at h
      subst h
      exact hk
    · rename_i fs2 dstFile hc
      simp only [Option.some.injEq] at h
      subst h
      obtain ⟨_, _, hfs, _⟩ := osCreate_ok hc
      show fs2 k = some node
      rw [hfs]
      simp only [FS.store, if_neg (Ne.symm hne)]
      exact hk
  | copy f g =>
    have hg := hh f g hpc
    unfold stepTask at h
    rw [ht] at h
    simp only [hpc] at h
    have hkg : k ≠ g := by rw [hg]; exact Ne.symm hne
    have hio := ioCopy_keeps s.fs (o.fault.map (fun err => (o.written, err))) g f k hkg
    split at h
    all_goals
      rename_i heq
      simp only [Option.some.injEq] at h
      subst h
      show _ = some node
      simp only [State.setPc]
      rw [heq] at hio
      simp only at hio
      rw [hio]
      exact hk
  | _ =>
    rw [stepTask_frame ht h (by rw [hpc]; simp) (by rw [hpc]; simp) (by rw [hpc]; simp)]
    exact hk

theorem handles_init (srcFiles : List configMetadata) (fs : FS) :
    Handles (State.init srcFiles fs) := by
  intro j t f g ht hpc
  simp only [State.init, List.getElem?_map] at ht
  cases hs : srcFiles[j]? with
  | none => simp [hs] at ht
  | some src =>
    simp only [hs, Option.map_some', Option.some.injEq] at ht
    subst ht
    simp at hpc

/-- What a step of a per-file goroutine does to its own handle. -/
theorem stepTask_handle {o : Oracle} {s s' : State} {i : Nat} {t : Task}
    (ht : s.tasks[i]? = some t) (h : stepTask o s i = some s') :
    ∃ pc', s'.tasks = s.tasks.set i { t with pc := pc' }
      ∧ ∀ f g, pc' = TaskPc.copy f g → g = Clean t.dst := by
  unfold stepTask at h
  rw [ht] at h
  simp only at h
  cases hpc : t.pc with
  | create f =>
    simp only [hpc] at h
    split at h
    · simp only [Option.some.injEq] at h
      subst h
      exact ⟨_, rfl, by intro f g hc; simp at hc⟩
    · rename_i fs2 dstFile hc
      simp only [Option.some.injEq] at h
      subst h
      obtain ⟨_, _, _, hh⟩ := osCreate_ok hc
      refine ⟨_, rfl, ?_⟩
      intro f' g hc'
      simp only [TaskPc.copy.injEq] at hc'
      rw [← hc'.2]
      exact hh
  | _ =>
    simp only [hpc] at h
    repeat' split at h
    all_goals first
      | (simp only [Option.some.injEq] at h
         subst h
         exact ⟨_, rfl, by intro f g hc; simp at hc⟩)
      | simp at h

theorem handles_step {destDir : GoString} {s s' : State} {c : Thread × Oracle}
    (hh : Handles s) (h : step destDir s c = some s') : Handles s' := by
  unfold step at h
  split at h
  · -- the calling goroutine
    unfold stepMain at h
    split at h
    case h_2 k hk =>
      split at h
      · rename_i t0 ht0
        simp only [Option.some.injEq] at h
        subst h
        intro j t f g ht hpc
        simp only at ht
        rw [getElem?_set_task _ _ _ _ t0 ht0] at ht
        split at ht
        · simp only [Option.some.injEq] at ht
          subst ht
          simp at hpc
        · exact hh j t f g ht hpc
      · simp only [Option.some.injEq] at h
        subst h
        exact hh
    all_goals
      repeat' split at h
      all_goals first
        | (simp only [Option.some.injEq] at h; subst h; exact hh)
        | simp at h
  · rename_i i hc
    obtain ⟨ti, _, hti, _⟩ := stepTask_shape h
    obtain ⟨pc', htasks, hpc'⟩ := stepTask_handle hti h
    intro j t f g ht hpc
    rw [htasks, getElem?_set_task _ _ _ _ ti hti] at ht
    split at ht
    · simp only [Option.some.injEq] at ht
      subst ht
      exact hpc' f g hpc
    · exact hh j t f g ht hpc
  · obtain ⟨h1, _⟩ := stepCloser_task h
    intro j t f g ht hpc
    rw [h1] at ht
    exact hh j t f g ht hpc

theorem handles_exec {destDir : GoString} {sched : List (Thread × Oracle)} {s s' : State}
    (hh : Handles s) (h : exec destDir s sched = some s') : Handles s' := by
  induction sched generalizing s with
  | nil =>
    simp only [exec, Option.some.injEq] at h
    exact h ▸ hh
  | cons c rest ih =>
    simp only [exec] at h
    split at h
    · rename_i s1 hs1
      exact ih (handles_step hh hs1) h
    · simp at h

/-- In an execution in which task `i` declines and no other entry of the file list has its
destination, the node under the destination of task `i` stays what it is. -/
theorem declines_keeps {srcFiles : List configMetadata} {destDir : GoString} {fs : FS}
    {sched : List (Thread × Oracle)} {s : State} {i : Nat}
    (h : CopyFilesConcurrently srcFiles destDir fs sched = some s)
    (hd : Declines destDir (State.init srcFiles fs) sched i)
    {f : configMetadata} (hf : srcFiles[i]? = some f)
    (hu : ∀ j g, j ≠ i → srcFiles[j]? = some g →
      Clean (Join destDir g.Path) ≠ Clean (Join destDir f.Path))
    (pre post : List (Thread × Oracle)) (sa : State) (node : Node)
    (hsched : sched = pre ++ post)
    (hpre : exec destDir (State.init srcFiles fs) pre = some sa)
    (hk : sa.fs.lookup (Join destDir f.Path) = some node) :
    s.fs.lookup (Join destDir f.Path) = some node := by
  have hframe := (declines_run h hd).1
  have hne : Join destDir f.Path ≠ [] := by
    intro hc
    simp [FS.lookup, hc] at hk
  simp only [FS.lookup, if_neg hne] at hk ⊢
  unfold CopyFilesConcurrently at h
  rw [hsched, exec_append, hpre] at h
  simp only [Option.some_bind] at h
  have key : ∀ (post pre : List (Thread × Oracle)) (sa : State), sched = pre ++ post →
      exec destDir (State.init srcFiles fs) pre = some sa →
      sa.fs (Clean (Join destDir f.Path)) = some node → exec destDir sa post = some s →
      s.fs (Clean (Join destDir f.Path)) = some node := by
    intro post
    induction post with
    | nil =>
      intro pre sa _ _ hk h
      simp only [exec, Option.some.injEq] at h
      exact h ▸ hk
    | cons c rest ih =>
      intro pre sa hsched hpre hk h
      simp only [exec] at h
      cases hs1 : step destDir sa c with
      | none => simp [hs1] at h
      | some s1 =>
        simp only [hs1] at h
        have hpre1 : exec destDir (State.init srcFiles fs) (pre ++ [c]) = some s1 := by
          rw [exec_append, hpre]
          simp [exec, hs1]
        refine ih (pre ++ [c]) s1 (by simp [hsched]) hpre1 ?_ h
        have hinv : Inv sa := inv_exec (inv_init srcFiles fs) hpre
        have hlab : Labelled destDir srcFiles sa :=
          labelled_exec (inv_init srcFiles fs) (labelled_init destDir srcFiles fs) hpre
        have hha : Handles sa := handles_exec (handles_init srcFiles fs) hpre
        obtain ⟨th, o⟩ := c
        cases th with
        | main =>
          have hst : stepMain destDir o sa = some s1 := hs1
          exact stepMain_keeps hst hk
        | closer =>
          have hst : stepCloser sa = some s1 := hs1
          rw [stepCloser_fs hst]
          exact hk
        | task j =>
          have hst : stepTask o sa j = some s1 := hs1
          by_cases hji : j = i
          · subst hji
            rw [hframe pre o rest sa s1 hsched hpre hst]
            exact hk
          · obtain ⟨tj, _, htj, _, _, _, _, _, _, _, _, hsp, _⟩ := stepTask_shape hst
            have hsrc : srcFiles[j]? = some tj.src := by
              rw [← hlab.src, List.getElem?_map, htj]
              rfl
            have hdst := hlab.dst j tj htj hsp
            refine stepTask_keeps htj hst (fun f g => hha j tj f g htj) ?_ hk
            rw [hdst]
            exact hu j tj.src hji hsrc
  exact key post pre sa hsched hpre hk h

/-! ## Theorems: the declined overwrite -/

/-- Run without another thread in between, a per-file task whose destination exists and whose
prompt is answered with no sends exactly the cancel event and leaves the file system as it
was; so does the goroutine of the transition system. -/
theorem copyTask_declined_alone (env : Outcomes) (fs : FS) (src : configMetadata)
    (destDir : GoString) (node : Node)
    (hstat : env.stat = none)
    (hexists : fs.lookup (Join destDir src.Path) = some node)
    (hno : env.overwrite = false) :
    (copyTask env fs src (Join destDir src.Path)).2
        = [{ SrcPath := src.Path, DestPath := Join destDir src.Path, PostMessage := [],
             Error := some ⟨str "overwrite cancelled by user"⟩ }]
      ∧ (copyTask env fs src (Join destDir src.Path)).1 = fs
      ∧ (copyTask env fs src (Join destDir src.Path)).1.lookup (Join destDir src.Path)
          = fs.lookup (Join destDir src.Path)
      ∧ ∀ (s : State) (i : Nat) (t : Task), Ready s i t → t.pc = TaskPc.stat →
          s.confirmMu = false → s.fs = fs → t.src = src → t.dst = Join destDir src.Path →
          (runTaskAlone env i 11 s).fs = fs
            ∧ (runTaskAlone env i 11 s).sent
                = s.sent ++ [(i, { SrcPath := src.Path, DestPath := Join destDir src.Path,
                                   PostMessage := [],
                                   Error := some ⟨str "overwrite cancelled by user"⟩ })] := by
  have hc : copyTask env fs src (Join destDir src.Path)
      = (fs, [{ SrcPath := src.Path, DestPath := Join destDir src.Path, PostMessage := [],
                    Error := some ⟨str "overwrite cancelled by user"⟩ }]) := by
    simp [copyTask, osStat, hstat, hexists, hno, overwriteCancelled]
  refine ⟨by rw [hc], by rw [hc], by rw [hc], ?_⟩
  intro s i t hr hpc hmu hfs hsrc hdst
  have := runTaskAlone_eq_copyTask env s i t hr hpc hmu
  rw [hfs, hsrc, hdst, hc] at this
  exact ⟨this.1, by simpa using this.2.1⟩

/-- C4 fails as stated when another per-file task has the same destination: the catalog entry
`a.conf` occurs twice, `proj/a.conf` exists with content `old`; both tasks are started, task 0
finds the destination with `os.Stat`, task 1 is answered yes and copies the file, then task 0
is answered no. Task 0 sends the cancel event and nothing else, and the content of
`proj/a.conf` is `x` when it ends although it was `old` when it began. -/
theorem declined_overwrite_interference_counterexample :
    Join (str "proj") (str "a.conf") = str "proj/a.conf"
      ∧ projectFS.lookup (str "proj/a.conf") = some (Node.file (str "old"))
      ∧ (CopyFilesConcurrently [⟨str "a.conf", str "hi"⟩, ⟨str "a.conf", str "hi"⟩] (str "proj")
          projectFS (interferenceSchedule.take 3)).map
            (fun s => (s.tasks.map (fun t => t.pc), s.fs.lookup (str "proj/a.conf")))
          = some ([TaskPc.stat, TaskPc.stat], some (Node.file (str "old")))
      ∧ pcAfter (str "proj")
          (State.init [⟨str "a.conf", str "hi"⟩, ⟨str "a.conf", str "hi"⟩] projectFS)
          (interferenceSchedule.take 17) 0 = some (TaskPc.unlock false)
      ∧ (CopyFilesConcurrently [⟨str "a.conf", str "hi"⟩, ⟨str "a.conf", str "hi"⟩] (str "proj")
          projectFS (interferenceSchedule.take 20)).map
            (fun s => (s.tasks.map (fun t => t.pc), s.sentBy 0,
              s.fs.lookup (str "proj/a.conf")))
          = some ([TaskPc.finished, TaskPc.finished],
              [{ SrcPath := str "a.conf", DestPath := str "proj/a.conf", PostMessage := [],
                 Error := some ⟨str "overwrite cancelled by user"⟩ }],
              some (Node.file (str "x")))
      ∧ (CopyFilesConcurrently [⟨str "a.conf", str "hi"⟩, ⟨str "a.conf", str "hi"⟩] (str "proj")
          projectFS interferenceSchedule).map
            (fun s => (s.main, s.sentBy 0, s.fs.lookup (str "proj/a.conf")))
          = some (MainPc.returned (some ⟨str "1 files failed to copy"⟩),
              [{ SrcPath := str "a.conf", DestPath := str "proj/a.conf", PostMessage := [],
                 Error := some ⟨str "overwrite cancelled by user"⟩ }],
              some (Node.file (str "x"))) := by
  decide

/-- C4 (amended): in every execution of `CopyFilesConcurrently`, under every interleaving and
every outcome of the system calls, in which the overwrite prompt of the per-file task `i` is
answered with no — the task reaches the prompt only when `os.Stat` finds its destination —
no step of task `i` changes the file system; the task sends nothing before, and exactly one
event when, it sends: the event with the path of its file, the destination root joined with
it, an empty post-copy message and the overwrite-cancelled error, and this is what it has sent
when the call returns. When no other entry of the file list has the same destination, whatever
is under the destination path at any point of the execution is still there, unchanged, at its
end. Whatever the state, a step of a per-file task at `os.Stat`, at the mutex, at the prompt,
at the send or at `wg.Done()` leaves the file system as it is. Run without another thread in
between, the task leaves the whole file system, and so the content under its destination path,
as it was. -/
theorem copyTask_declined_overwrite (srcFiles : List configMetadata) (destDir : GoString)
    (fs : FS) (sched : List (Thread × Oracle)) (s : State) (i : Nat)
    (h : CopyFilesConcurrently srcFiles destDir fs sched = some s)
    (hd : Declines destDir (State.init srcFiles fs) sched i) :
    (∀ pre o post sa sb, sched = pre ++ (Thread.task i, o) :: post →
        exec destDir (State.init srcFiles fs) pre = some sa → stepTask o sa i = some sb →
        sb.fs = sa.fs)
      ∧ (∃ f t, srcFiles[i]? = some f ∧ s.tasks[i]? = some t
          ∧ (((t.pc = TaskPc.unlock false
                ∨ t.pc = TaskPc.send
                    { SrcPath := f.Path, DestPath := Join destDir f.Path, PostMessage := [],
                      Error := some ⟨str "overwrite cancelled by user"⟩ })
              ∧ s.sentBy i = [])
            ∨ ((t.pc = TaskPc.wgDone ∨ t.pc = TaskPc.finished)
              ∧ s.sentBy i
                  = [{ SrcPath := f.Path, DestPath := Join destDir f.Path, PostMessage := [],
                       Error := some ⟨str "overwrite cancelled by user"⟩ }]))
          ∧ (∀ r, s.main = MainPc.returned r →
              s.sentBy i
                = [{ SrcPath := f.Path, DestPath := Join destDir f.Path, PostMessage := [],
                     Error := some ⟨str "overwrite cancelled by user"⟩ }]))
      ∧ (∀ f, srcFiles[i]? = some f →
          (∀ j g, j ≠ i → srcFiles[j]? = some g →
            Clean (Join destDir g.Path) ≠ Clean (Join destDir f.Path)) →
          ∀ (pre post : List (Thread × Oracle)) (sa : State) (node : Node),
            sched = pre ++ post → exec destDir (State.init srcFiles fs) pre = some sa →
            sa.fs.lookup (Join destDir f.Path) = some node →
            s.fs.lookup (Join destDir f.Path) = some node)
      ∧ (∀ (o : Oracle) (s0 s1 : State) (j : Nat) (t : Task), s0.tasks[j]? = some t →
          stepTask o s0 j = some s1 →
          ((t.pc = TaskPc.stat ∨ t.pc = TaskPc.lock ∨ t.pc = TaskPc.prompt
              ∨ (∃ r, t.pc = TaskPc.unlock r) ∨ (∃ ev, t.pc = TaskPc.send ev)
              ∨ t.pc = TaskPc.wgDone) → s1.fs = s0.fs)
          ∧ (t.pc = TaskPc.stat →
              (s1.tasks[j]? = some { t with pc := TaskPc.lock }
                ↔ (o.fault = none ∧ ∃ node, s0.fs.lookup t.dst = some node)))
          ∧ (t.pc = TaskPc.lock → s1.tasks[j]? = some { t with pc := TaskPc.prompt })
          ∧ (t.pc = TaskPc.prompt → s1.tasks[j]? = some { t with pc := TaskPc.unlock o.answer })
          ∧ (t.pc = TaskPc.unlock false →
              s1.tasks[j]?
                = some { t with
                    pc := TaskPc.send
                      { SrcPath := t.src.Path, DestPath := t.dst, PostMessage := [],
                        Error := some ⟨str "overwrite cancelled by user"⟩ } }))
      ∧ (∀ (env : Outcomes) (fs0 : FS) (src : configMetadata) (node : Node),
          env.stat = none → fs0.lookup (Join destDir src.Path) = some node →
          env.overwrite = false →
          (copyTask env fs0 src (Join destDir src.Path)).2
              = [{ SrcPath := src.Path, DestPath := Join destDir src.Path, PostMessage := [],
                   Error := some ⟨str "overwrite cancelled by user"⟩ }]
            ∧ (copyTask env fs0 src (Join destDir src.Path)).1 = fs0
            ∧ (copyTask env fs0 src (Join destDir src.Path)).1.lookup (Join destDir src.Path)
                = fs0.lookup (Join destDir src.Path)
            ∧ ∀ (s0 : State) (j : Nat) (t : Task), Ready s0 j t → t.pc = TaskPc.stat →
                s0.confirmMu = false → s0.fs = fs0 → t.src = src →
                t.dst = Join destDir src.Path →
                (runTaskAlone env j 11 s0).fs = fs0
                  ∧ (runTaskAlone env j 11 s0).sent
                      = s0.sent ++ [(j, { SrcPath := src.Path,
                                          DestPath := Join destDir src.Path,
                                          PostMessage := [],
                                          Error := some ⟨str "overwrite cancelled by user"⟩ })]) := by
  obtain ⟨hframe, f, hf, t, ht, hsrc, hdst, hcase⟩ := declines_run h hd
  have hinv : Inv s := inv_exec (inv_init srcFiles fs) h
  have hev : cancelEvent f (Join destDir f.Path)
      = { SrcPath := f.Path, DestPath := Join destDir f.Path, PostMessage := [],
          Error := some ⟨str "overwrite cancelled by user"⟩ } := rfl
  rw [hev] at hcase
  refine ⟨hframe, ⟨f, t, hf, ht, hcase, ?_⟩, ?_, ?_, ?_⟩
  · intro r hm
    have hfin := (inv_returned hinv hm).1 t (List.getElem?_mem ht)
    rcases hcase with ⟨h1 | h1, _⟩ | ⟨_, h2⟩
    · rw [hfin] at h1; cases h1
    · rw [hfin] at h1; cases h1
    · exact h2
  · intro g hg hu pre post sa node hsched hpre hk
    exact declines_keeps h hd hg hu pre post sa node hsched hpre hk
  · intro o s0 s1 j t0 ht0 hstep
    refine ⟨?_, stepTask_decline ht0 hstep⟩
    intro hpc
    apply stepTask_frame ht0 hstep
    all_goals
      intros
      intro hc
      rw [hc] at hpc
      simp at hpc
  · intro env fs0 src node hstat hexists hno
    exact copyTask_declined_alone env fs0 src destDir node hstat hexists hno

theorem copyTask_declined_overwrite_witness :
    ∃ s, CopyFilesConcurrently [⟨str "a.conf", str "hi"⟩] (str "proj") projectFS
        (sequentialSchedule 6 false) = some s
      ∧ Declines (str "proj") (State.init [⟨str "a.conf", str "hi"⟩] projectFS)
          (sequentialSchedule 6 false) 0
      ∧ s.main = MainPc.returned (some ⟨str "1 files failed to copy"⟩)
      ∧ s.sentBy 0 = [{ SrcPath := str "a.conf", DestPath := str "proj/a.conf",
                        PostMessage := [],
                        Error := some ⟨str "overwrite cancelled by user"⟩ }]
      ∧ s.fs.lookup (Join (str "proj") (str "a.conf")) = some (Node.file (str "old"))
      ∧ (copyTask (Outcomes.clean false) projectFS ⟨str "a.conf", str "hi"⟩
          (Join (str "proj") (str "a.conf"))).1 = projectFS := by
  have hs : (CopyFilesConcurrently [⟨str "a.conf", str "hi"⟩] (str "proj") projectFS
      (sequentialSchedule 6 false)).isSome = true := by decide
  obtain ⟨s, hs⟩ := Option.isSome_iff_exists.mp hs
  have hm : (CopyFilesConcurrently [⟨str "a.conf", str "hi"⟩] (str "proj") projectFS
      (sequentialSchedule 6 false)).map (fun s => s.main)
      = some (MainPc.returned (some ⟨str "1 files failed to copy"⟩)) := by
    decide
  rw [hs] at hm
  simp only [Option.map_some', Option.some.injEq] at hm
  have hd : Declines (str "proj") (State.init [⟨str "a.conf", str "hi"⟩] projectFS)
      (sequentialSchedule 6 false) 0 :=
    ⟨(sequentialSchedule 6 false).take 7, (sequentialSchedule 6 false).drop 7, by decide,
      by decide⟩
  have := copyTask_declined_overwrite [⟨str "a.conf", str "hi"⟩] (str "proj") projectFS
    (sequentialSchedule 6 false) s 0 hs hd
  obtain ⟨f, t, hf, _, _, hret⟩ := this.2.1
  have hf0 : f = ⟨str "a.conf", str "hi"⟩ := by
    simp only [List.getElem?_cons_zero, Option.some.injEq] at hf
    exact hf.symm
  subst hf0
  have hu : ∀ (j : Nat) (g : configMetadata), j ≠ 0 →
      [(⟨str "a.conf", str "hi"⟩ : configMetadata)][j]? = some g →
      Clean (Join (str "proj") g.Path)
        ≠ Clean (Join (str "proj") (⟨str "a.conf", str "hi"⟩ : configMetadata).Path) := by
    intro j g hj hg
    cases j with
    | zero => exact absurd rfl hj
    | succ n => simp at hg
  exact ⟨s, hs, hd, hm, hret _ hm,
    this.2.2.1 ⟨str "a.conf", str "hi"⟩ rfl hu [] (sequentialSchedule 6 false)
      (State.init [⟨str "a.conf", str "hi"⟩] projectFS) (Node.file (str "old")) rfl rfl
      (by decide),
    (this.2.2.2.2 (Outcomes.clean false) projectFS ⟨str "a.conf", str "hi"⟩
      (Node.file (str "old")) (by decide) (by decide) (by decide)).2.1⟩

end ProjectConfigs
